import Mathlib

/-!
Vacation-Planner: slot solutions, top-K selection and day knapsack

A shallow embedding of `solution/slot_solution.go`,
`solution/generate_slot_solution.go` and the parsing and detail enrichment of
`iowrappers/nearby_search.go`, followed by theorems about the embedded
functions.

Conventions of the embedding.

* A Go `string` is its byte sequence (`GoString`, a list of byte values).
  `len(s)` is the number of bytes, `s[i]` is the `i`-th byte, and
  `for _, c := range s` walks the UTF-8 decoded runes (`runes`).
* `float64` values are only ever compared or passed along by the embedded
  code, never added or multiplied; they are elements of a type `F`, carrying a
  linear order where comparisons are made (NaN is outside the model).
* A run-time panic or `log.Fatal` is an explicit outcome.
-/

namespace VacationPlanner

/-! ## Go strings -/

/-- A Go string: a sequence of bytes (each a value below 256). -/
abbrev GoString := List Nat

/-- The Go string whose bytes are the code points of an ASCII literal. -/
def ascii (s : String) : GoString := s.toList.map Char.toNat

/-- The rune reported for an invalid UTF-8 sequence (`utf8.RuneError`). -/
def RuneError : Nat := 65533

/-- Decoding of the first rune of a byte sequence with its width in bytes, as
`utf8.DecodeRuneInString` does it: an invalid or truncated sequence is
`RuneError` of width 1 (width 0 for the empty string). -/
def decodeRune : GoString → Nat × Nat
  | [] => (RuneError, 0)
  | b0 :: rest =>
    if b0 < 0x80 then (b0, 1)
    else if b0 < 0xC2 then (RuneError, 1)
    else if b0 < 0xE0 then
      match rest with
      | b1 :: _ =>
        if 0x80 ≤ b1 ∧ b1 ≤ 0xBF then ((b0 % 32) * 64 + b1 % 64, 2) else (RuneError, 1)
      | [] => (RuneError, 1)
    else if b0 < 0xF0 then
      match rest with
      | b1 :: b2 :: _ =>
        if (if b0 = 0xE0 then 0xA0 else 0x80) ≤ b1 ∧ b1 ≤ (if b0 = 0xED then 0x9F else 0xBF)
            ∧ 0x80 ≤ b2 ∧ b2 ≤ 0xBF then
          ((b0 % 16) * 4096 + (b1 % 64) * 64 + b2 % 64, 3)
        else (RuneError, 1)
      | _ => (RuneError, 1)
    else if b0 < 0xF5 then
      match rest with
      | b1 :: b2 :: b3 :: _ =>
        if (if b0 = 0xF0 then 0x90 else 0x80) ≤ b1 ∧ b1 ≤ (if b0 = 0xF4 then 0x8F else 0xBF)
            ∧ 0x80 ≤ b2 ∧ b2 ≤ 0xBF ∧ 0x80 ≤ b3 ∧ b3 ≤ 0xBF then
          ((b0 % 8) * 262144 + (b1 % 64) * 4096 + (b2 % 64) * 64 + b3 % 64, 4)
        else (RuneError, 1)
      | _ => (RuneError, 1)
    else (RuneError, 1)

/-- The runes of `for idx, c := range s` with the byte index each starts at;
`skip` is the number of bytes still belonging to the rune decoded last and
`pos` the index of the next byte. -/
def runesFrom : GoString → Nat → Nat → List (Nat × Nat)
  | [], _, _ => []
  | _ :: rest, skip + 1, pos => runesFrom rest skip (pos + 1)
  | b :: rest, 0, pos =>
    (pos, (decodeRune (b :: rest)).1) :: runesFrom rest ((decodeRune (b :: rest)).2 - 1) (pos + 1)

/-- The pairs `(idx, c)` of `for idx, c := range s`. -/
def rangeString (s : GoString) : List (Nat × Nat) := runesFrom s 0 0

/-- The runes `c` of `for _, c := range s`: the characters of the string. -/
def runes (s : GoString) : List Nat := (rangeString s).map Prod.snd

/-! ## Data model (`slot_solution.go`) -/

/-- `EventEatery = iota + 10`. -/
def EventEatery : Nat := 10
/-- `EventVisit`, the next constant of the block. -/
def EventVisit : Nat := 11
/-- `EventTravel`, the last constant of the block. -/
def EventTravel : Nat := 12

/-- `EateryLimitPerSlot`. -/
def EateryLimitPerSlot : Nat := 1
/-- `VisitLimitPerSlot`. -/
def VisitLimitPerSlot : Nat := 3
/-- `LimitPerSlot`. -/
def LimitPerSlot : Nat := 4

/-- The fields of `matching.Place` that the embedded code reads. The type is
declared in package `matching`; `Location` is `[2]float64`. -/
structure Place (F : Type) where
  PlaceId : GoString
  Name : GoString
  Location : F × F
deriving DecidableEq, Repr

/-- The zero value `matching.Place{}`. -/
def Place.zero {F : Type} [Zero F] : Place F := ⟨[], [], (0, 0)⟩

/-- `TripEvents`: the two times are kept as integers. -/
structure TripEvents (F : Type) where
  tag : Nat
  starttime : Int
  endtime : Int
  startplace : Place F
  endplace : Place F
deriving DecidableEq, Repr

/-- `SlotSolutionCandidate`. -/
structure SlotSolutionCandidate (F : Type) where
  PlaceNames : List GoString
  PlaceIDS : List GoString
  PlaceLocations : List (F × F)
  Candidate : List (TripEvents F)
  EndPlaceDefault : Place F
  Score : F
  IsSet : Bool
deriving DecidableEq, Repr

/-- The zero value `SlotSolutionCandidate{}`. -/
def SlotSolutionCandidate.zero {F : Type} [Zero F] : SlotSolutionCandidate F :=
  ⟨[], [], [], [], Place.zero, 0, false⟩

/-- `SlotSolution`. -/
structure SlotSolution (F : Type) where
  SlotTag : GoString
  SlotSolutionCandidates : List (SlotSolutionCandidate F)
deriving DecidableEq, Repr

/-- `CategorizedPlaces`: the eatery cluster and the visit cluster. -/
structure CategorizedPlaces (F : Type) where
  EateryPlaces : List (Place F)
  VisitPlaces : List (Place F)
deriving DecidableEq, Repr

/-- `SetTag`. -/
def SlotSolution.SetTag {F : Type} (slotSolution : SlotSolution F) (tag : GoString) :
    SlotSolution F :=
  { slotSolution with SlotTag := tag }

/-- The loop of `IsSlotTagValid` over the remaining runes, with the two
`uint8` counters. -/
def tagLoop : List Nat → Nat → Nat → Bool
  | [], _, _ => true
  | c :: cs, eatcount, vstcount =>
    if c = 'e'.toNat ∨ c = 'E'.toNat then
      if ((eatcount + 1) % 256 + vstcount) % 256 > LimitPerSlot then false
      else tagLoop cs ((eatcount + 1) % 256) vstcount
    else if c = 'v'.toNat ∨ c = 'V'.toNat then
      if (eatcount + (vstcount + 1) % 256) % 256 > LimitPerSlot then false
      else tagLoop cs eatcount ((vstcount + 1) % 256)
    else false

/-- `IsSlotTagValid`. -/
def SlotSolution.IsSlotTagValid {F : Type} (slotSolution : SlotSolution F) : Bool :=
  if slotSolution.SlotTag = [] then false
  else tagLoop (runes slotSolution.SlotTag) 0 0

/-- The cluster a tag byte selects in `CreateCandidate`: the eatery cluster for
`E`/`e`, the visit cluster for `V`/`v`, none for any other byte. -/
def clusterOf {F : Type} (cplaces : CategorizedPlaces F) (t : Nat) : Option (List (Place F)) :=
  if t = 'E'.toNat ∨ t = 'e'.toNat then some cplaces.EateryPlaces
  else if t = 'V'.toNat ∨ t = 'v'.toNat then some cplaces.VisitPlaces
  else none

/-- The loop `for i, num := range iter.Status` of `CreateCandidate`, entered at
position `i` with the indices that remain. `record` holds the keys of the map
of identifiers already used, `places` is the slice of length
`len(iter.Status)` that the loop fills, `res` the candidate under construction.
`none` is a run-time panic (index out of range). -/
def createCandidateLoop {F : Type} (Score : List (Place F) → F) (SlotTag : GoString)
    (cplaces : CategorizedPlaces F) :
    List Nat → Nat → List GoString → List (Place F) → SlotSolutionCandidate F →
      Option (SlotSolutionCandidate F)
  | [], _, _, places, res => some { res with Score := Score places, IsSet := true }
  | num :: rest, i, record, places, res =>
    match SlotTag[i]? with
    | none => none
    | some t =>
      match clusterOf cplaces t with
      | none => some res
      | some cluster =>
        match cluster[num]? with
        | none => none
        | some p =>
          if p.PlaceId ∈ record then some res
          else
            createCandidateLoop Score SlotTag cplaces rest (i + 1) (p.PlaceId :: record)
              (places.set i p)
              { res with
                PlaceIDS := res.PlaceIDS ++ [p.PlaceId]
                PlaceNames := res.PlaceNames ++ [p.Name]
                PlaceLocations := res.PlaceLocations ++ [p.Location] }

/-- `CreateCandidate`, with the index tuple `iter.Status` as `Status` and the
scoring function `matching.Score` as `Score`. `none` is a run-time panic. -/
def SlotSolution.CreateCandidate {F : Type} [Zero F] (Score : List (Place F) → F)
    (slotSolution : SlotSolution F) (Status : List Nat) (cplaces : CategorizedPlaces F) :
    Option (SlotSolutionCandidate F) :=
  if Status.length ≠ slotSolution.SlotTag.length then some SlotSolutionCandidate.zero
  else
    createCandidateLoop Score slotSolution.SlotTag cplaces Status 0 []
      (List.replicate Status.length Place.zero) SlotSolutionCandidate.zero

/-! ## Top candidates (`generate_slot_solution.go`) -/

/-- `CandidateQueueLength`. -/
def CandidateQueueLength : Nat := 20
/-- `CandidateQueueDisplay`. -/
def CandidateQueueDisplay : Nat := 15

/-- `graph.Vertex` as `FindBestCandidates` builds it: a name and a key. -/
structure Vertex (F : Type) where
  Name : GoString
  Key : F
deriving DecidableEq, Repr

/-- The zero value `graph.Vertex{}`. -/
def Vertex.zero {F : Type} [Zero F] : Vertex F := ⟨[], 0⟩

/-- The loop of `strconv.FormatInt(n, 10)` for `n ≥ 0`: the decimal digits of
`n` are put in front of `acc`, most significant first. -/
def formatLoop : Nat → Nat → GoString → GoString
  | 0, _, acc => acc
  | fuel + 1, n, acc =>
    if n < 10 then ('0'.toNat + n) :: acc
    else formatLoop fuel (n / 10) (('0'.toNat + n % 10) :: acc)

/-- `strconv.FormatInt(int64(idx), 10)` for an index `idx`: its decimal
representation without leading zeros. -/
def FormatInt (idx : Nat) : GoString := formatLoop (idx + 1) idx []

/-- A Go `map[string]V`, as the list of its bindings, the latest first. -/
abbrev GoMap (V : Type) := List (GoString × V)

/-- The assignment `m[key] = value`. -/
def GoMap.set {V : Type} (m : GoMap V) (key : GoString) (value : V) : GoMap V :=
  (key, value) :: m

/-- The read `m[key]`, with the zero value `zero` of `V` for an absent key. -/
def GoMap.get {V : Type} (m : GoMap V) (zero : V) (key : GoString) : V :=
  match m with
  | [] => zero
  | (k, v) :: rest => if k = key then v else GoMap.get rest zero key

/-- The interface of `graph.MinPriorityQueue` that `FindBestCandidates` uses,
over a state type `Q`. The type is declared in package `graph`, which is not
among the sources at hand; the queue is a parameter of `FindBestCandidates`,
together with the contract of a minimum priority queue keyed by `Key`:
`Nodes` is the collection of vertexes held, `Size` counts it, `Insert` adds
one vertex, `GetRoot` is a vertex of least key, and `ExtractTop` removes a
vertex of least key and returns its name. `GetRoot` and `ExtractTop` are only
constrained on a non-empty queue. -/
structure MinPriorityQueue (F : Type) [LinearOrder F] (Q : Type) where
  empty : Q
  Size : Q → Nat
  GetRoot : Q → Vertex F
  ExtractTop : Q → GoString × Q
  Insert : Q → Vertex F → Q
  Nodes : Q → Multiset (Vertex F)
  nodes_empty : Nodes empty = 0
  size_eq : ∀ q, Size q = Multiset.card (Nodes q)
  nodes_insert : ∀ q v, Nodes (Insert q v) = v ::ₘ Nodes q
  root_min : ∀ q, Nodes q ≠ 0 → GetRoot q ∈ Nodes q ∧ ∀ w ∈ Nodes q, (GetRoot q).Key ≤ w.Key
  extract_min : ∀ q, Nodes q ≠ 0 →
    ∃ v, Nodes q = v ::ₘ Nodes (ExtractTop q).2 ∧ (ExtractTop q).1 = v.Name
      ∧ ∀ w ∈ Nodes q, v.Key ≤ w.Key

/-- The first loop of `FindBestCandidates`, entered at index `idx` with the
candidates that remain: it fills the slice `vertexes` and the map `m`. -/
def indexLoop {F : Type} :
    List (SlotSolutionCandidate F) → Nat → List (Vertex F) → GoMap (SlotSolutionCandidate F) →
      List (Vertex F) × GoMap (SlotSolutionCandidate F)
  | [], _, vertexes, m => (vertexes, m)
  | candidate :: rest, idx, vertexes, m =>
    indexLoop rest (idx + 1) (vertexes.set idx ⟨FormatInt idx, candidate.Score⟩)
      (m.set (FormatInt idx) candidate)

/-- One iteration of the second loop of `FindBestCandidates`: a full queue
takes the vertex only in exchange for its root, and only when the key of the
vertex is strictly greater. -/
def offer {F Q : Type} [LinearOrder F] (pq : MinPriorityQueue F Q) (queueLength : Nat) (q : Q)
    (vertex : Vertex F) : Q :=
  if pq.Size q = queueLength then
    if vertex.Key > (pq.GetRoot q).Key then pq.Insert (pq.ExtractTop q).2 vertex
    else q
  else pq.Insert q vertex

/-- The loop `for priorityQueue.Size() > display { priorityQueue.ExtractTop() }`,
run for at most `fuel` iterations. -/
def shrinkLoop {F Q : Type} [LinearOrder F] (pq : MinPriorityQueue F Q) (display : Nat) :
    Nat → Q → Q
  | 0, q => q
  | fuel + 1, q =>
    if pq.Size q > display then shrinkLoop pq display fuel (pq.ExtractTop q).2 else q

/-- The loop `for priorityQueue.Size() > 0 { res = append(res, m[ExtractTop()]) }`,
run for at most `fuel` iterations. -/
def drainLoop {F Q : Type} [LinearOrder F] [Zero F] (pq : MinPriorityQueue F Q)
    (m : GoMap (SlotSolutionCandidate F)) :
    Nat → Q → List (SlotSolutionCandidate F) → List (SlotSolutionCandidate F)
  | 0, _, res => res
  | fuel + 1, q, res =>
    if pq.Size q > 0 then
      drainLoop pq m fuel (pq.ExtractTop q).2
        (res ++ [m.get SlotSolutionCandidate.zero (pq.ExtractTop q).1])
    else res

/-- The body of `FindBestCandidates` with the two limits as parameters. Each
of the two extraction loops runs on a fuel equal to the size of the queue it
starts from, which is the number of iterations it makes. -/
def FindBestCandidatesWith {F Q : Type} [LinearOrder F] [Zero F] (pq : MinPriorityQueue F Q)
    (queueLength display : Nat) (candidates : List (SlotSolutionCandidate F)) :
    List (SlotSolutionCandidate F) :=
  let indexed := indexLoop candidates 0 (List.replicate candidates.length Vertex.zero) []
  let filled := indexed.1.foldl (offer pq queueLength) pq.empty
  let shrunk := shrinkLoop pq display (pq.Size filled) filled
  drainLoop pq indexed.2 (pq.Size shrunk) shrunk []

/-- `FindBestCandidates`. -/
def FindBestCandidates {F Q : Type} [LinearOrder F] [Zero F] (pq : MinPriorityQueue F Q)
    (candidates : List (SlotSolutionCandidate F)) : List (SlotSolutionCandidate F) :=
  FindBestCandidatesWith pq CandidateQueueLength CandidateQueueDisplay candidates

/-! ### A queue on a list -/

/-- The first vertex of least key among `v` and the vertexes of a list. -/
def leastVertex {F : Type} [LinearOrder F] : Vertex F → List (Vertex F) → Vertex F
  | v, [] => v
  | v, w :: rest => if w.Key < v.Key then leastVertex w rest else leastVertex v rest

/-- The root of a list of vertexes: its first vertex of least key. -/
def listRoot {F : Type} [LinearOrder F] [Zero F] : List (Vertex F) → Vertex F
  | [] => Vertex.zero
  | v :: rest => leastVertex v rest

/-- A minimum priority queue kept as the list of its vertexes in insertion
order; the root is the first vertex of least key. It shows that the contract
of `MinPriorityQueue` can be met and serves to evaluate `FindBestCandidates`. -/
def listQueue (F : Type) [LinearOrder F] [Zero F] : MinPriorityQueue F (List (Vertex F)) :=
  have least : ∀ (rest : List (Vertex F)) (v : Vertex F),
      leastVertex v rest ∈ v :: rest ∧ ∀ w ∈ v :: rest, (leastVertex v rest).Key ≤ w.Key := by
    intro rest
    induction rest with
    | nil => intro v; simp [leastVertex]
    | cons u rest ih =>
      intro v
      unfold leastVertex
      split_ifs with h
      · obtain ⟨h1, h2⟩ := ih u
        refine ⟨List.mem_cons_of_mem _ h1, ?_⟩
        intro w hw
        rcases List.mem_cons.mp hw with rfl | hw
        · exact le_trans (h2 u (List.mem_cons_self _ _)) (le_of_lt h)
        · exact h2 w hw
      · obtain ⟨h1, h2⟩ := ih v
        refine ⟨?_, ?_⟩
        · rcases List.mem_cons.mp h1 with h1 | h1
          · rw [h1]; exact List.mem_cons_self _ _
          · exact List.mem_cons_of_mem _ (List.mem_cons_of_mem _ h1)
        · intro w hw
          rcases List.mem_cons.mp hw with rfl | hw
          · exact h2 _ (List.mem_cons_self _ _)
          · rcases List.mem_cons.mp hw with rfl | hw
            · exact le_trans (h2 v (List.mem_cons_self _ _)) (not_lt.mp h)
            · exact h2 w (List.mem_cons_of_mem _ hw)
  { empty := []
    Size := fun q => q.length
    GetRoot := listRoot
    ExtractTop := fun q => ((listRoot q).Name, q.erase (listRoot q))
    Insert := fun q v => q ++ [v]
    Nodes := fun q => (q : Multiset (Vertex F))
    nodes_empty := rfl
    size_eq := fun _ => rfl
    nodes_insert := fun q v => by
      show ((q ++ [v] : List (Vertex F)) : Multiset (Vertex F)) = v ::ₘ (q : Multiset (Vertex F))
      rw [Multiset.cons_coe]
      exact Multiset.coe_eq_coe.mpr (List.perm_append_singleton v q)
    root_min := fun q hq => by
      cases q with
      | nil => exact absurd rfl hq
      | cons v rest => exact least rest v
    extract_min := fun q hq => by
      cases q with
      | nil => exact absurd rfl hq
      | cons v rest =>
        refine ⟨listRoot (v :: rest), ?_, rfl, (least rest v).2⟩
        rw [Multiset.cons_coe]
        exact Multiset.coe_eq_coe.mpr (List.perm_cons_erase (least rest v).1) }

/-- A candidate that carries only a score. -/
def scored {F : Type} [Zero F] (score : F) : SlotSolutionCandidate F :=
  { SlotSolutionCandidate.zero with Score := score, IsSet := true }

/-! ## Slot solutions (`GenerateSlotSolution`) -/

/-- The conversion `string(c)` of a rune: its UTF-8 encoding, the encoding of
`RuneError` for a surrogate or a value out of range. -/
def encodeRune (c : Nat) : GoString :=
  if c < 0x80 then [c]
  else if c < 0x800 then [0xC0 + c / 64, 0x80 + c % 64]
  else if (0xD800 ≤ c ∧ c < 0xE000) ∨ 0x10FFFF < c then [0xEF, 0xBF, 0xBD]
  else if c < 0x10000 then [0xE0 + c / 4096, 0x80 + c / 64 % 64, 0x80 + c % 64]
  else [0xF0 + c / 262144, 0x80 + c / 4096 % 64, 0x80 + c / 64 % 64, 0x80 + c % 64]

/-- `strings.Split(s, ",")`: the pieces of `s` between its commas. -/
def splitComma : GoString → List GoString
  | [] => [[]]
  | b :: rest =>
    if b = ','.toNat then [] :: splitComma rest
    else
      match splitComma rest with
      | [] => [[b]]
      | piece :: pieces => (b :: piece) :: pieces

/-- `POI.TimeInterval`, with the hours as numbers. -/
structure TimeInterval where
  Start : Nat
  End : Nat
deriving DecidableEq, Repr

/-- `matching.TimeSlot`. -/
structure TimeSlot where
  Slot : TimeInterval
deriving DecidableEq, Repr

/-- `iowrappers.SlotSolutionCacheRequest`, the key of the solution cache. -/
structure SlotSolutionCacheRequest where
  Country : GoString
  City : GoString
  Radius : Nat
  EVTags : List GoString
  Intervals : List TimeInterval
  Weekday : Nat
deriving DecidableEq, Repr

/-- `iowrappers.SlotSolutionCandidateCache`. -/
structure SlotSolutionCandidateCache (F : Type) where
  PlaceIds : List GoString
  Score : F
  PlaceNames : List GoString
  PlaceLocations : List (F × F)
deriving DecidableEq, Repr

/-- `iowrappers.SlotSolutionCacheResponse`. -/
structure SlotSolutionCacheResponse (F : Type) where
  SlotSolutionCandidate : List (SlotSolutionCandidateCache F)
deriving DecidableEq, Repr

/-- `matching.TimeMatchingRequest`. -/
structure TimeMatchingRequest where
  Location : GoString
  Radius : Nat
  TimeSlots : List TimeSlot
  Weekday : Nat
deriving DecidableEq, Repr

/-- The interface of `MDtagIter` that `GenerateSlotSolution` uses, over a state
type `I`. The type is declared in a file of package `solution` that is not
among the sources at hand; the iterator is a parameter of
`GenerateSlotSolution`. Its contract is that the enumeration is finite:
`remaining` bounds the number of `Next` steps that `HasNext` still allows. -/
structure MDtagIter (F : Type) (I : Type) where
  Init : GoString → CategorizedPlaces F → I
  HasNext : I → Bool
  Next : I → I
  Status : I → List Nat
  remaining : I → Nat
  next_remaining : ∀ it, HasNext it = true → remaining (Next it) < remaining it

/-- What `GenerateSlotSolution` calls and does not define: the priority queue,
the tag iterator, `matching.Score`, the solution cache
(`redisClient.GetSlotSolution`, `none` for an error, that is a miss), the time
matcher, `Categorize`, `GetSlotLengthinMin`, `GetTravelTimeByDistance`, the
conversion `float64(minuteLimit)` and the weekday constants of `POI`. `C` is
the type of a place cluster. -/
structure Collaborators (F Q I C : Type) [LinearOrder F] where
  queue : MinPriorityQueue F Q
  iter : MDtagIter F I
  Score : List (Place F) → F
  GetSlotSolution : SlotSolutionCacheRequest → Option (SlotSolutionCacheResponse F)
  Matching : TimeMatchingRequest → List C
  Categorize : C → CategorizedPlaces F
  GetSlotLengthinMin : C → Int
  GetTravelTimeByDistance : CategorizedPlaces F → I → F
  float64 : Int → F
  DATE_MONDAY : Nat
  DATE_SATURDAY : Nat
  DATE_SUNDAY : Nat

/-- The two fatal log messages of `GenerateSlotSolution`. -/
inductive FatalMessage where
  | stayTimeMismatch
  | invalidTag (evTag : GoString)
deriving DecidableEq, Repr

/-- What a run of `GenerateSlotSolution` does that is visible outside it, in
the order of the calls: reads of the solution cache, calls of the time
matcher, constructions of a candidate and writes to the solution cache. -/
inductive Event (F : Type) where
  | getSlotSolution (req : SlotSolutionCacheRequest)
  | matching (req : TimeMatchingRequest)
  | createCandidate (Status : List Nat)
  | cacheSlotSolution (req : SlotSolutionCacheRequest) (resp : SlotSolutionCacheResponse F)
deriving DecidableEq, Repr

/-- How a run ends: it returns a slot solution, it stops the process in
`log.Fatal`, or it panics on an index out of range. -/
inductive Outcome (F : Type) where
  | returned (slotSolution : SlotSolution F)
  | fatal (message : FatalMessage)
  | panic
deriving DecidableEq, Repr

/-- A run of `GenerateSlotSolution`: its events and its outcome. -/
structure Run (F : Type) where
  events : List (Event F)
  outcome : Outcome F
deriving DecidableEq, Repr

/-- The loop `for idx, c := range evTag { evTags[idx] = string(c) }`. -/
def fillTags : List (Nat × Nat) → List GoString → List GoString
  | [], evTags => evTags
  | (idx, c) :: rest, evTags => fillTags rest (evTags.set idx (encodeRune c))

/-- The candidate that `GenerateSlotSolution` makes of a cached one. -/
def ofCache {F : Type} [Zero F] (candidate : SlotSolutionCandidateCache F) :
    SlotSolutionCandidate F :=
  { PlaceNames := candidate.PlaceNames
    PlaceIDS := candidate.PlaceIds
    PlaceLocations := candidate.PlaceLocations
    Candidate := []
    EndPlaceDefault := Place.zero
    Score := candidate.Score
    IsSet := true }

/-- The cached form that `GenerateSlotSolution` makes of a candidate. -/
def toCache {F : Type} (slotSolutionCandidate : SlotSolutionCandidate F) :
    SlotSolutionCandidateCache F :=
  { PlaceIds := slotSolutionCandidate.PlaceIDS
    Score := slotSolutionCandidate.Score
    PlaceNames := slotSolutionCandidate.PlaceNames
    PlaceLocations := slotSolutionCandidate.PlaceLocations }

/-- The loop `for mdIter.HasNext() { ...; mdIter.Next() }` of
`GenerateSlotSolution`, run for at most `fuel` iterations: the constructions
of candidates it makes and the list `slotCandidates` it leaves (`none` when a
construction panics). -/
def candidateLoop {F Q I C : Type} [LinearOrder F] [Zero F] (ext : Collaborators F Q I C)
    (slotSolution : SlotSolution F) (categorizedPlaces : CategorizedPlaces F)
    (minuteLimit : Int) :
    Nat → I → List (SlotSolutionCandidate F) →
      List (Event F) × Option (List (SlotSolutionCandidate F))
  | 0, _, slotCandidates => ([], some slotCandidates)
  | fuel + 1, mdIter, slotCandidates =>
    if ext.iter.HasNext mdIter = true then
      match slotSolution.CreateCandidate ext.Score (ext.iter.Status mdIter)
          categorizedPlaces with
      | none => ([Event.createCandidate (ext.iter.Status mdIter)], none)
      | some curCandidate =>
        let run := candidateLoop ext slotSolution categorizedPlaces minuteLimit fuel
          (ext.iter.Next mdIter)
          (if curCandidate.IsSet = true then
            if ext.GetTravelTimeByDistance categorizedPlaces mdIter ≤ ext.float64 minuteLimit
            then slotCandidates ++ [curCandidate]
            else slotCandidates
          else slotCandidates)
        (Event.createCandidate (ext.iter.Status mdIter) :: run.1, run.2)
    else ([], some slotCandidates)

/-- The request `redisReq` that `GenerateSlotSolution` sends to the solution
cache, `city` and `country` being the first two pieces of the location. -/
def cacheRequest (city country evTag : GoString) (stayTimes : List TimeSlot)
    (radius weekday : Nat) : SlotSolutionCacheRequest :=
  { Country := country
    City := city
    Radius := radius
    EVTags := fillTags (rangeString evTag) (List.replicate stayTimes.length [])
    Intervals := stayTimes.map (fun stayTime => stayTime.Slot)
    Weekday := weekday }

/-- The request `req` that `GenerateSlotSolution` sends to the time matcher,
`first` and `last` being the first and the last stay time. -/
def matchingRequest {F Q I C : Type} [LinearOrder F] (ext : Collaborators F Q I C)
    (location : GoString) (first last : TimeSlot) (radius weekday : Nat) :
    TimeMatchingRequest :=
  { Location := location
    Radius := if radius ≤ 0 then 2000 else radius
    TimeSlots := [⟨⟨first.Slot.Start, last.Slot.End⟩⟩]
    Weekday :=
      if weekday < ext.DATE_MONDAY ∨ weekday > ext.DATE_SUNDAY then ext.DATE_SATURDAY
      else weekday }

/-- The enumeration of `GenerateSlotSolution` on the clusters
`categorizedPlaces` with the slot length `minuteLimit`: `mdIter.Init` and the
loop, which runs on the fuel `remaining`, the bound that the iterator gives on
its own steps. -/
def enumerateCandidates {F Q I C : Type} [LinearOrder F] [Zero F]
    (ext : Collaborators F Q I C) (evTag : GoString) (categorizedPlaces : CategorizedPlaces F)
    (minuteLimit : Int) : List (Event F) × Option (List (SlotSolutionCandidate F)) :=
  candidateLoop ext ⟨evTag, []⟩ categorizedPlaces minuteLimit
    (ext.iter.remaining (ext.iter.Init evTag categorizedPlaces))
    (ext.iter.Init evTag categorizedPlaces) []

/-- The part of `GenerateSlotSolution` after a cache miss on a valid tag: time
matching, enumeration, selection and the write to the cache. -/
def generateOnMiss {F Q I C : Type} [LinearOrder F] [Zero F] (ext : Collaborators F Q I C)
    (location evTag : GoString) (stayTimes : List TimeSlot) (radius weekday : Nat)
    (redisReq : SlotSolutionCacheRequest) : Run F :=
  match stayTimes.head?, stayTimes.getLast? with
  | some first, some last =>
    let req := matchingRequest ext location first last radius weekday
    match ext.Matching req with
    | [] => ⟨[Event.matching req], Outcome.panic⟩
    | cluster :: _ =>
      let loop := enumerateCandidates ext evTag (ext.Categorize cluster)
        (ext.GetSlotLengthinMin cluster)
      match loop.2 with
      | none => ⟨Event.matching req :: loop.1, Outcome.panic⟩
      | some slotCandidates =>
        let bestCandidates := FindBestCandidates ext.queue slotCandidates
        ⟨Event.matching req :: loop.1
            ++ [Event.cacheSlotSolution redisReq ⟨bestCandidates.map toCache⟩],
          Outcome.returned ⟨evTag, bestCandidates⟩⟩
  | _, _ => ⟨[], Outcome.panic⟩

/-- `GenerateSlotSolution`. -/
def GenerateSlotSolution {F Q I C : Type} [LinearOrder F] [Zero F] (ext : Collaborators F Q I C)
    (location evTag : GoString) (stayTimes : List TimeSlot) (radius weekday : Nat) : Run F :=
  if stayTimes.length ≠ evTag.length then ⟨[], Outcome.fatal FatalMessage.stayTimeMismatch⟩
  else
    match splitComma location with
    | city :: country :: _ =>
      let redisReq := cacheRequest city country evTag stayTimes radius weekday
      match ext.GetSlotSolution redisReq with
      | some slotSolutionCacheResp =>
        ⟨[Event.getSlotSolution redisReq],
          Outcome.returned ⟨[], slotSolutionCacheResp.SlotSolutionCandidate.map ofCache⟩⟩
      | none =>
        if (SlotSolution.mk evTag ([] : List (SlotSolutionCandidate F))).IsSlotTagValid = true
        then
          let run := generateOnMiss ext location evTag stayTimes radius weekday redisReq
          ⟨Event.getSlotSolution redisReq :: run.events, run.outcome⟩
        else ⟨[Event.getSlotSolution redisReq], Outcome.fatal (FatalMessage.invalidTag evTag)⟩
    | _ => ⟨[], Outcome.panic⟩

/-! ### The odometer -/

/-- The step of the odometer on the wheels below the most significant one.
Each wheel is a pair of its position and its bound. The lowest-order (last)
wheel is advanced; a wheel that reaches its bound goes back to 0 and carries
into the wheel before it. The flag tells whether the carry leaves the first
wheel of the list. -/
def carry : List (Nat × Nat) → List (Nat × Nat) × Bool
  | [] => ([], true)
  | (s, b) :: rest =>
    match carry rest with
    | (rest', false) => ((s, b) :: rest', false)
    | (rest', true) => if s + 1 < b then ((s + 1, b) :: rest', false) else ((0, b) :: rest', true)

/-- The advance of the odometer: the most significant wheel takes the carry
without going back to 0, so that it can overflow. -/
def advance : List (Nat × Nat) → List (Nat × Nat)
  | [] => []
  | (s, b) :: rest =>
    match carry rest with
    | (rest', false) => (s, b) :: rest'
    | (rest', true) => (s + 1, b) :: rest'

/-- The number of combinations that a list of wheels can show, each wheel
counted with one position more than its bound. -/
def span : List (Nat × Nat) → Nat
  | [] => 1
  | (_, b) :: rest => (b + 1) * span rest

/-- A bound on the number of advances left: the distance of every wheel from
its bound, read as a number in the mixed radix of `span`. -/
def distance : List (Nat × Nat) → Nat
  | [] => 0
  | (s, b) :: rest => (b - s) * span rest + distance rest

/-- Modelled from the spec: the tag iterator `MDtagIter`, which is not among
the sources, as the odometer of the spec (CombinationEnumerator): a bound
vector fixed by the sizes of the clusters that the tag symbols select and a
position vector that starts at 0; `Next` advances the lowest-order position and
carries into higher-order positions on overflow; `HasNext` is false once the
most significant position has overflowed, and from the start when a bound is 0.
A symbol other than `E`/`e` falls back to the visit cluster (on a valid tag
every other symbol is `V`/`v`). -/
def odometer (F : Type) : MDtagIter F (List (Nat × Nat)) :=
  have hlt : ∀ ws : List (Nat × Nat), distance ws < span ws := by
    intro ws
    induction ws with
    | nil => simp [distance, span]
    | cons w rest ih =>
      obtain ⟨s, b⟩ := w
      simp only [distance, span]
      have : (b - s) * span rest ≤ b * span rest := Nat.mul_le_mul_right _ (Nat.sub_le b s)
      rw [Nat.add_mul, Nat.one_mul]
      omega
  have hstep : ∀ s b W d e : Nat, s < b → e < W → (b - (s + 1)) * W + e < (b - s) * W + d := by
    intro s b W d e hs he
    have : b - s = (b - (s + 1)) + 1 := by omega
    rw [this, Nat.add_mul, Nat.one_mul]
    omega
  have hspan : ∀ ws : List (Nat × Nat), span (carry ws).1 = span ws := by
    intro ws
    induction ws with
    | nil => rfl
    | cons w rest ih =>
      obtain ⟨s, b⟩ := w
      simp only [carry]
      rcases h : carry rest with ⟨rest', c⟩
      rw [h] at ih
      cases c
      · simp only [span]; rw [← ih]
      · simp only []
        split_ifs <;> simp only [span] <;> rw [← ih]
  have hcarry : ∀ ws : List (Nat × Nat), (carry ws).2 = false →
      distance (carry ws).1 < distance ws := by
    intro ws
    induction ws with
    | nil => intro h; simp [carry] at h
    | cons w rest ih =>
      obtain ⟨s, b⟩ := w
      have h1 := hspan rest
      have h2 := hlt (carry rest).1
      simp only [carry]
      rcases h : carry rest with ⟨rest', c⟩
      rw [h] at ih h1 h2
      cases c
      · intro _
        simp only [distance]
        have := ih rfl
        simp only [] at h1 this
        rw [h1]; omega
      · simp only []
        split_ifs with hsb
        · intro _
          simp only [distance]
          simp only [] at h1 h2
          rw [h1] at h2 ⊢
          exact hstep s b _ _ _ (by omega) h2
        · intro hc; simp at hc
  { Init := fun tag cplaces => tag.map (fun t =>
      (0, if t = 'E'.toNat ∨ t = 'e'.toNat then cplaces.EateryPlaces.length
          else cplaces.VisitPlaces.length))
    HasNext := fun ws =>
      ws.all (fun w => decide (0 < w.2)) &&
        match ws with
        | [] => false
        | (s, b) :: _ => decide (s < b)
    Next := advance
    Status := fun ws => ws.map Prod.fst
    remaining := distance
    next_remaining := fun ws h => by
      cases ws with
      | nil => simp at h
      | cons w rest =>
        obtain ⟨s, b⟩ := w
        simp only [Bool.and_eq_true, decide_eq_true_eq] at h
        have h1 := hspan rest
        have h2 := hlt (carry rest).1
        have h3 := hcarry rest
        simp only [advance]
        rcases hcr : carry rest with ⟨rest', c⟩
        rw [hcr] at h1 h2 h3
        simp only [] at h1 h2 h3
        cases c
        · simp only [distance]
          have := h3 rfl
          rw [h1]; omega
        · simp only [distance]
          rw [h1] at h2 ⊢
          exact hstep s b _ _ _ h.2 h2 }

/-! ## Day knapsack (`matching.Knapsack`, `matching.KnapsackV1`) -/

/-- `matching.QueryTimeStart`, as the test builds it. -/
structure QueryTimeStart where
  StartHour : Nat
  Day : Nat
  EndHour : Nat
deriving DecidableEq, Repr

/-- Modelled from the spec: what makes a `KnapsackItem` of a place, which
package `matching` defines and the sources at hand do not show: the
opening-hours predicate by which the items are filtered, the time cost in
whole units, the monetary cost and the inclusion value of a place. -/
structure KnapsackItems (F : Type) where
  isOpen : Place F → QueryTimeStart → Bool
  timeCost : Place F → Nat
  cost : Place F → Nat
  value : Place F → Nat

/-- Modelled from the spec: a cell of the knapsack table, holding the best
value and the choice trace, the chosen places in their original order. -/
structure KnapsackNode (F : Type) where
  value : Nat
  trace : List (Place F)
deriving DecidableEq, Repr

/-- Modelled from the spec: the choice between leaving a place out (`skip`, the
best cell without the place for the same budgets) and taking it (`take`, the
best cell without the place for the budgets less its costs); the place is
taken when it fits and this gives a strictly greater value. -/
def choose {F : Type} (items : KnapsackItems F) (place : Place F) (t b : Nat)
    (skip take : KnapsackNode F) : KnapsackNode F :=
  if items.timeCost place ≤ t ∧ items.cost place ≤ b then
    if take.value + items.value place > skip.value then
      ⟨take.value + items.value place, take.trace ++ [place]⟩
    else skip
  else skip

/-- The cell of a table at the time budget `t` and the money budget `b`. -/
def cellAt {F : Type} (table : List (List (KnapsackNode F))) (t b : Nat) : KnapsackNode F :=
  (table.getD t []).getD b ⟨0, []⟩

/-- Modelled from the spec: one pass of the optimized construction, the update
of the table indexed by (time budget, money budget) for one more place. -/
def knapsackStep {F : Type} (items : KnapsackItems F) (timeLimit budget : Nat)
    (table : List (List (KnapsackNode F))) (place : Place F) : List (List (KnapsackNode F)) :=
  (List.range (timeLimit + 1)).map (fun t =>
    (List.range (budget + 1)).map (fun b =>
      choose items place t b (cellAt table t b)
        (cellAt table (t - items.timeCost place) (b - items.cost place))))

/-- Modelled from the spec: the table of the optimized construction after all
the places are passed, from the table of empty selections. -/
def knapsackTable {F : Type} (items : KnapsackItems F) (timeLimit budget : Nat)
    (places : List (Place F)) : List (List (KnapsackNode F)) :=
  places.foldl (knapsackStep items timeLimit budget)
    (List.replicate (timeLimit + 1) (List.replicate (budget + 1) ⟨0, []⟩))

/-- Modelled from the spec: `matching.Knapsack`, the optimized construction of
the day knapsack, which is not among the sources (its test is): a
two-dimensional 0/1 knapsack dynamic program over the places that are open in
the query window; the result is the selection of the cell of the full budgets
with its total cost and its total time. -/
def Knapsack {F : Type} (items : KnapsackItems F) (places : List (Place F))
    (startTime : QueryTimeStart) (timeLimit budget : Nat) : List (Place F) × Nat × Nat :=
  let node := cellAt
    (knapsackTable items timeLimit budget (places.filter (fun p => items.isOpen p startTime)))
    timeLimit budget
  (node.trace, (node.trace.map items.cost).sum, (node.trace.map items.timeCost).sum)

/-- Modelled from the spec: the best selection among the places of a list given
last place first, for the time budget `t` and the money budget `b`, by plain
recursion on the places, without a table. -/
def bestSelection {F : Type} (items : KnapsackItems F) :
    List (Place F) → Nat → Nat → KnapsackNode F
  | [], _, _ => ⟨0, []⟩
  | place :: earlier, t, b =>
    choose items place t b (bestSelection items earlier t b)
      (bestSelection items earlier (t - items.timeCost place) (b - items.cost place))

/-- Modelled from the spec: `matching.KnapsackV1`, the simpler reference
construction of the day knapsack with the same contract, which is not among the
sources (its test is): the best selection among the places that are open in the
query window. -/
def KnapsackV1 {F : Type} (items : KnapsackItems F) (places : List (Place F))
    (startTime : QueryTimeStart) (timeLimit budget : Nat) : List (Place F) :=
  (bestSelection items (places.filter (fun p => items.isOpen p startTime)).reverse
    timeLimit budget).trace

/-! ## Candidate tags (`IsCandidateTagValid`) -/

/-- The loop of `strings.EqualFold` on the runes of the two strings. A pair of
different runes is ordered as `sr < tr`; when `tr` is ASCII the pair matches if
`sr` is an upper-case letter and `tr` the same letter in lower case; otherwise
the simple case folding of Unicode decides, `unicodeFold sr tr` telling whether
the folding orbit of `sr` reaches `tr` (the tables of package `unicode`). -/
def equalFoldLoop (unicodeFold : Nat → Nat → Bool) : List Nat → List Nat → Bool
  | [], [] => true
  | [], _ :: _ => false
  | _ :: _, [] => false
  | sr :: s, tr :: t =>
    if tr = sr then equalFoldLoop unicodeFold s t
    else if max sr tr < 0x80 then
      if 'A'.toNat ≤ min sr tr ∧ min sr tr ≤ 'Z'.toNat
          ∧ max sr tr = min sr tr + 'a'.toNat - 'A'.toNat then
        equalFoldLoop unicodeFold s t
      else false
    else if unicodeFold (min sr tr) (max sr tr) = true then equalFoldLoop unicodeFold s t
    else false

/-- `strings.EqualFold`. -/
def EqualFold (unicodeFold : Nat → Nat → Bool) (s t : GoString) : Bool :=
  equalFoldLoop unicodeFold (runes s) (runes t)

/-- The loop of `IsCandidateTagValid` over the events of the candidate: the
string `solutag` and the counter `count`. -/
def candidateTagLoop {F : Type} : List (TripEvents F) → GoString → Nat → GoString × Nat
  | [], solutag, count => (solutag, count)
  | cand :: rest, solutag, count =>
    if cand.tag = EventEatery then candidateTagLoop rest (solutag ++ ascii "E") (count + 1)
    else if cand.tag = EventVisit then candidateTagLoop rest (solutag ++ ascii "V") (count + 1)
    else candidateTagLoop rest solutag count

/-- `IsCandidateTagValid`. -/
def SlotSolution.IsCandidateTagValid {F : Type} (unicodeFold : Nat → Nat → Bool)
    (slotSolution : SlotSolution F) (slotCandidate : SlotSolutionCandidate F) : Bool :=
  if slotSolution.SlotTag.length = 0 ∨ slotSolution.SlotSolutionCandidates.length = 0 then false
  else if (candidateTagLoop slotCandidate.Candidate [] 0).2 ≠ slotSolution.SlotTag.length then
    false
  else if EqualFold unicodeFold (candidateTagLoop slotCandidate.Candidate [] 0).1
      slotSolution.SlotTag = true then false
  else true

/-! ## Nearby search (`iowrappers/nearby_search.go`) -/

/-- The fields of `maps.PlacesSearchResult` that the embedded code reads.
`OpeningHours` is `none` for a nil pointer and `some none` for opening hours
whose `WeekdayText` is nil. -/
structure PlacesSearchResult (F : Type) where
  PlaceID : GoString
  ID : GoString
  Name : GoString
  Lat : F
  Lng : F
  PriceLevel : Int
  OpeningHours : Option (Option (List GoString))
  Rating : F
  FormattedAddress : GoString
deriving DecidableEq, Repr

/-- `maps.PlacesSearchResponse`. -/
structure PlacesSearchResponse (F : Type) where
  Results : List (PlacesSearchResult F)
  NextPageToken : GoString
deriving DecidableEq, Repr

/-- What `parsePlacesSearchResponse` calls and does not define, for a type `P`
of places (`POI.Place`): `POI.CreatePlace`, the formatting
`fmt.Sprintf("%f", x)` of a coordinate, and the identifier of a place, which is
the identifier it was created with. -/
structure PlaceMaker (F P : Type) where
  CreatePlace : GoString → GoString → GoString → GoString → GoString → List GoString →
    GoString → Int → F → P
  Sprintf : F → GoString
  GetID : P → GoString
  id_CreatePlace : ∀ name location addr formattedAddr locationType hours id priceLevel rating,
    GetID (CreatePlace name location addr formattedAddr locationType hours id priceLevel rating)
      = id

/-- The place that `parsePlacesSearchResponse` makes of one search result. A
nil `microAddrMap` is `none`. -/
def placeOfResult {F P : Type} (mk : PlaceMaker F P) (locationType : GoString)
    (microAddrMap : Option (GoMap GoString)) (res : PlacesSearchResult F) : P :=
  mk.CreatePlace res.Name (mk.Sprintf res.Lat ++ ascii "," ++ mk.Sprintf res.Lng)
    (match microAddrMap with
      | none => []
      | some m => m.get [] res.ID)
    res.FormattedAddress locationType
    (match res.OpeningHours with
      | some (some weekdayText) => weekdayText
      | _ => [])
    res.PlaceID res.PriceLevel res.Rating

/-- The loop of `parsePlacesSearchResponse` over the results that remain, with
the map `placeMap` of the identifiers seen and the places made so far. -/
def parseLoop {F P : Type} (mk : PlaceMaker F P) (locationType : GoString)
    (microAddrMap : Option (GoMap GoString)) :
    List (PlacesSearchResult F) → GoMap Bool → List P → List P × GoMap Bool
  | [], placeMap, places => (places, placeMap)
  | res :: rest, placeMap, places =>
    if placeMap.get false res.PlaceID = true then
      parseLoop mk locationType microAddrMap rest placeMap places
    else
      parseLoop mk locationType microAddrMap rest (placeMap.set res.PlaceID true)
        (places ++ [placeOfResult mk locationType microAddrMap res])

/-- `parsePlacesSearchResponse`: the places it returns and the map `placeMap`
as it leaves it. -/
def parsePlacesSearchResponse {F P : Type} (mk : PlaceMaker F P)
    (resp : PlacesSearchResponse F) (locationType : GoString)
    (microAddrMap : Option (GoMap GoString)) (placeMap : GoMap Bool) : List P × GoMap Bool :=
  parseLoop mk locationType microAddrMap resp.Results placeMap []

/-- The accumulation `places = append(places, parsePlacesSearchResponse(...)...)`
of `ExtensiveNearbySearch` over successive search responses that share one
`placeMap`; each call comes with its location type and the `microAddrMap` of
its time. -/
def accumulatePlaces {F P : Type} (mk : PlaceMaker F P) :
    List (PlacesSearchResponse F × GoString × Option (GoMap GoString)) → GoMap Bool → List P →
      List P × GoMap Bool
  | [], placeMap, places => (places, placeMap)
  | (resp, locationType, microAddrMap) :: rest, placeMap, places =>
    accumulatePlaces mk rest
      (parsePlacesSearchResponse mk resp locationType microAddrMap placeMap).2
      (places ++ (parsePlacesSearchResponse mk resp locationType microAddrMap placeMap).1)

/-- The fields of `maps.PlaceDetailsResult` that the embedded code reads. -/
structure PlaceDetailsResult where
  OpeningHours : Option (Option (List GoString))
  FormattedAddress : GoString
  AdrAddress : GoString
deriving DecidableEq, Repr

/-- `PlaceDetailSearchRes`; a nil `Res` is `none`. -/
structure PlaceDetailSearchRes where
  Res : Option PlaceDetailsResult
  RespIdx : Nat
deriving DecidableEq, Repr

/-- How the detail enrichment of `ExtensiveNearbySearch` ends: with the results
and the micro-address map enriched, or in a run-time panic. -/
inductive Enrichment (F : Type) where
  | enriched (results : List (PlacesSearchResult F)) (microAddrMap : GoMap GoString)
  | indexOutOfRange
  | nilDereference
deriving DecidableEq, Repr

/-- The loop that fills `placeIdMap`, entered at the response position `k`:
the positions of the results without opening hours, with their identifiers. -/
def placeIdMapFrom {F : Type} : List (PlacesSearchResult F) → Nat → List (Nat × GoString)
  | [], _ => []
  | res :: rest, k =>
    match res.OpeningHours with
    | some (some _) => placeIdMapFrom rest (k + 1)
    | _ => (k, res.PlaceID) :: placeIdMapFrom rest (k + 1)

/-- `PlaceDetailedSearch` (lines 176 to 207). The client `c.client` is `none`
when it is nil, and else the lookup `c.client.PlaceDetails`. The function
returns an error (`none`) exactly when the client is nil; an error of the
lookup itself is logged and the response is returned with a nil error. -/
def PlaceDetailedSearch (client : Option (GoString → PlaceDetailsResult)) (placeId : GoString) :
    Option PlaceDetailsResult :=
  match client with
  | none => none
  | some PlaceDetails => some (PlaceDetails placeId)

/-- The loop `for idx, placeId := range placeIdMap` that starts one
`DetailedSearchWrapper` per entry on `&detailSearchResults[idx]`, and the state
of `detailSearchResults` once all of them are done (`wg.Wait()`): a wrapper
writes its entry unless `PlaceDetailedSearch` returns an error. `none` is the
panic of an index out of range. -/
def detailLoop (client : Option (GoString → PlaceDetailsResult)) :
    List (Nat × GoString) → List PlaceDetailSearchRes → Option (List PlaceDetailSearchRes)
  | [], detailSearchResults => some detailSearchResults
  | (idx, placeId) :: rest, detailSearchResults =>
    if idx < detailSearchResults.length then
      detailLoop client rest
        (match PlaceDetailedSearch client placeId with
          | none => detailSearchResults
          | some searchRes => detailSearchResults.set idx ⟨some searchRes, idx⟩)
    else none

/-- The loop `for _, placeDetails := range detailSearchResults` that reads the
details back into the search response and the micro-address map. -/
def readBackLoop {F : Type} :
    List PlaceDetailSearchRes → List (PlacesSearchResult F) → GoMap GoString → Enrichment F
  | [], results, microAddrMap => Enrichment.enriched results microAddrMap
  | placeDetails :: rest, results, microAddrMap =>
    match placeDetails.Res, results[placeDetails.RespIdx]? with
    | none, _ => Enrichment.nilDereference
    | some _, none => Enrichment.indexOutOfRange
    | some details, some res =>
      readBackLoop rest
        (results.set placeDetails.RespIdx
          { res with
            OpeningHours := details.OpeningHours
            FormattedAddress := details.FormattedAddress })
        (microAddrMap.set res.PlaceID details.AdrAddress)

/-- The detail enrichment of one search response in `ExtensiveNearbySearch`
(lines 114 to 134): `placeIdMap`, the slice `detailSearchResults` of its
length, the detail lookups and the read-back. The enrichment follows the
nearby search on `c.client` (line 110, through line 66), so the client is not
nil here: `PlaceDetails` is its lookup. The entries of `placeIdMap` are taken
in ascending order of position; whether an index is out of range does not
depend on the order. -/
def enrichDetails {F : Type} (PlaceDetails : GoString → PlaceDetailsResult)
    (results : List (PlacesSearchResult F)) (microAddrMap : GoMap GoString) : Enrichment F :=
  match detailLoop (some PlaceDetails) (placeIdMapFrom results 0)
      (List.replicate (placeIdMapFrom results 0).length ⟨none, 0⟩) with
  | none => Enrichment.indexOutOfRange
  | some detailSearchResults => readBackLoop detailSearchResults results microAddrMap

/-! ## Notions used to state the properties -/

/-- A rune is one of the four tag symbols. -/
def isTagSymbol (c : Nat) : Prop :=
  c = 'E'.toNat ∨ c = 'e'.toNat ∨ c = 'V'.toNat ∨ c = 'v'.toNat

instance (c : Nat) : Decidable (isTagSymbol c) := by
  unfold isTagSymbol; infer_instance

/-- The place that position `i` of the index tuple `Status` resolves to: the
place at index `Status[i]` of the eatery cluster when `tag[i]` is `E` or `e`,
of the visit cluster when `tag[i]` is `V` or `v`. -/
def placeAt {F : Type} (tag : GoString) (cplaces : CategorizedPlaces F) (Status : List Nat)
    (i : Nat) : Option (Place F) :=
  match tag[i]?, Status[i]? with
  | some t, some num =>
    if t = 'E'.toNat ∨ t = 'e'.toNat then cplaces.EateryPlaces[num]?
    else if t = 'V'.toNat ∨ t = 'v'.toNat then cplaces.VisitPlaces[num]?
    else none
  | _, _ => none

/-- Every index of the tuple is in range of the cluster that the tag symbol at
its position selects. -/
def InRange {F : Type} (tag : GoString) (cplaces : CategorizedPlaces F) (Status : List Nat) :
    Prop :=
  ∀ i (h1 : i < tag.length) (h2 : i < Status.length),
    ((tag[i] = 'E'.toNat ∨ tag[i] = 'e'.toNat) → Status[i] < cplaces.EateryPlaces.length)
      ∧ ((tag[i] = 'V'.toNat ∨ tag[i] = 'v'.toNat) → Status[i] < cplaces.VisitPlaces.length)


/-- The number that a string of decimal digits denotes. -/
def parseInt (s : GoString) : Nat := s.foldl (fun a b => 10 * a + (b - '0'.toNat)) 0

/-- The vertex that `FindBestCandidates` makes of the candidate at index `idx`. -/
def vertexOf {F : Type} (idx : Nat) (candidate : SlotSolutionCandidate F) : Vertex F :=
  ⟨FormatInt idx, candidate.Score⟩

/-- The queue `q` holds a best part of the vertexes `P` offered so far: every
vertex of `P` that it does not hold has a key no greater than the key of any
vertex it holds. -/
def HoldsBest {F Q : Type} [LinearOrder F] (pq : MinPriorityQueue F Q)
    (P : Multiset (Vertex F)) (q : Q) : Prop :=
  ∃ D : Multiset (Vertex F), P = pq.Nodes q + D ∧ ∀ d ∈ D, ∀ w ∈ pq.Nodes q, d.Key ≤ w.Key

/-- The iterator states at which the body of the loop
`for mdIter.HasNext() { ...; mdIter.Next() }` runs, for at most `fuel`
iterations. -/
def statesFrom {F I : Type} (iter : MDtagIter F I) : Nat → I → List I
  | 0, _ => []
  | fuel + 1, mdIter =>
    if iter.HasNext mdIter = true then mdIter :: statesFrom iter fuel (iter.Next mdIter)
    else []

/-- The enumerated iterator states: those of the loop started at `mdIter`, on
the fuel `remaining`. Their `Status` are the enumerated index tuples. -/
def enumerated {F I : Type} (iter : MDtagIter F I) (mdIter : I) : List I :=
  statesFrom iter (iter.remaining mdIter) mdIter

/-- The candidate built from the index tuple of the iterator state `mdIter`. -/
def builtAt {F Q I C : Type} [LinearOrder F] [Zero F] (ext : Collaborators F Q I C)
    (evTag : GoString) (categorizedPlaces : CategorizedPlaces F) (mdIter : I) :
    Option (SlotSolutionCandidate F) :=
  (SlotSolution.mk evTag []).CreateCandidate ext.Score (ext.iter.Status mdIter)
    categorizedPlaces

/-- The candidate is valid and the travel time in minutes of its tuple is at
most the length of the slot in minutes. -/
def feasible {F Q I C : Type} [LinearOrder F] (ext : Collaborators F Q I C)
    (categorizedPlaces : CategorizedPlaces F) (minuteLimit : Int) (mdIter : I)
    (candidate : SlotSolutionCandidate F) : Bool :=
  candidate.IsSet
    && decide (ext.GetTravelTimeByDistance categorizedPlaces mdIter ≤ ext.float64 minuteLimit)

/-- The `SlotTag` of the slot solution that a run returns, if it returns one. -/
def Outcome.slotTag {F : Type} : Outcome F → Option GoString
  | Outcome.returned slotSolution => some slotSolution.SlotTag
  | _ => none

/-- The sizes `a_0, ..., a_{k-1}` of the clusters at the positions of a tag, as
the odometer takes them: the size of the eatery cluster for `E`/`e`, of the
visit cluster otherwise. -/
def clusterSizes {F : Type} (cplaces : CategorizedPlaces F) (tag : GoString) : List Nat :=
  tag.map (fun t =>
    if t = 'E'.toNat ∨ t = 'e'.toNat then cplaces.EateryPlaces.length
    else cplaces.VisitPlaces.length)

/-- All index tuples below the bounds `a_0, ..., a_{k-1}`, in odometer order:
the first position varies slowest, the last position fastest. -/
def tuples : List Nat → List (List Nat)
  | [] => [[]]
  | a :: bounds => (List.range a).flatMap (fun i => (tuples bounds).map (fun t => i :: t))

/-- The number of index tuples below the bounds of a list of wheels. -/
def capacity : List (Nat × Nat) → Nat
  | [] => 1
  | (_, b) :: rest => b * capacity rest

/-- The number that the positions of a list of wheels show in the mixed radix
of their bounds, the last wheel being the least significant. -/
def reading : List (Nat × Nat) → Nat
  | [] => 0
  | (s, _) :: rest => s * capacity rest + reading rest

/-- The index tuple that shows the number `v` in the mixed radix of the
bounds. -/
def digits : List Nat → Nat → List Nat
  | [], _ => []
  | _ :: bounds, v => v / bounds.prod :: digits bounds (v % bounds.prod)

/-- The tag of a candidate: `E` for each eatery event and `V` for each visit
event of its events, in order. -/
def tagOfEvents {F : Type} (events : List (TripEvents F)) : GoString :=
  events.filterMap (fun cand =>
    if cand.tag = EventEatery then some 'E'.toNat
    else if cand.tag = EventVisit then some 'V'.toNat
    else none)

/-- The result at position `k` of a search response is the first occurrence of
its identifier in the response, and the identifier is not marked in `placeMap`. -/
def FirstUnmarked {F : Type} (results : List (PlacesSearchResult F)) (placeMap : GoMap Bool)
    (k : Nat) : Prop :=
  ∃ res, results[k]? = some res ∧ placeMap.get false res.PlaceID = false
    ∧ ∀ j other, j < k → results[j]? = some other → other.PlaceID ≠ res.PlaceID

/-! ## Scenarios -/

/-- A place of the scenarios, with its identifier and its name. -/
def scenarioPlace (id name : String) : Place Int := ⟨ascii id, ascii name, (0, 0)⟩

/-- The clusters of the `EV` scenario: eateries `[A, B]`, visits `[C, D]`. -/
def scenarioClusters : CategorizedPlaces Int :=
  ⟨[scenarioPlace "1" "A", scenarioPlace "2" "B"], [scenarioPlace "3" "C", scenarioPlace "4" "D"]⟩

/-- The clusters of a scenario in which one identifier is in both categories. -/
def clashClusters : CategorizedPlaces Int :=
  ⟨[scenarioPlace "1" "A", scenarioPlace "2" "B"], [scenarioPlace "3" "C", scenarioPlace "1" "D"]⟩

/-- Thirty scored candidates of the scores `7 * n mod 31`, `n = 0, ..., 29`. -/
def thirtyCandidates : List (SlotSolutionCandidate Int) :=
  (List.range 30).map (fun n => scored ((7 * n % 31 : Nat) : Int))

/-- The scored candidates of the top-K scenario: scores 5, 1, 9, 3, 7. -/
def fiveCandidates : List (SlotSolutionCandidate Int) := [5, 1, 9, 3, 7].map scored

/-- A scoring function for the scenarios: the number of places. -/
def scenarioScore (ps : List (Place Int)) : Int := ps.length


/-- The collaborators of the scenarios: the list queue, the odometer, a time
matcher that answers with one cluster, the clash clusters with a slot of 60
minutes, and a travel time of 50 minutes for each step of an index away from 0.
The cache is a parameter. -/
def scenarioExt (cache : SlotSolutionCacheRequest → Option (SlotSolutionCacheResponse Int)) :
    Collaborators Int (List (Vertex Int)) (List (Nat × Nat)) (CategorizedPlaces Int × Int) :=
  { queue := listQueue Int
    iter := odometer Int
    Score := scenarioScore
    GetSlotSolution := cache
    Matching := fun _ => [(clashClusters, 60)]
    Categorize := fun cluster => cluster.1
    GetSlotLengthinMin := fun cluster => cluster.2
    GetTravelTimeByDistance := fun _ mdIter => 50 * ((mdIter.map Prod.fst).sum : Nat)
    float64 := fun n => n
    DATE_MONDAY := 0
    DATE_SATURDAY := 5
    DATE_SUNDAY := 6 }

/-- A cache without entries: every read is a miss. -/
def emptyCache : SlotSolutionCacheRequest → Option (SlotSolutionCacheResponse Int) :=
  fun _ => none

/-- A cache that answers every read with one candidate. -/
def fullCache : SlotSolutionCacheRequest → Option (SlotSolutionCacheResponse Int) :=
  fun _ => some ⟨[⟨[ascii "1", ascii "3"], 2, [ascii "A", ascii "C"], [(0, 0), (0, 0)]⟩]⟩

/-- The stay times of the scenarios: 10 to 12 and 12 to 14. -/
def scenarioStay : List TimeSlot := [⟨⟨10, 12⟩⟩, ⟨⟨12, 14⟩⟩]

/-- A pool of twenty places for the knapsack scenario, with the identifiers
`p0`, ..., `p19`. -/
def knapsackPool : List (Place Int) :=
  (List.range 20).map (fun n => ⟨ascii "p" ++ FormatInt n, ascii "place", (0, 0)⟩)

/-- The items of the knapsack scenario: every place is open, the place `pn`
takes `n mod 3 + 1` hours, costs `7 n mod 40 + 5` and has the value
`n mod 5 + 1`. -/
def knapsackItems : KnapsackItems Int :=
  { isOpen := fun _ _ => true
    timeCost := fun p => parseInt (p.PlaceId.drop 1) % 3 + 1
    cost := fun p => 7 * parseInt (p.PlaceId.drop 1) % 40 + 5
    value := fun p => parseInt (p.PlaceId.drop 1) % 5 + 1 }

/-- The first six places of the knapsack pool. -/
def smallPool : List (Place Int) := knapsackPool.take 6

/-- A trip event of the scenarios with the tag `tag`. -/
def scenarioEvent (tag : Nat) : TripEvents Int := ⟨tag, 0, 0, Place.zero, Place.zero⟩

/-- A candidate of the scenarios with an eatery event followed by a visit
event: its tag is `EV`. -/
def eateryVisitCandidate : SlotSolutionCandidate Int :=
  { SlotSolutionCandidate.zero with
    Candidate := [scenarioEvent EventEatery, scenarioEvent EventVisit]
    IsSet := true }

/-- A search result of the scenarios with the identifier `id`, with opening
hours or without. -/
def scenarioResult (id : String) (withHours : Bool) : PlacesSearchResult Int :=
  { PlaceID := ascii id
    ID := ascii id
    Name := ascii "name"
    Lat := 0
    Lng := 0
    PriceLevel := 1
    OpeningHours := if withHours then some (some [ascii "Monday: 9-17"]) else none
    Rating := 4
    FormattedAddress := ascii "address" }

/-- The place maker of the scenarios: a place is its identifier with its name. -/
def scenarioMaker : PlaceMaker Int (GoString × GoString) :=
  { CreatePlace := fun name _ _ _ _ _ id _ _ => (id, name)
    Sprintf := fun _ => ascii "0.000000"
    GetID := fun p => p.1
    id_CreatePlace := fun _ _ _ _ _ _ _ _ _ => rfl }

/-- The detail lookup of the scenarios: the same details for every identifier. -/
def detailsFound : GoString → PlaceDetailsResult :=
  fun _ => ⟨some (some [ascii "Monday: 9-17"]), ascii "address", ascii "adr"⟩
/-! ## Tag validation -/

theorem tagLoop_iff (cs : List Nat) :
    ∀ eatcount vstcount, eatcount + vstcount ≤ 4 →
      (tagLoop cs eatcount vstcount = true ↔
        cs.length + eatcount + vstcount ≤ 4 ∧ ∀ c ∈ cs, isTagSymbol c) := by
  induction cs with
  | nil => intro e v h; simp [tagLoop]; omega
  | cons c cs ih =>
    intro e v h
    simp only [tagLoop, LimitPerSlot, List.length_cons, List.mem_cons, forall_eq_or_imp,
      isTagSymbol, Char.reduceToNat]
    by_cases h1 : c = 101 ∨ c = 69
    · rw [if_pos h1]
      have hm : (e + 1) % 256 = e + 1 := by omega
      rw [hm]
      have hm2 : (e + 1 + v) % 256 = e + 1 + v := by omega
      rw [hm2]
      by_cases h2 : e + 1 + v > 4
      · rw [if_pos h2]; simp; omega
      · rw [if_neg h2, ih (e + 1) v (by omega)]
        simp only [isTagSymbol, Char.reduceToNat]
        constructor
        · rintro ⟨ha, hb⟩; exact ⟨by omega, by omega, hb⟩
        · rintro ⟨ha, _, hb⟩; exact ⟨by omega, hb⟩
    · rw [if_neg h1]
      by_cases h3 : c = 118 ∨ c = 86
      · rw [if_pos h3]
        have hm : (v + 1) % 256 = v + 1 := by omega
        rw [hm]
        have hm2 : (e + (v + 1)) % 256 = e + (v + 1) := by omega
        rw [hm2]
        by_cases h2 : e + (v + 1) > 4
        · rw [if_pos h2]; simp; omega
        · rw [if_neg h2, ih e (v + 1) (by omega)]
          simp only [isTagSymbol, Char.reduceToNat]
          constructor
          · rintro ⟨ha, hb⟩; exact ⟨by omega, by omega, hb⟩
          · rintro ⟨ha, _, hb⟩; exact ⟨by omega, hb⟩
      · rw [if_neg h3]
        simp only [Bool.false_eq_true, false_iff, not_and]
        intro _ hc
        omega

theorem runesFrom_ne_nil (b : Nat) (rest : GoString) (pos : Nat) :
    runesFrom (b :: rest) 0 pos ≠ [] := by
  simp [runesFrom]

theorem runes_eq_nil_iff (s : GoString) : runes s = [] ↔ s = [] := by
  cases s with
  | nil => simp [runes, rangeString, runesFrom]
  | cons b rest => simp [runes, rangeString, runesFrom]

theorem decodeRune_of_lt (b : Nat) (rest : GoString) (h : b < 128) :
    decodeRune (b :: rest) = (b, 1) := by
  simp [decodeRune, h]

theorem decodeRune_fst_lt (b : Nat) (rest : GoString)
    (h : (decodeRune (b :: rest)).1 < 128) : b < 128 := by
  by_contra hb
  have h0 : ¬ b < 0x80 := hb
  unfold decodeRune at h
  simp only [h0, if_false, RuneError] at h
  split_ifs at h <;> first
    | omega
    | (split at h <;> first
        | omega
        | (split_ifs at h <;> simp only [] at h <;> omega))

theorem runesFrom_of_small (s : GoString) :
    ∀ pos, (∀ c ∈ (runesFrom s 0 pos).map Prod.snd, c < 128) →
      (runesFrom s 0 pos).map Prod.snd = s := by
  induction s with
  | nil => intro pos _; simp [runesFrom]
  | cons b rest ih =>
    intro pos h
    simp only [runesFrom, List.map_cons, List.mem_cons, forall_eq_or_imp] at h ⊢
    have hb : b < 128 := decodeRune_fst_lt b rest h.1
    rw [decodeRune_of_lt b rest hb] at h ⊢
    simp only [Nat.sub_self] at h ⊢
    rw [ih (pos + 1) h.2]

theorem isTagSymbol_lt (c : Nat) (h : isTagSymbol c) : c < 128 := by
  simp only [isTagSymbol, Char.reduceToNat] at h
  omega

/-- The runes of a valid tag are its bytes: every byte is a tag symbol. -/
theorem bytes_of_valid {F : Type} (slotSolution : SlotSolution F)
    (h : slotSolution.IsSlotTagValid = true) :
    runes slotSolution.SlotTag = slotSolution.SlotTag
      ∧ slotSolution.SlotTag ≠ [] ∧ slotSolution.SlotTag.length ≤ 4
      ∧ ∀ b ∈ slotSolution.SlotTag, isTagSymbol b := by
  unfold SlotSolution.IsSlotTagValid at h
  by_cases hs : slotSolution.SlotTag = []
  · simp [hs] at h
  · simp only [hs, if_false] at h
    rw [tagLoop_iff _ 0 0 (by omega)] at h
    have hr : runes slotSolution.SlotTag = slotSolution.SlotTag :=
      runesFrom_of_small _ 0 (fun c hc => isTagSymbol_lt c (h.2 c hc))
    rw [hr] at h
    exact ⟨hr, hs, by simpa using h.1, h.2⟩

/-- **C1.** `IsSlotTagValid` accepts exactly the non-empty tags of at most four
characters, each of them `E`, `e`, `V` or `v`; how many of them are eateries and
how many are visits plays no role: `EEEE` is accepted although
`EateryLimitPerSlot` is 1 and `VisitLimitPerSlot` is 3. -/
theorem IsSlotTagValid_iff {F : Type} (s : GoString) (cands : List (SlotSolutionCandidate F)) :
    ((SlotSolution.mk s cands).IsSlotTagValid = true ↔
        s ≠ [] ∧ (runes s).length ≤ 4 ∧ ∀ c ∈ runes s, isTagSymbol c)
      ∧ (SlotSolution.mk (ascii "EEEE") cands).IsSlotTagValid = true
      ∧ EateryLimitPerSlot = 1 ∧ VisitLimitPerSlot = 3 := by
  refine ⟨?_, ?_, rfl, rfl⟩
  · unfold SlotSolution.IsSlotTagValid
    by_cases hs : s = []
    · simp [hs]
    · simp only [hs, if_false, ne_eq, not_false_eq_true, true_and]
      rw [tagLoop_iff _ 0 0 (by omega)]
      simp
  · rfl

/-! ## Candidate construction -/

theorem take_succ_set {α : Type} (l : List α) (i : Nat) (a : α) (h : i < l.length) :
    (l.set i a).take (i + 1) = l.take i ++ [a] := by
  induction l generalizing i with
  | nil => simp at h
  | cons x xs ih =>
    cases i with
    | zero => simp
    | succ i =>
      simp only [List.length_cons, Nat.add_lt_add_iff_right] at h
      simp [ih i h]

/-- The loop of `CreateCandidate` entered at position `i`, when the remaining
indices `rest` resolve to the places `ps`: it returns, the candidate is set
exactly when no identifier of `ps` is recorded already or repeated, and a set
candidate extends `res` by the fields of `ps`. -/
theorem createCandidateLoop_spec {F : Type} (Score : List (Place F) → F) (tag : GoString)
    (cplaces : CategorizedPlaces F) :
    ∀ (rest : List Nat) (ps : List (Place F)) (i : Nat) (record : List GoString)
      (places : List (Place F)) (res : SlotSolutionCandidate F),
      ps.length = rest.length →
      (∀ k (hk : k < rest.length) (hk2 : k < ps.length),
        ∃ t cl, tag[i + k]? = some t ∧ clusterOf cplaces t = some cl
          ∧ cl[rest[k]]? = some ps[k]) →
      places.length = i + rest.length →
      res.IsSet = false →
      ∃ cand, createCandidateLoop Score tag cplaces rest i record places res = some cand
        ∧ (cand.IsSet = true ↔
            (∀ p ∈ ps, p.PlaceId ∉ record) ∧ (ps.map Place.PlaceId).Nodup)
        ∧ (cand.IsSet = true →
            cand = { res with
              PlaceIDS := res.PlaceIDS ++ ps.map Place.PlaceId
              PlaceNames := res.PlaceNames ++ ps.map Place.Name
              PlaceLocations := res.PlaceLocations ++ ps.map Place.Location
              Score := Score (places.take i ++ ps)
              IsSet := true }) := by
  intro rest
  induction rest with
  | nil =>
    intro ps i record places res hlen _ hpl _
    have hps : ps = [] := List.length_eq_zero.mp (by simpa using hlen)
    subst hps
    refine ⟨_, rfl, by simp, ?_⟩
    intro _
    have : places.take i = places := List.take_of_length_le (by simp at hpl; omega)
    simp [this]
  | cons num rest ih =>
    intro ps i record places res hlen hres hpl hset
    cases ps with
    | nil => simp at hlen
    | cons p ps =>
      simp only [List.length_cons, Nat.add_right_cancel_iff] at hlen
      obtain ⟨t, cl, ht, hcl, hp⟩ := hres 0 (by simp) (by simp)
      simp only [Nat.add_zero, List.getElem_cons_zero] at ht hp
      simp only [createCandidateLoop, ht, hcl, hp]
      by_cases hmem : p.PlaceId ∈ record
      · rw [if_pos hmem]
        refine ⟨res, rfl, ?_, ?_⟩
        · simp only [hset, Bool.false_eq_true, false_iff, not_and]
          intro hall
          exact absurd hmem (hall p (List.mem_cons_self _ _))
        · simp [hset]
      · rw [if_neg hmem]
        have hres2 : ∀ k (hk : k < rest.length) (hk2 : k < ps.length),
            ∃ t cl, tag[i + 1 + k]? = some t ∧ clusterOf cplaces t = some cl
              ∧ cl[rest[k]]? = some ps[k] := by
          intro k hk hk2
          obtain ⟨t, cl, h1, h2, h3⟩ := hres (k + 1) (by simp; omega) (by simp; omega)
          refine ⟨t, cl, ?_, h2, ?_⟩
          · rw [← h1]; congr 1; omega
          · simpa using h3
        have hpl2 : (places.set i p).length = i + 1 + rest.length := by
          simp only [List.length_set, hpl, List.length_cons]; omega
        obtain ⟨cand, hc1, hc2, hc3⟩ := ih ps (i + 1) (p.PlaceId :: record) (places.set i p)
          { res with
            PlaceIDS := res.PlaceIDS ++ [p.PlaceId]
            PlaceNames := res.PlaceNames ++ [p.Name]
            PlaceLocations := res.PlaceLocations ++ [p.Location] }
          hlen hres2 hpl2 hset
        refine ⟨cand, hc1, ?_, ?_⟩
        · rw [hc2]
          simp only [List.mem_cons, not_or, forall_eq_or_imp, List.map_cons, List.nodup_cons,
            List.mem_map, not_exists, not_and]
          constructor
          · rintro ⟨h1, h2⟩
            exact ⟨⟨hmem, fun q hq => (h1 q hq).2⟩, fun q hq heq => (h1 q hq).1 heq, h2⟩
          · rintro ⟨⟨_, h1⟩, h2, h3⟩
            exact ⟨fun q hq => ⟨fun heq => h2 q hq heq, h1 q hq⟩, h3⟩
        · intro hs
          rw [hc3 hs]
          have hi : i < places.length := by rw [hpl]; simp
          simp [take_succ_set places i p hi]

theorem placeAt_of_valid {F : Type} (slotSolution : SlotSolution F)
    (cplaces : CategorizedPlaces F) (Status : List Nat)
    (hvalid : slotSolution.IsSlotTagValid = true)
    (hlen : Status.length = slotSolution.SlotTag.length)
    (hrange : InRange slotSolution.SlotTag cplaces Status) (k : Nat) (hk : k < Status.length) :
    ∃ t cl p, slotSolution.SlotTag[k]? = some t ∧ clusterOf cplaces t = some cl
      ∧ cl[Status[k]]? = some p ∧ placeAt slotSolution.SlotTag cplaces Status k = some p := by
  have hk1 : k < slotSolution.SlotTag.length := hlen ▸ hk
  obtain ⟨_, _, _, hsym⟩ := bytes_of_valid slotSolution hvalid
  have hs := hsym _ (List.getElem_mem hk1)
  obtain ⟨hE, hV⟩ := hrange k hk1 hk
  simp only [isTagSymbol, Char.reduceToNat] at hs hE hV
  by_cases h1 : slotSolution.SlotTag[k] = 69 ∨ slotSolution.SlotTag[k] = 101
  · refine ⟨_, cplaces.EateryPlaces, _,
      List.getElem?_eq_getElem hk1, ?_, List.getElem?_eq_getElem (hE h1), ?_⟩
    · simp [clusterOf, h1]
    · simp [placeAt, List.getElem?_eq_getElem hk1, List.getElem?_eq_getElem hk, h1,
        List.getElem?_eq_getElem (hE h1)]
  · have h2 : slotSolution.SlotTag[k] = 86 ∨ slotSolution.SlotTag[k] = 118 := by omega
    refine ⟨_, cplaces.VisitPlaces, _,
      List.getElem?_eq_getElem hk1, ?_, List.getElem?_eq_getElem (hV h2), ?_⟩
    · simp [clusterOf, h1, h2]
    · simp [placeAt, List.getElem?_eq_getElem hk1, List.getElem?_eq_getElem hk, h1, h2,
        List.getElem?_eq_getElem (hV h2)]

/-- `CreateCandidate` on a valid tag with an in-range tuple of the tag's
length: it returns a candidate, there is the list `ps` of the places the
positions resolve to, the candidate is set exactly when their identifiers are
pairwise distinct, and a set candidate carries the fields of `ps` in order and
the score of `ps`. -/
theorem CreateCandidate_spec {F : Type} [Zero F] (Score : List (Place F) → F)
    (slotSolution : SlotSolution F) (Status : List Nat) (cplaces : CategorizedPlaces F)
    (hvalid : slotSolution.IsSlotTagValid = true)
    (hlen : Status.length = slotSolution.SlotTag.length)
    (hrange : InRange slotSolution.SlotTag cplaces Status) :
    ∃ ps cand, ps.length = Status.length
      ∧ (∀ i (hi : i < ps.length), placeAt slotSolution.SlotTag cplaces Status i = some ps[i])
      ∧ slotSolution.CreateCandidate Score Status cplaces = some cand
      ∧ (cand.IsSet = true ↔ (ps.map Place.PlaceId).Nodup)
      ∧ (cand.IsSet = true →
          cand.PlaceIDS = ps.map Place.PlaceId ∧ cand.PlaceNames = ps.map Place.Name
            ∧ cand.PlaceLocations = ps.map Place.Location ∧ cand.Score = Score ps) := by
  let ps : List (Place F) := (List.range Status.length).map
    (fun i => (placeAt slotSolution.SlotTag cplaces Status i).getD Place.zero)
  have hpl : ps.length = Status.length := by simp [ps]
  have hps : ∀ i (hi : i < ps.length),
      placeAt slotSolution.SlotTag cplaces Status i = some ps[i] := by
    intro i hi
    obtain ⟨t, cl, p, _, _, _, h4⟩ :=
      placeAt_of_valid slotSolution cplaces Status hvalid hlen hrange i (hpl ▸ hi)
    simp [ps, h4]
  have hres : ∀ k (hk : k < Status.length) (hk2 : k < ps.length),
      ∃ t cl, slotSolution.SlotTag[0 + k]? = some t ∧ clusterOf cplaces t = some cl
        ∧ cl[Status[k]]? = some ps[k] := by
    intro k hk hk2
    obtain ⟨t, cl, p, h1, h2, h3, h4⟩ :=
      placeAt_of_valid slotSolution cplaces Status hvalid hlen hrange k hk
    refine ⟨t, cl, by simpa using h1, h2, ?_⟩
    have := hps k hk2
    rw [h4] at this
    rw [h3, this]
  obtain ⟨cand, hc1, hc2, hc3⟩ := createCandidateLoop_spec Score slotSolution.SlotTag cplaces
    Status ps 0 [] (List.replicate Status.length Place.zero) SlotSolutionCandidate.zero
    hpl hres (by simp) rfl
  refine ⟨ps, cand, hpl, hps, ?_, ?_, ?_⟩
  · unfold SlotSolution.CreateCandidate
    rw [if_neg (by simpa using hlen)]
    exact hc1
  · rw [hc2]; simp
  · intro hs
    rw [hc3 hs]
    simp [SlotSolutionCandidate.zero]

/-- **C2.** For a valid slot tag and an in-range index tuple of the tag's
length, `CreateCandidate` returns a candidate, and that candidate has
`IsSet = false` if and only if two positions of the tuple resolve to places
with the same `PlaceId` (`placeAt` picks the cluster by the tag symbol, so the
two positions may be of one category or of both). -/
theorem CreateCandidate_unset_iff {F : Type} [Zero F] (Score : List (Place F) → F)
    (slotSolution : SlotSolution F) (Status : List Nat) (cplaces : CategorizedPlaces F)
    (hvalid : slotSolution.IsSlotTagValid = true)
    (hlen : Status.length = slotSolution.SlotTag.length)
    (hrange : InRange slotSolution.SlotTag cplaces Status) :
    ∃ cand, slotSolution.CreateCandidate Score Status cplaces = some cand
      ∧ (cand.IsSet = false ↔
          ∃ i j p q, i < j ∧ placeAt slotSolution.SlotTag cplaces Status i = some p
            ∧ placeAt slotSolution.SlotTag cplaces Status j = some q
            ∧ p.PlaceId = q.PlaceId) := by
  obtain ⟨ps, cand, hpl, hps, hc, hset, _⟩ :=
    CreateCandidate_spec Score slotSolution Status cplaces hvalid hlen hrange
  refine ⟨cand, hc, ?_⟩
  have hnone : ∀ i, ps.length ≤ i → placeAt slotSolution.SlotTag cplaces Status i = none := by
    intro i hi
    have : Status[i]? = none := List.getElem?_eq_none (by omega)
    unfold placeAt
    rw [this]
    split <;> simp_all
  rw [← Bool.not_eq_true, hset, List.Nodup, List.pairwise_iff_getElem]
  simp only [List.length_map, List.getElem_map, ne_eq, not_forall, not_not]
  constructor
  · rintro ⟨i, j, hi, hj, hij, heq⟩
    exact ⟨i, j, ps[i], ps[j], hij, hps i hi, hps j hj, heq⟩
  · rintro ⟨i, j, p, q, hij, hp, hq, heq⟩
    have hj : j < ps.length := by
      by_contra hcon
      rw [hnone j (by omega)] at hq
      exact absurd hq (by simp)
    have hi : i < ps.length := by omega
    rw [hps i hi] at hp
    rw [hps j hj] at hq
    refine ⟨i, j, hi, hj, hij, ?_⟩
    rw [Option.some.inj hp, Option.some.inj hq]
    exact heq

theorem inRange_scenario (cplaces : CategorizedPlaces Int) (Status : List Nat)
    (hE : cplaces.EateryPlaces.length = 2) (hV : cplaces.VisitPlaces.length = 2)
    (hs : ∀ n ∈ Status, n < 2) : InRange (ascii "EV") cplaces Status := by
  intro i h1 h2
  have := hs _ (List.getElem_mem h2)
  omega

/-- Witness of **C2**: with tag `EV` the tuple `(0, 1)` of the clash scenario
resolves to `A` and `D`, which share the identifier 1, and the candidate is
not set. -/
theorem CreateCandidate_unset_iff_witness :
    (SlotSolution.mk (ascii "EV") [] : SlotSolution Int).IsSlotTagValid = true
      ∧ [0, 1].length = (ascii "EV").length
      ∧ InRange (ascii "EV") clashClusters [0, 1]
      ∧ ∃ cand, (SlotSolution.mk (ascii "EV") []).CreateCandidate scenarioScore [0, 1]
            clashClusters = some cand
          ∧ (cand.IsSet = false ↔
              ∃ i j p q, i < j ∧ placeAt (ascii "EV") clashClusters [0, 1] i = some p
                ∧ placeAt (ascii "EV") clashClusters [0, 1] j = some q
                ∧ p.PlaceId = q.PlaceId) :=
  ⟨by decide, by decide, inRange_scenario _ _ rfl rfl (by decide),
    CreateCandidate_unset_iff scenarioScore ⟨ascii "EV", []⟩ [0, 1] clashClusters (by decide)
      (by decide) (inRange_scenario _ _ rfl rfl (by decide))⟩

/-- **C3.** For a valid slot tag and an in-range index tuple of the tag's
length whose resolved place identifiers are pairwise distinct, the candidate
that `CreateCandidate` returns is set, its `PlaceIDS`, `PlaceNames` and
`PlaceLocations` have the length of the tag, entry `i` of each is the
`PlaceId`, `Name` and `Location` of the place that position `i` resolves to,
and its `Score` is the scoring function applied to these places in order. -/
theorem CreateCandidate_fields {F : Type} [Zero F] (Score : List (Place F) → F)
    (slotSolution : SlotSolution F) (Status : List Nat) (cplaces : CategorizedPlaces F)
    (hvalid : slotSolution.IsSlotTagValid = true)
    (hlen : Status.length = slotSolution.SlotTag.length)
    (hrange : InRange slotSolution.SlotTag cplaces Status)
    (hdistinct : ∀ i j p q, i < j → placeAt slotSolution.SlotTag cplaces Status i = some p →
      placeAt slotSolution.SlotTag cplaces Status j = some q → p.PlaceId ≠ q.PlaceId) :
    ∃ ps cand, slotSolution.CreateCandidate Score Status cplaces = some cand
      ∧ cand.IsSet = true
      ∧ ps.length = slotSolution.SlotTag.length
      ∧ cand.PlaceIDS.length = slotSolution.SlotTag.length
      ∧ cand.PlaceNames.length = slotSolution.SlotTag.length
      ∧ cand.PlaceLocations.length = slotSolution.SlotTag.length
      ∧ (∀ i (hi : i < ps.length),
          placeAt slotSolution.SlotTag cplaces Status i = some ps[i]
            ∧ cand.PlaceIDS[i]? = some ps[i].PlaceId
            ∧ cand.PlaceNames[i]? = some ps[i].Name
            ∧ cand.PlaceLocations[i]? = some ps[i].Location)
      ∧ cand.Score = Score ps := by
  obtain ⟨ps, cand, hpl, hps, hc, hset, hfields⟩ :=
    CreateCandidate_spec Score slotSolution Status cplaces hvalid hlen hrange
  have hnodup : (ps.map Place.PlaceId).Nodup := by
    rw [List.Nodup, List.pairwise_iff_getElem]
    intro i j hi hj hij
    simp only [List.length_map] at hi hj
    simp only [List.getElem_map]
    exact hdistinct i j ps[i] ps[j] hij (hps i hi) (hps j hj)
  have hs : cand.IsSet = true := hset.mpr hnodup
  obtain ⟨h1, h2, h3, h4⟩ := hfields hs
  refine ⟨ps, cand, hc, hs, hpl.trans hlen, ?_, ?_, ?_, ?_, h4⟩
  · rw [h1, List.length_map, hpl, hlen]
  · rw [h2, List.length_map, hpl, hlen]
  · rw [h3, List.length_map, hpl, hlen]
  · intro i hi
    refine ⟨hps i hi, ?_, ?_, ?_⟩
    · rw [h1]; simp [List.getElem?_eq_getElem hi]
    · rw [h2]; simp [List.getElem?_eq_getElem hi]
    · rw [h3]; simp [List.getElem?_eq_getElem hi]

theorem distinct_scenario (Status : List Nat)
    (h : ∀ i < 2, ∀ j < 2, i < j →
      ∀ p ∈ placeAt (ascii "EV") scenarioClusters Status i,
      ∀ q ∈ placeAt (ascii "EV") scenarioClusters Status j, p.PlaceId ≠ q.PlaceId) :
    ∀ i j p q, i < j → placeAt (ascii "EV") scenarioClusters Status i = some p →
      placeAt (ascii "EV") scenarioClusters Status j = some q → p.PlaceId ≠ q.PlaceId := by
  intro i j p q hij hp hq
  have hj : j < 2 := by
    by_contra hcon
    have : (ascii "EV")[j]? = none := List.getElem?_eq_none (by simp [ascii]; omega)
    simp [placeAt, this] at hq
  exact h i (by omega) j hj hij p hp q hq

/-- Witness of **C3**, the `EV` scenario: eateries `[A, B]` and visits `[C, D]`
give `(0,0) -> (A,C)`, `(0,1) -> (A,D)`, `(1,0) -> (B,C)`, `(1,1) -> (B,D)`, all
four candidates set. -/
theorem CreateCandidate_fields_witness :
    ((SlotSolution.mk (ascii "EV") [] : SlotSolution Int).IsSlotTagValid = true
      ∧ [1, 0].length = (ascii "EV").length
      ∧ InRange (ascii "EV") scenarioClusters [1, 0]
      ∧ ∃ ps cand, (SlotSolution.mk (ascii "EV") []).CreateCandidate scenarioScore [1, 0]
            scenarioClusters = some cand
          ∧ cand.IsSet = true
          ∧ ps.length = (ascii "EV").length
          ∧ cand.PlaceIDS.length = (ascii "EV").length
          ∧ cand.PlaceNames.length = (ascii "EV").length
          ∧ cand.PlaceLocations.length = (ascii "EV").length
          ∧ (∀ i (hi : i < ps.length),
              placeAt (ascii "EV") scenarioClusters [1, 0] i = some ps[i]
                ∧ cand.PlaceIDS[i]? = some ps[i].PlaceId
                ∧ cand.PlaceNames[i]? = some ps[i].Name
                ∧ cand.PlaceLocations[i]? = some ps[i].Location)
          ∧ cand.Score = scenarioScore ps)
      ∧ [[0, 0], [0, 1], [1, 0], [1, 1]].map (fun Status =>
          ((SlotSolution.mk (ascii "EV") []).CreateCandidate scenarioScore Status
              scenarioClusters).map (fun cand => (cand.IsSet, cand.PlaceNames)))
        = [some (true, [ascii "A", ascii "C"]), some (true, [ascii "A", ascii "D"]),
            some (true, [ascii "B", ascii "C"]), some (true, [ascii "B", ascii "D"])] :=
  ⟨⟨by decide, by decide, inRange_scenario _ _ rfl rfl (by decide),
    CreateCandidate_fields scenarioScore ⟨ascii "EV", []⟩ [1, 0] scenarioClusters (by decide)
      (by decide) (inRange_scenario _ _ rfl rfl (by decide))
      (distinct_scenario _ (by decide))⟩, by decide⟩

/-! ## Top candidates -/

theorem foldl_formatLoop (fuel : Nat) :
    ∀ n acc, n < fuel →
      (formatLoop fuel n acc).foldl (fun a b => 10 * a + (b - '0'.toNat)) 0
        = acc.foldl (fun a b => 10 * a + (b - '0'.toNat)) n := by
  induction fuel with
  | zero => intro n acc h; omega
  | succ fuel ih =>
    intro n acc h
    unfold formatLoop
    split_ifs with h10
    · simp
    · rw [ih (n / 10) _ (by omega)]
      simp only [List.foldl_cons, Char.reduceToNat]
      congr 1
      omega

theorem parseInt_FormatInt (idx : Nat) : parseInt (FormatInt idx) = idx := by
  unfold parseInt FormatInt
  rw [foldl_formatLoop (idx + 1) idx [] (by omega)]
  rfl

theorem FormatInt_injective : Function.Injective FormatInt := by
  intro a b h
  have := congrArg parseInt h
  rwa [parseInt_FormatInt, parseInt_FormatInt] at this

theorem indexLoop_fst {F : Type} (rest : List (SlotSolutionCandidate F)) :
    ∀ idx vertexes m, vertexes.length = idx + rest.length →
      (indexLoop rest idx vertexes m).1
        = vertexes.take idx ++ (rest.enumFrom idx).map (fun p => vertexOf p.1 p.2) := by
  induction rest with
  | nil =>
    intro idx vs m h
    simp only [List.length_nil, Nat.add_zero] at h
    simp [indexLoop, List.take_of_length_le (le_of_eq h)]
  | cons c rest ih =>
    intro idx vs m h
    simp only [List.length_cons] at h
    rw [indexLoop, ih (idx + 1) _ _ (by simp only [List.length_set]; omega),
      take_succ_set vs idx _ (by omega)]
    simp [List.enumFrom_cons, vertexOf]

theorem indexLoop_snd_other {F : Type} (zero : SlotSolutionCandidate F)
    (rest : List (SlotSolutionCandidate F)) :
    ∀ idx vertexes m key, (∀ j, idx ≤ j → FormatInt j ≠ key) →
      (indexLoop rest idx vertexes m).2.get zero key = m.get zero key := by
  induction rest with
  | nil => intro idx vs m key _; rfl
  | cons c rest ih =>
    intro idx vs m key h
    rw [indexLoop, ih (idx + 1) _ _ key (fun j hj => h j (by omega))]
    simp [GoMap.set, GoMap.get, h idx (le_refl _)]

theorem indexLoop_snd {F : Type} (zero : SlotSolutionCandidate F)
    (rest : List (SlotSolutionCandidate F)) :
    ∀ idx vertexes m, ∀ p ∈ rest.enumFrom idx,
      (indexLoop rest idx vertexes m).2.get zero (FormatInt p.1) = p.2 := by
  induction rest with
  | nil => intro idx vs m p hp; simp at hp
  | cons c rest ih =>
    intro idx vs m p hp
    rw [List.enumFrom_cons, List.mem_cons] at hp
    rw [indexLoop]
    rcases hp with rfl | hp
    · rw [indexLoop_snd_other zero rest (idx + 1) _ _ (FormatInt idx)
        (fun j hj heq => by have := FormatInt_injective heq; omega)]
      simp [GoMap.set, GoMap.get]
    · exact ih (idx + 1) _ _ p hp

theorem nodes_ne_zero {F Q : Type} [LinearOrder F] (pq : MinPriorityQueue F Q) (q : Q)
    (h : 0 < pq.Size q) : pq.Nodes q ≠ 0 := by
  intro h0
  rw [pq.size_eq, h0] at h
  simp at h

/-- One iteration of the second loop keeps the invariant: the queue holds a
best part of the vertexes offered, `min` (their number) (the queue length) of
them. -/
theorem offer_holdsBest {F Q : Type} [LinearOrder F] (pq : MinPriorityQueue F Q)
    (queueLength : Nat) (hW : 0 < queueLength) (P : Multiset (Vertex F)) (q : Q)
    (vertex : Vertex F) (hq : HoldsBest pq P q)
    (hsize : pq.Size q = min (Multiset.card P) queueLength) :
    HoldsBest pq (vertex ::ₘ P) (offer pq queueLength q vertex)
      ∧ pq.Size (offer pq queueLength q vertex)
          = min (Multiset.card (vertex ::ₘ P)) queueLength := by
  obtain ⟨D, hP, hD⟩ := hq
  have hcard : Multiset.card P = pq.Size q + Multiset.card D := by
    rw [hP, Multiset.card_add, pq.size_eq]
  unfold offer
  by_cases hfull : pq.Size q = queueLength
  · rw [if_pos hfull]
    have hne : pq.Nodes q ≠ 0 := nodes_ne_zero pq q (by omega)
    obtain ⟨hroot, hrmin⟩ := pq.root_min q hne
    by_cases hgt : vertex.Key > (pq.GetRoot q).Key
    · rw [if_pos hgt]
      obtain ⟨u, hu, _, humin⟩ := pq.extract_min q hne
      have hur : u.Key < vertex.Key := lt_of_le_of_lt (humin _ hroot) hgt
      have hsz : pq.Size q = Multiset.card (pq.Nodes (pq.ExtractTop q).2) + 1 := by
        rw [pq.size_eq, hu, Multiset.card_cons]
      refine ⟨⟨u ::ₘ D, ?_, ?_⟩, ?_⟩
      · rw [pq.nodes_insert, hP, hu]
        simp only [Multiset.cons_add, Multiset.add_cons]
        rw [Multiset.cons_swap]
      · intro d hd w hw
        rw [pq.nodes_insert, Multiset.mem_cons] at hw
        have hwle : ∀ w ∈ pq.Nodes (pq.ExtractTop q).2, w ∈ pq.Nodes q := by
          intro w hw; rw [hu]; exact Multiset.mem_cons_of_mem hw
        rcases Multiset.mem_cons.mp hd with rfl | hd
        · rcases hw with rfl | hw
          · exact le_of_lt hur
          · exact humin w (hwle w hw)
        · rcases hw with rfl | hw
          · have hud : u ∈ pq.Nodes q := by rw [hu]; exact Multiset.mem_cons_self _ _
            exact le_trans (hD d hd u hud) (le_of_lt hur)
          · exact hD d hd w (hwle w hw)
      · rw [pq.size_eq, pq.nodes_insert, Multiset.card_cons, Multiset.card_cons]
        omega
    · rw [if_neg hgt]
      refine ⟨⟨vertex ::ₘ D, ?_, ?_⟩, ?_⟩
      · rw [hP, Multiset.add_cons]
      · intro d hd w hw
        rcases Multiset.mem_cons.mp hd with rfl | hd
        · exact le_trans (not_lt.mp hgt) (hrmin w hw)
        · exact hD d hd w hw
      · rw [Multiset.card_cons]; omega
  · rw [if_neg hfull]
    have hD0 : D = 0 := Multiset.card_eq_zero.mp (by omega)
    subst hD0
    refine ⟨⟨0, ?_, by simp⟩, ?_⟩
    · rw [pq.nodes_insert, hP]; simp
    · rw [pq.size_eq, pq.nodes_insert, Multiset.card_cons, Multiset.card_cons, ← pq.size_eq]
      omega

/-- The second loop of `FindBestCandidates`: after all vertexes are offered
the queue holds a best part of them, `min` (their number) (the queue length)
of them. -/
theorem foldl_offer_holdsBest {F Q : Type} [LinearOrder F] (pq : MinPriorityQueue F Q)
    (queueLength : Nat) (hW : 0 < queueLength) (vertexes : List (Vertex F)) :
    ∀ (P : Multiset (Vertex F)) (q : Q), HoldsBest pq P q →
      pq.Size q = min (Multiset.card P) queueLength →
      HoldsBest pq (P + (vertexes : Multiset (Vertex F)))
          (vertexes.foldl (offer pq queueLength) q)
        ∧ pq.Size (vertexes.foldl (offer pq queueLength) q)
            = min (Multiset.card P + vertexes.length) queueLength := by
  induction vertexes with
  | nil => intro P q h1 h2; simpa using ⟨h1, h2⟩
  | cons v vs ih =>
    intro P q h1 h2
    obtain ⟨h3, h4⟩ := offer_holdsBest pq queueLength hW P q v h1 h2
    obtain ⟨h5, h6⟩ := ih (v ::ₘ P) _ h3 h4
    rw [List.foldl_cons]
    refine ⟨?_, ?_⟩
    · have : P + ((v :: vs : List (Vertex F)) : Multiset (Vertex F))
          = v ::ₘ P + (vs : Multiset (Vertex F)) := by
        rw [← Multiset.cons_coe, Multiset.add_cons, Multiset.cons_add]
      rw [this]; exact h5
    · rw [h6, Multiset.card_cons, List.length_cons]; congr 1; omega

/-- The third loop: extraction down to `display` vertexes keeps a best part;
the fuel suffices when it covers the excess of the queue over `display`. -/
theorem shrinkLoop_holdsBest {F Q : Type} [LinearOrder F] (pq : MinPriorityQueue F Q)
    (display : Nat) (P : Multiset (Vertex F)) (fuel : Nat) :
    ∀ q, pq.Size q ≤ display + fuel → HoldsBest pq P q →
      HoldsBest pq P (shrinkLoop pq display fuel q)
        ∧ pq.Size (shrinkLoop pq display fuel q) = min (pq.Size q) display := by
  induction fuel with
  | zero =>
    intro q hsz hq
    exact ⟨hq, by simp only [shrinkLoop]; omega⟩
  | succ fuel ih =>
    intro q hsz hq
    unfold shrinkLoop
    by_cases hgt : pq.Size q > display
    · rw [if_pos hgt]
      have hne : pq.Nodes q ≠ 0 := nodes_ne_zero pq q (by omega)
      obtain ⟨u, hu, _, humin⟩ := pq.extract_min q hne
      have hsz2 : pq.Size q = pq.Size (pq.ExtractTop q).2 + 1 := by
        rw [pq.size_eq, hu, Multiset.card_cons, ← pq.size_eq]
      obtain ⟨D, hP, hD⟩ := hq
      have hq2 : HoldsBest pq P (pq.ExtractTop q).2 := by
        refine ⟨u ::ₘ D, ?_, ?_⟩
        · rw [hP, hu, Multiset.cons_add, Multiset.add_cons]
        · intro d hd w hw
          have hw2 : w ∈ pq.Nodes q := by rw [hu]; exact Multiset.mem_cons_of_mem hw
          rcases Multiset.mem_cons.mp hd with rfl | hd
          · exact humin w hw2
          · exact hD d hd w hw2
      obtain ⟨h1, h2⟩ := ih _ (by omega) hq2
      exact ⟨h1, by rw [h2]; omega⟩
    · rw [if_neg hgt]
      exact ⟨hq, by omega⟩

/-- The fourth loop: with fuel for every vertex held, the queue is emptied in
ascending order of key and the candidate bound to each extracted name is
appended to the result. -/
theorem drainLoop_spec {F Q : Type} [LinearOrder F] [Zero F] (pq : MinPriorityQueue F Q)
    (m : GoMap (SlotSolutionCandidate F)) (fuel : Nat) :
    ∀ q res, pq.Size q ≤ fuel →
      ∃ L : List (Vertex F), (L : Multiset (Vertex F)) = pq.Nodes q
        ∧ L.Sorted (fun a b => a.Key ≤ b.Key)
        ∧ drainLoop pq m fuel q res
            = res ++ L.map (fun v => m.get SlotSolutionCandidate.zero v.Name) := by
  induction fuel with
  | zero =>
    intro q res hsz
    refine ⟨[], ?_, List.sorted_nil, by simp [drainLoop]⟩
    have : Multiset.card (pq.Nodes q) = 0 := by rw [← pq.size_eq]; omega
    exact (Multiset.card_eq_zero.mp this).symm
  | succ fuel ih =>
    intro q res hsz
    unfold drainLoop
    by_cases hgt : pq.Size q > 0
    · rw [if_pos hgt]
      have hne : pq.Nodes q ≠ 0 := nodes_ne_zero pq q hgt
      obtain ⟨u, hu, hname, humin⟩ := pq.extract_min q hne
      have hsz2 : pq.Size q = pq.Size (pq.ExtractTop q).2 + 1 := by
        rw [pq.size_eq, hu, Multiset.card_cons, ← pq.size_eq]
      obtain ⟨L, hL1, hL2, hL3⟩ := ih (pq.ExtractTop q).2
        (res ++ [m.get SlotSolutionCandidate.zero (pq.ExtractTop q).1]) (by omega)
      refine ⟨u :: L, ?_, ?_, ?_⟩
      · rw [← Multiset.cons_coe, hL1, ← hu]
      · refine List.sorted_cons.mpr ⟨?_, hL2⟩
        intro w hw
        have : w ∈ pq.Nodes (pq.ExtractTop q).2 := by rw [← hL1]; exact hw
        exact humin w (by rw [hu]; exact Multiset.mem_cons_of_mem this)
      · rw [hL3, hname]; simp
    · rw [if_neg hgt]
      refine ⟨[], ?_, List.sorted_nil, by simp⟩
      have : Multiset.card (pq.Nodes q) = 0 := by rw [← pq.size_eq]; omega
      exact (Multiset.card_eq_zero.mp this).symm

/-- What the first loop leaves: the vertexes of the candidates in input order,
and a map that binds the name of each vertex to its candidate. -/
theorem indexLoop_spec {F : Type} [Zero F] (candidates : List (SlotSolutionCandidate F)) :
    (indexLoop candidates 0 (List.replicate candidates.length Vertex.zero) []).1
        = candidates.enum.map (fun p => vertexOf p.1 p.2)
      ∧ ∀ v ∈ candidates.enum.map (fun p => vertexOf p.1 p.2),
          ∃ c, candidates[parseInt v.Name]? = some c ∧ v = vertexOf (parseInt v.Name) c
            ∧ (indexLoop candidates 0 (List.replicate candidates.length Vertex.zero) []).2.get
                SlotSolutionCandidate.zero v.Name = c := by
  refine ⟨?_, ?_⟩
  · rw [indexLoop_fst candidates 0 _ _ (by simp)]
    simp [List.enum]
  · intro v hv
    obtain ⟨p, hp, rfl⟩ := List.mem_map.mp hv
    have hparse : parseInt (vertexOf p.1 p.2).Name = p.1 := parseInt_FormatInt p.1
    refine ⟨p.2, ?_, ?_, ?_⟩
    · rw [hparse]; exact List.mem_enum_iff_getElem?.mp hp
    · rw [hparse]
    · exact indexLoop_snd SlotSolutionCandidate.zero candidates 0 _ _ p hp

/-- The vertexes that `FindBestCandidatesWith` extracts for its result: a list
`L`, ascending by key, of `min (min N queueLength) display` of the vertexes of
the input, with every vertex left out (`D`) of a key no greater than any key
in `L`; the result is the list of the candidates bound to the names of `L`. -/
theorem FindBestCandidatesWith_vertexes {F Q : Type} [LinearOrder F] [Zero F]
    (pq : MinPriorityQueue F Q) (queueLength display : Nat) (hW : 0 < queueLength)
    (candidates : List (SlotSolutionCandidate F)) :
    ∃ (L : List (Vertex F)) (D : Multiset (Vertex F)),
      ((candidates.enum.map (fun p => vertexOf p.1 p.2) : List (Vertex F)) : Multiset (Vertex F))
          = (L : Multiset (Vertex F)) + D
        ∧ (∀ d ∈ D, ∀ w ∈ L, d.Key ≤ w.Key)
        ∧ L.Sorted (fun a b => a.Key ≤ b.Key)
        ∧ L.length = min (min candidates.length queueLength) display
        ∧ FindBestCandidatesWith pq queueLength display candidates
            = L.map (fun v =>
                (indexLoop candidates 0 (List.replicate candidates.length Vertex.zero) []).2.get
                  SlotSolutionCandidate.zero v.Name) := by
  obtain ⟨hV, _⟩ := indexLoop_spec candidates
  have h0 : HoldsBest pq 0 pq.empty := ⟨0, by simp [pq.nodes_empty], by simp⟩
  have hs0 : pq.Size pq.empty = min (Multiset.card (0 : Multiset (Vertex F))) queueLength := by
    rw [pq.size_eq, pq.nodes_empty]; simp
  obtain ⟨h1, h2⟩ := foldl_offer_holdsBest pq queueLength hW
    (candidates.enum.map (fun p => vertexOf p.1 p.2)) 0 pq.empty h0 hs0
  simp only [zero_add, Multiset.card_zero, List.length_map, List.enum_length] at h1 h2
  obtain ⟨h3, h4⟩ := shrinkLoop_holdsBest pq display _ _ _ (Nat.le_add_left _ display) h1
  obtain ⟨L, hL1, hL2, hL3⟩ := drainLoop_spec pq
    (indexLoop candidates 0 (List.replicate candidates.length Vertex.zero) []).2 _ _ []
    (le_refl _)
  obtain ⟨D, hD1, hD2⟩ := h3
  refine ⟨L, D, ?_, ?_, hL2, ?_, ?_⟩
  · rw [hD1, hL1]
  · intro d hd w hw
    exact hD2 d hd w (by rw [← hL1]; exact hw)
  · have : L.length = Multiset.card (L : Multiset (Vertex F)) := rfl
    rw [this, hL1, ← pq.size_eq, h4, h2]
  · unfold FindBestCandidatesWith
    simp only [hV]
    rw [hL3]; simp

/-- `FindBestCandidatesWith` in terms of input positions: the result is the
list of the input candidates at the positions `idxs`, which are distinct,
`min (min N queueLength) display` in number, ascending by score, and no
position left out has a score greater than one of a position taken. -/
theorem FindBestCandidatesWith_spec {F Q : Type} [LinearOrder F] [Zero F]
    (pq : MinPriorityQueue F Q) (queueLength display : Nat) (hW : 0 < queueLength)
    (candidates : List (SlotSolutionCandidate F)) :
    ∃ idxs : List Nat, idxs.Nodup
      ∧ (∀ i ∈ idxs, i < candidates.length)
      ∧ idxs.length = min (min candidates.length queueLength) display
      ∧ (FindBestCandidatesWith pq queueLength display candidates).map some
          = idxs.map (fun i => candidates[i]?)
      ∧ (∀ j cj, candidates[j]? = some cj → j ∉ idxs →
          ∀ i ∈ idxs, ∀ ci, candidates[i]? = some ci → cj.Score ≤ ci.Score)
      ∧ ((FindBestCandidatesWith pq queueLength display candidates).map
          (fun c => c.Score)).Sorted (fun a b => a ≤ b) := by
  obtain ⟨L, D, hV, hD, hsorted, hlen, hres⟩ :=
    FindBestCandidatesWith_vertexes pq queueLength display hW candidates
  obtain ⟨_, hm⟩ := indexLoop_spec candidates
  have hLV : ∀ v ∈ L, v ∈ candidates.enum.map (fun p => vertexOf p.1 p.2) := by
    intro v hv
    have : v ∈ ((candidates.enum.map (fun p => vertexOf p.1 p.2) : List (Vertex F)) :
        Multiset (Vertex F)) := by
      rw [hV]; exact Multiset.mem_add.mpr (Or.inl hv)
    exact this
  have hsub : (L : Multiset (Vertex F))
      ≤ ((candidates.enum.map (fun p => vertexOf p.1 p.2) : List (Vertex F)) :
          Multiset (Vertex F)) := by
    rw [hV]
    exact Multiset.le_add_right _ _
  have hrange : (candidates.enum.map (fun p => vertexOf p.1 p.2)).map
      (fun v => parseInt v.Name) = List.range candidates.length := by
    rw [List.map_map, ← List.enum_map_fst]
    apply List.map_congr_left
    intro p _
    exact parseInt_FormatInt p.1
  refine ⟨L.map (fun v => parseInt v.Name), ?_, ?_, ?_, ?_, ?_, ?_⟩
  · have hmap : Multiset.map (fun v : Vertex F => parseInt v.Name) (L : Multiset (Vertex F))
        ≤ Multiset.map (fun v : Vertex F => parseInt v.Name)
            ((candidates.enum.map (fun p => vertexOf p.1 p.2) : List (Vertex F)) :
              Multiset (Vertex F)) := Multiset.map_le_map hsub
    rw [Multiset.map_coe, Multiset.map_coe, hrange] at hmap
    exact Multiset.coe_nodup.mp
      (Multiset.nodup_of_le hmap (Multiset.coe_nodup.mpr (List.nodup_range _)))
  · intro i hi
    obtain ⟨v, hv, rfl⟩ := List.mem_map.mp hi
    obtain ⟨c, hc, _, _⟩ := hm v (hLV v hv)
    exact (List.getElem?_eq_some.mp hc).1
  · rw [List.length_map, hlen]
  · rw [hres, List.map_map, List.map_map]
    apply List.map_congr_left
    intro v hv
    obtain ⟨c, hc, _, hget⟩ := hm v (hLV v hv)
    simp only [Function.comp_apply, hget, hc]
  · intro j cj hj hnot i hi ci hci
    obtain ⟨w, hw, rfl⟩ := List.mem_map.mp hi
    obtain ⟨c, hc, hwc, _⟩ := hm w (hLV w hw)
    have hcc : c = ci := Option.some.inj (hc.symm.trans hci)
    have hjV : vertexOf j cj ∈ ((candidates.enum.map (fun p => vertexOf p.1 p.2) :
        List (Vertex F)) : Multiset (Vertex F)) := by
      refine List.mem_map.mpr ⟨(j, cj), ?_, rfl⟩
      exact List.mem_enum_iff_getElem?.mpr hj
    rw [hV] at hjV
    rcases Multiset.mem_add.mp hjV with hjL | hjD
    · exfalso
      apply hnot
      refine List.mem_map.mpr ⟨vertexOf j cj, hjL, ?_⟩
      exact parseInt_FormatInt j
    · have := hD _ hjD w hw
      rw [hwc, hcc] at this
      exact this
  · have hkeys : (FindBestCandidatesWith pq queueLength display candidates).map
        (fun c => c.Score) = L.map (fun v => v.Key) := by
      rw [hres, List.map_map]
      apply List.map_congr_left
      intro v hv
      obtain ⟨c, _, hvc, hget⟩ := hm v (hLV v hv)
      simp only [Function.comp_apply, hget]
      rw [hvc]; rfl
    rw [hkeys]
    exact List.pairwise_map.mpr hsorted

/-- Against a full sort: the scores of the result of `FindBestCandidatesWith`
are the last `min (min N queueLength) display` entries of the ascending sort
of the scores of the input. -/
theorem FindBestCandidatesWith_sort {F Q : Type} [LinearOrder F] [Zero F]
    (pq : MinPriorityQueue F Q) (queueLength display : Nat) (hW : 0 < queueLength)
    (candidates : List (SlotSolutionCandidate F)) :
    (FindBestCandidatesWith pq queueLength display candidates).map (fun c => c.Score)
      = ((candidates.map (fun c => c.Score)).insertionSort (fun a b => a ≤ b)).drop
          (candidates.length - min (min candidates.length queueLength) display) := by
  obtain ⟨L, D, hV, hD, hsorted, hlen, hres⟩ :=
    FindBestCandidatesWith_vertexes pq queueLength display hW candidates
  obtain ⟨_, hm⟩ := indexLoop_spec candidates
  have hkeys : (FindBestCandidatesWith pq queueLength display candidates).map
      (fun c => c.Score) = L.map (fun v => v.Key) := by
    rw [hres, List.map_map]
    apply List.map_congr_left
    intro v hv
    have hvV : v ∈ candidates.enum.map (fun p => vertexOf p.1 p.2) := by
      have : v ∈ ((candidates.enum.map (fun p => vertexOf p.1 p.2) : List (Vertex F)) :
          Multiset (Vertex F)) := by
        rw [hV]; exact Multiset.mem_add.mpr (Or.inl hv)
      exact this
    obtain ⟨c, _, hvc, hget⟩ := hm v hvV
    simp only [Function.comp_apply, hget]
    rw [hvc]; rfl
  have hVkeys : (candidates.enum.map (fun p => vertexOf p.1 p.2)).map (fun v => v.Key)
      = candidates.map (fun c => c.Score) := by
    rw [List.map_map]
    have : ((fun v : Vertex F => v.Key) ∘ fun p : Nat × SlotSolutionCandidate F =>
        vertexOf p.1 p.2) = (fun c : SlotSolutionCandidate F => c.Score) ∘ Prod.snd := rfl
    rw [this, ← List.map_map, List.enum_map_snd]
  -- the keys left out, in ascending order, followed by the keys taken
  let C : List F := (D.map (fun v => v.Key)).sort (fun a b => a ≤ b)
  have hCD : (C : Multiset F) = D.map (fun v => v.Key) := Multiset.sort_eq _ _
  have hClen : C.length = Multiset.card D := by
    have : C.length = Multiset.card (C : Multiset F) := rfl
    rw [this, hCD, Multiset.card_map]
  have hperm : (C ++ L.map (fun v => v.Key)).Perm
      ((candidates.map (fun c => c.Score)).insertionSort (fun a b => a ≤ b)) := by
    refine List.Perm.trans ?_ (List.perm_insertionSort _ _).symm
    have h1 := congrArg (Multiset.map (fun v : Vertex F => v.Key)) hV
    simp only [Multiset.map_coe, Multiset.map_add] at h1
    rw [← Multiset.coe_eq_coe, ← Multiset.coe_add, hCD, ← hVkeys, h1, add_comm]
  have hsortedCL : (C ++ L.map (fun v => v.Key)).Sorted (fun a b => a ≤ b) := by
    refine List.pairwise_append.mpr ⟨Multiset.sort_sorted _ _, List.pairwise_map.mpr hsorted, ?_⟩
    intro a ha b hb
    have ha2 : a ∈ D.map (fun v => v.Key) := by rw [← hCD]; exact ha
    obtain ⟨d, hd, rfl⟩ := Multiset.mem_map.mp ha2
    obtain ⟨w, hw, rfl⟩ := List.mem_map.mp hb
    exact hD d hd w hw
  have heq := List.eq_of_perm_of_sorted hperm hsortedCL (List.sorted_insertionSort _ _)
  have hcard : candidates.length = L.length + Multiset.card D := by
    have := congrArg Multiset.card hV
    simpa using this
  rw [hkeys, ← heq, ← hlen]
  have : candidates.length - L.length = C.length := by rw [hClen]; omega
  rw [this, List.drop_left]

/-- **C4.** For every list of `N` scored candidates `FindBestCandidates`
returns exactly `min N 15` candidates, each the input candidate at a distinct
input position (`idxs`), and they are the top 15 by score: no input candidate
left out has a score strictly greater than the score of a candidate in the
result; checked against a full sort, the scores of the result are the last
`min N 15` entries of the ascending sort of the input scores. An empty input
gives an empty result. The queue is any minimum priority queue `pq`. -/
theorem FindBestCandidates_top {F Q : Type} [LinearOrder F] [Zero F]
    (pq : MinPriorityQueue F Q) (candidates : List (SlotSolutionCandidate F)) :
    (∃ idxs : List Nat, idxs.Nodup
        ∧ (∀ i ∈ idxs, i < candidates.length)
        ∧ idxs.length = min candidates.length 15
        ∧ (FindBestCandidates pq candidates).map some = idxs.map (fun i => candidates[i]?)
        ∧ ∀ j cj, candidates[j]? = some cj → j ∉ idxs →
            ∀ i ∈ idxs, ∀ ci, candidates[i]? = some ci → ¬ cj.Score > ci.Score)
      ∧ (FindBestCandidates pq candidates).length = min candidates.length 15
      ∧ (FindBestCandidates pq candidates).map (fun c => c.Score)
          = ((candidates.map (fun c => c.Score)).insertionSort (fun a b => a ≤ b)).drop
              (candidates.length - min candidates.length 15)
      ∧ FindBestCandidates pq ([] : List (SlotSolutionCandidate F)) = [] := by
  have hmin : ∀ n : Nat, min (min n CandidateQueueLength) CandidateQueueDisplay = min n 15 := by
    intro n; simp only [CandidateQueueLength, CandidateQueueDisplay]; omega
  have hspec := fun cs : List (SlotSolutionCandidate F) =>
    FindBestCandidatesWith_spec pq CandidateQueueLength CandidateQueueDisplay (by decide) cs
  have hlen : ∀ cs : List (SlotSolutionCandidate F),
      (FindBestCandidates pq cs).length = min cs.length 15 := by
    intro cs
    obtain ⟨idxs, _, _, h3, h4, _⟩ := hspec cs
    have := congrArg List.length h4
    simp only [List.length_map] at this
    rw [FindBestCandidates, this, h3, hmin]
  refine ⟨?_, hlen candidates, ?_, ?_⟩
  · obtain ⟨idxs, h1, h2, h3, h4, h5, _⟩ := hspec candidates
    refine ⟨idxs, h1, h2, by rw [h3, hmin], h4, ?_⟩
    intro j cj hj hnot i hi ci hci
    exact not_lt.mpr (h5 j cj hj hnot i hi ci hci)
  · have := FindBestCandidatesWith_sort pq CandidateQueueLength CandidateQueueDisplay
      (by decide) candidates
    rw [hmin] at this
    exact this
  · exact List.length_eq_zero.mp (by rw [hlen]; rfl)

/-- Witness of **C4** on the list queue: of thirty candidates with the scores
`7 * n mod 31` the fifteen of the scores 15, ..., 30 except 24 are returned
(24 is not a score of the input). -/
theorem FindBestCandidates_top_witness :
    ((∃ idxs : List Nat, idxs.Nodup
        ∧ (∀ i ∈ idxs, i < thirtyCandidates.length)
        ∧ idxs.length = min thirtyCandidates.length 15
        ∧ (FindBestCandidates (listQueue Int) thirtyCandidates).map some
            = idxs.map (fun i => thirtyCandidates[i]?)
        ∧ ∀ j cj, thirtyCandidates[j]? = some cj → j ∉ idxs →
            ∀ i ∈ idxs, ∀ ci, thirtyCandidates[i]? = some ci → ¬ cj.Score > ci.Score)
      ∧ (FindBestCandidates (listQueue Int) thirtyCandidates).length
          = min thirtyCandidates.length 15
      ∧ (FindBestCandidates (listQueue Int) thirtyCandidates).map (fun c => c.Score)
          = ((thirtyCandidates.map (fun c => c.Score)).insertionSort (fun a b => a ≤ b)).drop
              (thirtyCandidates.length - min thirtyCandidates.length 15)
      ∧ FindBestCandidates (listQueue Int) ([] : List (SlotSolutionCandidate Int)) = [])
      ∧ (FindBestCandidates (listQueue Int) thirtyCandidates).map (fun c => c.Score)
          = [15, 16, 17, 18, 19, 20, 21, 22, 23, 25, 26, 27, 28, 29, 30] :=
  ⟨FindBestCandidates_top (listQueue Int) thirtyCandidates, by decide⟩

/-- **C5.** For every list of scored candidates the list that
`FindBestCandidates` returns is in ascending order of `Score`: the score of
each element is less than or equal to the score of the next one (and of every
later one). The queue is any minimum priority queue `pq`. -/
theorem FindBestCandidates_ascending {F Q : Type} [LinearOrder F] [Zero F]
    (pq : MinPriorityQueue F Q) (candidates : List (SlotSolutionCandidate F)) :
    (FindBestCandidates pq candidates).Sorted (fun a b => a.Score ≤ b.Score)
      ∧ ∀ k (h : k + 1 < (FindBestCandidates pq candidates).length),
          (FindBestCandidates pq candidates)[k].Score
            ≤ (FindBestCandidates pq candidates)[k + 1].Score := by
  obtain ⟨_, _, _, _, _, _, hsorted⟩ :=
    FindBestCandidatesWith_spec pq CandidateQueueLength CandidateQueueDisplay (by decide)
      candidates
  have hs : (FindBestCandidates pq candidates).Sorted (fun a b => a.Score ≤ b.Score) :=
    List.pairwise_map.mp hsorted
  refine ⟨hs, ?_⟩
  intro k h
  exact (List.pairwise_iff_getElem.mp hs) k (k + 1) (by omega) h (by omega)

/-- Witness of **C5**, with the window and display limits as parameters: the
scores 5, 1, 9, 3, 7 with window limit 3 and display limit 2 give the result
7, 9, on the list queue and on every other minimum priority queue. -/
theorem FindBestCandidates_ascending_witness :
    ((FindBestCandidates (listQueue Int) fiveCandidates).Sorted
        (fun a b => a.Score ≤ b.Score)
      ∧ ∀ k (h : k + 1 < (FindBestCandidates (listQueue Int) fiveCandidates).length),
          (FindBestCandidates (listQueue Int) fiveCandidates)[k].Score
            ≤ (FindBestCandidates (listQueue Int) fiveCandidates)[k + 1].Score)
      ∧ (FindBestCandidatesWith (listQueue Int) 3 2 fiveCandidates).map (fun c => c.Score)
          = [7, 9]
      ∧ (FindBestCandidates (listQueue Int) fiveCandidates).map (fun c => c.Score)
          = [1, 3, 5, 7, 9]
      ∧ ∀ (Q : Type) (pq : MinPriorityQueue Int Q),
          (FindBestCandidatesWith pq 3 2 fiveCandidates).map (fun c => c.Score) = [7, 9] :=
  ⟨FindBestCandidates_ascending (listQueue Int) fiveCandidates, by decide, by decide,
    fun _ pq => by
      rw [FindBestCandidatesWith_sort pq 3 2 (by decide) fiveCandidates]
      decide⟩

/-! ## Slot solutions -/

/-- The loop on the iterator is complete on the fuel `remaining`: the states
it visits are the successive `Next` of the start, each with `HasNext`, and
`HasNext` is false at the state after the last. -/
theorem statesFrom_complete {F I : Type} (iter : MDtagIter F I) (fuel : Nat) :
    ∀ mdIter, iter.remaining mdIter ≤ fuel →
      statesFrom iter fuel mdIter
          = (List.range (statesFrom iter fuel mdIter).length).map
              (fun k => iter.Next^[k] mdIter)
        ∧ (∀ s ∈ statesFrom iter fuel mdIter, iter.HasNext s = true)
        ∧ iter.HasNext (iter.Next^[(statesFrom iter fuel mdIter).length] mdIter) = false := by
  induction fuel with
  | zero =>
    intro it h
    refine ⟨by simp [statesFrom], by simp [statesFrom], ?_⟩
    by_contra hc
    have := iter.next_remaining it (by simpa using hc)
    omega
  | succ fuel ih =>
    intro it h
    unfold statesFrom
    by_cases hn : iter.HasNext it = true
    · simp only [hn, if_true]
      have hrem := iter.next_remaining it hn
      obtain ⟨h1, h2, h3⟩ := ih (iter.Next it) (by omega)
      refine ⟨?_, ?_, ?_⟩
      · rw [List.length_cons, List.range_succ_eq_map, List.map_cons, List.map_map]
        simp only [Function.iterate_zero, id_eq, List.cons.injEq, true_and]
        conv_lhs => rw [h1]
        rfl
      · intro s hs
        rcases List.mem_cons.mp hs with rfl | hs
        · exact hn
        · exact h2 s hs
      · rw [List.length_cons, Function.iterate_succ_apply]
        exact h3
    · simp only [hn]
      refine ⟨by simp, by simp, by simpa using hn⟩

/-- The loop of `GenerateSlotSolution` in terms of the states it visits: it
panics when a construction panics; otherwise it appends to `slotCandidates`, in
the order of the states, the candidates built that are feasible. -/
theorem candidateLoop_snd {F Q I C : Type} [LinearOrder F] [Zero F]
    (ext : Collaborators F Q I C) (evTag : GoString) (categorizedPlaces : CategorizedPlaces F)
    (minuteLimit : Int) (fuel : Nat) :
    ∀ mdIter slotCandidates,
      (candidateLoop ext ⟨evTag, []⟩ categorizedPlaces minuteLimit fuel mdIter
          slotCandidates).2
        = if (statesFrom ext.iter fuel mdIter).all
              (fun s => (builtAt ext evTag categorizedPlaces s).isSome) = true
          then some (slotCandidates ++ (statesFrom ext.iter fuel mdIter).filterMap
            (fun s => (builtAt ext evTag categorizedPlaces s).filter
              (feasible ext categorizedPlaces minuteLimit s)))
          else none := by
  induction fuel with
  | zero => intro it acc; simp [candidateLoop, statesFrom]
  | succ fuel ih =>
    intro it acc
    unfold candidateLoop statesFrom
    by_cases hn : ext.iter.HasNext it = true
    · simp only [hn, if_true]
      rcases hb : builtAt ext evTag categorizedPlaces it with _ | cur
      · have hb2 : (SlotSolution.mk evTag []).CreateCandidate ext.Score (ext.iter.Status it)
            categorizedPlaces = none := hb
        simp [hb2, hb]
      · have hb2 : (SlotSolution.mk evTag []).CreateCandidate ext.Score (ext.iter.Status it)
            categorizedPlaces = some cur := hb
        simp only [hb2, ih, List.all_cons, hb, Option.isSome_some, Bool.true_and,
          List.filterMap_cons]
        by_cases hall : (statesFrom ext.iter fuel (ext.iter.Next it)).all
            (fun s => (builtAt ext evTag categorizedPlaces s).isSome) = true
        · simp only [hall, if_true, Option.some.injEq]
          by_cases hset : cur.IsSet = true
          · by_cases htr : ext.GetTravelTimeByDistance categorizedPlaces it
                ≤ ext.float64 minuteLimit
            · simp [Option.filter, feasible, hset, htr]
            · simp [Option.filter, feasible, hset, htr]
          · simp [Option.filter, feasible, hset]
        · simp only [hall]
          simp
    · simp [hn]

/-- The run of `GenerateSlotSolution` after a cache miss on a valid tag, when
the time matcher answers with at least one cluster: a panic of a construction
is a panic of the run, and otherwise the run returns the requested tag with
`FindBestCandidates` of the list that the loop leaves. -/
theorem GenerateSlotSolution_onMiss {F Q I C : Type} [LinearOrder F] [Zero F]
    (ext : Collaborators F Q I C) (location evTag city country : GoString)
    (pieces : List GoString) (stayTimes : List TimeSlot) (first last : TimeSlot)
    (radius weekday : Nat) (cluster : C) (others : List C)
    (hlen : stayTimes.length = evTag.length)
    (hloc : splitComma location = city :: country :: pieces)
    (hmiss : ext.GetSlotSolution (cacheRequest city country evTag stayTimes radius weekday)
      = none)
    (hvalid : (SlotSolution.mk evTag ([] : List (SlotSolutionCandidate F))).IsSlotTagValid
      = true)
    (hfirst : stayTimes.head? = some first) (hlast : stayTimes.getLast? = some last)
    (hmatch : ext.Matching (matchingRequest ext location first last radius weekday)
      = cluster :: others) :
    (GenerateSlotSolution ext location evTag stayTimes radius weekday).outcome
      = match (enumerateCandidates ext evTag (ext.Categorize cluster)
          (ext.GetSlotLengthinMin cluster)).2 with
        | none => Outcome.panic
        | some slotCandidates =>
          Outcome.returned ⟨evTag, FindBestCandidates ext.queue slotCandidates⟩ := by
  unfold GenerateSlotSolution
  rw [if_neg (by simpa using hlen)]
  simp only [hloc, hmiss, hvalid, if_true]
  unfold generateOnMiss
  simp only [hfirst, hlast, hmatch]
  split <;> rename_i h <;> simp [h]

/-- **C6.** For a cache-miss request with a valid tag (`first` and `last` name
the first and the last stay time, `cluster` the first cluster that the time
matcher answers with), the list that `GenerateSlotSolution` hands to
`FindBestCandidates` consists, in enumeration order, of exactly the candidates
built from the enumerated index tuples that are valid (`IsSet`) and whose
travel time in minutes is at most the length of the slot in minutes
(`feasible`); every other candidate is dropped. A construction that panics
makes the run panic. The enumeration is that of the whole loop: its states are
the successive `Next` of the initial one, and it ends at a state without
`HasNext`. -/
theorem GenerateSlotSolution_handed {F Q I C : Type} [LinearOrder F] [Zero F]
    (ext : Collaborators F Q I C) (location evTag city country : GoString)
    (pieces : List GoString) (stayTimes : List TimeSlot) (first last : TimeSlot)
    (radius weekday : Nat) (cluster : C) (others : List C)
    (hlen : stayTimes.length = evTag.length)
    (hloc : splitComma location = city :: country :: pieces)
    (hmiss : ext.GetSlotSolution (cacheRequest city country evTag stayTimes radius weekday)
      = none)
    (hvalid : (SlotSolution.mk evTag ([] : List (SlotSolutionCandidate F))).IsSlotTagValid
      = true)
    (hfirst : stayTimes.head? = some first) (hlast : stayTimes.getLast? = some last)
    (hmatch : ext.Matching (matchingRequest ext location first last radius weekday)
      = cluster :: others) :
    (GenerateSlotSolution ext location evTag stayTimes radius weekday).outcome
        = (if (enumerated ext.iter (ext.iter.Init evTag (ext.Categorize cluster))).all
              (fun s => (builtAt ext evTag (ext.Categorize cluster) s).isSome) = true
          then Outcome.returned ⟨evTag, FindBestCandidates ext.queue
            ((enumerated ext.iter (ext.iter.Init evTag (ext.Categorize cluster))).filterMap
              (fun s => (builtAt ext evTag (ext.Categorize cluster) s).filter
                (feasible ext (ext.Categorize cluster) (ext.GetSlotLengthinMin cluster) s)))⟩
          else Outcome.panic)
      ∧ (∀ s ∈ enumerated ext.iter (ext.iter.Init evTag (ext.Categorize cluster)),
          ext.iter.HasNext s = true)
      ∧ ext.iter.HasNext (ext.iter.Next^[(enumerated ext.iter
          (ext.iter.Init evTag (ext.Categorize cluster))).length]
            (ext.iter.Init evTag (ext.Categorize cluster))) = false
      ∧ enumerated ext.iter (ext.iter.Init evTag (ext.Categorize cluster))
          = (List.range (enumerated ext.iter
              (ext.iter.Init evTag (ext.Categorize cluster))).length).map
              (fun k => ext.iter.Next^[k] (ext.iter.Init evTag (ext.Categorize cluster))) := by
  obtain ⟨h1, h2, h3⟩ := statesFrom_complete ext.iter
    (ext.iter.remaining (ext.iter.Init evTag (ext.Categorize cluster)))
    (ext.iter.Init evTag (ext.Categorize cluster)) (le_refl _)
  refine ⟨?_, h2, h3, h1⟩
  rw [GenerateSlotSolution_onMiss ext location evTag city country pieces stayTimes first last
    radius weekday cluster others hlen hloc hmiss hvalid hfirst hlast hmatch]
  unfold enumerateCandidates
  rw [candidateLoop_snd]
  unfold enumerated
  split_ifs with hall
  · simp
  · rfl

/-- Witness of **C6**: the scenario with tag `EV` on the clash clusters and an
empty cache. The tuples `(0,0)`, `(0,1)`, `(1,0)`, `(1,1)` are enumerated; the
candidate of `(0,1)` is not set (`A` and `D` share an identifier) and the
travel time of `(1,1)`, 100 minutes, exceeds the 60 minutes of the slot, so the
candidates of `(0,0)` and `(1,0)` are handed over. -/
theorem GenerateSlotSolution_handed_witness :
    (scenarioStay.length = (ascii "EV").length
      ∧ splitComma (ascii "Paris,France") = [ascii "Paris", ascii "France"]
      ∧ (SlotSolution.mk (ascii "EV") [] : SlotSolution Int).IsSlotTagValid = true)
      ∧ ((GenerateSlotSolution (scenarioExt emptyCache) (ascii "Paris,France") (ascii "EV")
            scenarioStay 0 9).outcome
          = (if (enumerated (odometer Int) ((odometer Int).Init (ascii "EV") clashClusters)).all
                (fun s => (builtAt (scenarioExt emptyCache) (ascii "EV") clashClusters s).isSome)
                = true
            then Outcome.returned ⟨ascii "EV", FindBestCandidates (listQueue Int)
              ((enumerated (odometer Int)
                  ((odometer Int).Init (ascii "EV") clashClusters)).filterMap
                (fun s => (builtAt (scenarioExt emptyCache) (ascii "EV") clashClusters s).filter
                  (feasible (scenarioExt emptyCache) clashClusters 60 s)))⟩
            else Outcome.panic)
        ∧ (∀ s ∈ enumerated (odometer Int) ((odometer Int).Init (ascii "EV") clashClusters),
            (odometer Int).HasNext s = true)
        ∧ (odometer Int).HasNext ((odometer Int).Next^[(enumerated (odometer Int)
            ((odometer Int).Init (ascii "EV") clashClusters)).length]
              ((odometer Int).Init (ascii "EV") clashClusters)) = false
        ∧ enumerated (odometer Int) ((odometer Int).Init (ascii "EV") clashClusters)
            = (List.range (enumerated (odometer Int)
                ((odometer Int).Init (ascii "EV") clashClusters)).length).map
                (fun k => (odometer Int).Next^[k]
                  ((odometer Int).Init (ascii "EV") clashClusters)))
      ∧ (enumerated (odometer Int) ((odometer Int).Init (ascii "EV") clashClusters)).map
          (odometer Int).Status = [[0, 0], [0, 1], [1, 0], [1, 1]]
      ∧ ((enumerated (odometer Int) ((odometer Int).Init (ascii "EV") clashClusters)).filterMap
          (fun s => (builtAt (scenarioExt emptyCache) (ascii "EV") clashClusters s).filter
            (feasible (scenarioExt emptyCache) clashClusters 60 s))).map
          (fun c => c.PlaceNames) = [[ascii "A", ascii "C"], [ascii "B", ascii "C"]] :=
  ⟨⟨by decide, by decide, by decide⟩,
    GenerateSlotSolution_handed (scenarioExt emptyCache) (ascii "Paris,France") (ascii "EV")
      (ascii "Paris") (ascii "France") [] scenarioStay ⟨⟨10, 12⟩⟩ ⟨⟨12, 14⟩⟩ 0 9
      (clashClusters, 60) [] (by decide) (by decide) rfl (by decide) rfl rfl rfl,
    by decide, by decide⟩

/-- Counterexample to **C7** as stated: the tag `EX` is rejected by the
validator and the stay-time list has its length, yet the solution cache is
read before anything fails. With an empty cache the run reads the cache and
then stops on the invalid tag; with a cache that answers, the run does not
fail at all and returns the cached candidate. -/
theorem GenerateSlotSolution_invalidTag_counterexample :
    (SlotSolution.mk (ascii "EX") [] : SlotSolution Int).IsSlotTagValid = false
      ∧ scenarioStay.length = (ascii "EX").length
      ∧ (GenerateSlotSolution (scenarioExt emptyCache) (ascii "Paris,France") (ascii "EX")
            scenarioStay 0 9)
          = ⟨[Event.getSlotSolution
                (cacheRequest (ascii "Paris") (ascii "France") (ascii "EX") scenarioStay 0 9)],
              Outcome.fatal (FatalMessage.invalidTag (ascii "EX"))⟩
      ∧ (GenerateSlotSolution (scenarioExt fullCache) (ascii "Paris,France") (ascii "EX")
            scenarioStay 0 9)
          = ⟨[Event.getSlotSolution
                (cacheRequest (ascii "Paris") (ascii "France") (ascii "EX") scenarioStay 0 9)],
              Outcome.returned ⟨[], [ofCache
                ⟨[ascii "1", ascii "3"], 2, [ascii "A", ascii "C"], [(0, 0), (0, 0)]⟩]⟩⟩ := by
  decide

/-- **C7**, amended. For a request whose tag the validator rejects and whose
stay-time list has the length of the tag, the time matcher is never invoked,
no candidate is built and nothing is written to the cache: the only event of
the run can be a read of the solution cache. When the location has a city and
a country and the cache misses, the run reads the cache and then stops on the
invalid tag, returning no candidates. -/
theorem GenerateSlotSolution_invalidTag {F Q I C : Type} [LinearOrder F] [Zero F]
    (ext : Collaborators F Q I C) (location evTag : GoString) (stayTimes : List TimeSlot)
    (radius weekday : Nat)
    (hinvalid : (SlotSolution.mk evTag ([] : List (SlotSolutionCandidate F))).IsSlotTagValid
      = false)
    (hlen : stayTimes.length = evTag.length) :
    (∀ e ∈ (GenerateSlotSolution ext location evTag stayTimes radius weekday).events,
        ∃ req, e = Event.getSlotSolution req)
      ∧ ∀ city country pieces, splitComma location = city :: country :: pieces →
          ext.GetSlotSolution (cacheRequest city country evTag stayTimes radius weekday) = none →
          GenerateSlotSolution ext location evTag stayTimes radius weekday
            = ⟨[Event.getSlotSolution
                  (cacheRequest city country evTag stayTimes radius weekday)],
                Outcome.fatal (FatalMessage.invalidTag evTag)⟩ := by
  have hne : ¬ stayTimes.length ≠ evTag.length := by simpa using hlen
  refine ⟨?_, ?_⟩
  · intro e he
    unfold GenerateSlotSolution at he
    rw [if_neg hne] at he
    split at he
    · rename_i city country pieces _
      simp only [hinvalid] at he
      split at he
      · simp only [List.mem_singleton] at he
        exact ⟨_, he⟩
      · simp only [Bool.false_eq_true, if_false, List.mem_singleton] at he
        exact ⟨_, he⟩
    · simp at he
  · intro city country pieces hloc hmiss
    unfold GenerateSlotSolution
    rw [if_neg hne]
    simp only [hloc, hmiss, hinvalid, Bool.false_eq_true, if_false]

/-- Witness of **C7** as amended: the tag `EX` on the scenario with an empty
cache. -/
theorem GenerateSlotSolution_invalidTag_witness :
    (SlotSolution.mk (ascii "EX") [] : SlotSolution Int).IsSlotTagValid = false
      ∧ scenarioStay.length = (ascii "EX").length
      ∧ (∀ e ∈ (GenerateSlotSolution (scenarioExt emptyCache) (ascii "Paris,France")
            (ascii "EX") scenarioStay 0 9).events, ∃ req, e = Event.getSlotSolution req)
      ∧ ∀ city country pieces, splitComma (ascii "Paris,France") = city :: country :: pieces →
          (scenarioExt emptyCache).GetSlotSolution
            (cacheRequest city country (ascii "EX") scenarioStay 0 9) = none →
          GenerateSlotSolution (scenarioExt emptyCache) (ascii "Paris,France") (ascii "EX")
              scenarioStay 0 9
            = ⟨[Event.getSlotSolution
                  (cacheRequest city country (ascii "EX") scenarioStay 0 9)],
                Outcome.fatal (FatalMessage.invalidTag (ascii "EX"))⟩ :=
  ⟨by decide, by decide,
    GenerateSlotSolution_invalidTag (scenarioExt emptyCache) (ascii "Paris,France")
      (ascii "EX") scenarioStay 0 9 (by decide) (by decide)⟩

/-- **C8**, the code at the failing input: the request for the tag `EV` is
answered with `SlotTag = "EV"` when the candidates are recomputed after a cache
miss, and with the empty `SlotTag` when they come from a cache hit, since the
hit returns before `SetTag` is called. -/
theorem GenerateSlotSolution_cacheHit_tag :
    (GenerateSlotSolution (scenarioExt emptyCache) (ascii "Paris,France") (ascii "EV")
        scenarioStay 0 9).outcome.slotTag = some (ascii "EV")
      ∧ (GenerateSlotSolution (scenarioExt fullCache) (ascii "Paris,France") (ascii "EV")
        scenarioStay 0 9).outcome.slotTag = some []
      ∧ (GenerateSlotSolution (scenarioExt fullCache) (ascii "Paris,France") (ascii "EV")
        scenarioStay 0 9).outcome.slotTag ≠ some (ascii "EV") := by
  decide

/-! ## Day knapsack -/

/-- The selection of a cell stays within the budgets of the cell. -/
theorem bestSelection_within {F : Type} (items : KnapsackItems F) (places : List (Place F)) :
    ∀ t b, ((bestSelection items places t b).trace.map items.timeCost).sum ≤ t
      ∧ ((bestSelection items places t b).trace.map items.cost).sum ≤ b := by
  induction places with
  | nil => intro t b; simp [bestSelection]
  | cons place earlier ih =>
    intro t b
    unfold bestSelection choose
    by_cases hfit : items.timeCost place ≤ t ∧ items.cost place ≤ b
    · rw [if_pos hfit]
      split_ifs
      · obtain ⟨h1, h2⟩ := ih (t - items.timeCost place) (b - items.cost place)
        simp only [List.map_append, List.sum_append, List.map_cons, List.map_nil,
          List.sum_cons, List.sum_nil, Nat.add_zero]
        omega
      · exact ih t b
    · rw [if_neg hfit]
      exact ih t b

theorem cellAt_init {F : Type} (timeLimit budget t b : Nat) :
    cellAt (List.replicate (timeLimit + 1)
      (List.replicate (budget + 1) (⟨0, []⟩ : KnapsackNode F))) t b = ⟨0, []⟩ := by
  unfold cellAt
  simp only [List.getD_eq_getElem?_getD, List.getElem?_replicate]
  by_cases ht : t < timeLimit + 1
  · simp only [ht, if_true, Option.getD_some, List.getElem?_replicate]
    split_ifs <;> rfl
  · simp [ht]

theorem cellAt_knapsackStep {F : Type} (items : KnapsackItems F) (timeLimit budget : Nat)
    (table : List (List (KnapsackNode F))) (place : Place F) (t b : Nat)
    (ht : t ≤ timeLimit) (hb : b ≤ budget) :
    cellAt (knapsackStep items timeLimit budget table place) t b
      = choose items place t b (cellAt table t b)
          (cellAt table (t - items.timeCost place) (b - items.cost place)) := by
  have ht2 : t < timeLimit + 1 := by omega
  have hb2 : b < budget + 1 := by omega
  unfold knapsackStep
  conv_lhs => unfold cellAt
  simp only [List.getD_eq_getElem?_getD, List.getElem?_map, List.getElem?_range ht2,
    Option.map_some', Option.getD_some, List.getElem?_range hb2]
  simp only [cellAt, List.getD_eq_getElem?_getD]

/-- The table of the optimized construction holds at every cell the best
selection of the reference construction for the budgets of the cell. -/
theorem cellAt_knapsackTable {F : Type} (items : KnapsackItems F) (timeLimit budget : Nat)
    (places : List (Place F)) :
    ∀ t b, t ≤ timeLimit → b ≤ budget →
      cellAt (knapsackTable items timeLimit budget places) t b
        = bestSelection items places.reverse t b := by
  induction places using List.reverseRecOn with
  | nil =>
    intro t b _ _
    simp only [knapsackTable, List.foldl_nil, List.reverse_nil, bestSelection]
    exact cellAt_init timeLimit budget t b
  | append_singleton earlier place ih =>
    intro t b ht hb
    unfold knapsackTable at ih ⊢
    rw [List.foldl_append, List.foldl_cons, List.foldl_nil, List.reverse_append,
      List.reverse_singleton, List.singleton_append,
      cellAt_knapsackStep items timeLimit budget _ place t b ht hb, ih t b ht hb,
      ih _ _ (by omega) (by omega)]
    rfl

/-- **C9.** For every place list, query time window, time limit and money
budget the totals that `Knapsack` returns satisfy
`totalTimeSpent ≤ timeLimit` and `totalCost ≤ budget`; so on a pool of twenty
places with the time limit 8 and the budget 80. -/
theorem Knapsack_within_budgets {F : Type} (items : KnapsackItems F) (places : List (Place F))
    (startTime : QueryTimeStart) (timeLimit budget : Nat) :
    ((Knapsack items places startTime timeLimit budget).2.2 ≤ timeLimit
        ∧ (Knapsack items places startTime timeLimit budget).2.1 ≤ budget)
      ∧ (Knapsack items places startTime timeLimit budget).2.2
          = ((Knapsack items places startTime timeLimit budget).1.map items.timeCost).sum
      ∧ (Knapsack items places startTime timeLimit budget).2.1
          = ((Knapsack items places startTime timeLimit budget).1.map items.cost).sum
      ∧ knapsackPool.length = 20
      ∧ (Knapsack knapsackItems knapsackPool ⟨8, 0, 24⟩ 8 80).2.2 ≤ 8
      ∧ (Knapsack knapsackItems knapsackPool ⟨8, 0, 24⟩ 8 80).2.1 ≤ 80 := by
  have key : ∀ (G : Type) (its : KnapsackItems G) (ps : List (Place G)) (q : QueryTimeStart)
      (T B : Nat), (Knapsack its ps q T B).2.2 ≤ T ∧ (Knapsack its ps q T B).2.1 ≤ B := by
    intro G its ps q T B
    unfold Knapsack
    simp only []
    rw [cellAt_knapsackTable its T B _ T B (le_refl _) (le_refl _)]
    obtain ⟨h1, h2⟩ := bestSelection_within its
      (ps.filter (fun p => its.isOpen p q)).reverse T B
    exact ⟨h1, h2⟩
  refine ⟨key F items places startTime timeLimit budget, rfl, rfl, rfl, ?_⟩
  exact key Int knapsackItems knapsackPool ⟨8, 0, 24⟩ 8 80

/-- **C10.** For every place list, query time window, time limit and money
budget the reference construction `KnapsackV1` and the optimized construction
`Knapsack` return the same number of places with the same `PlaceId` at every
position: they return the same places in the same order. -/
theorem KnapsackV1_eq_Knapsack {F : Type} (items : KnapsackItems F) (places : List (Place F))
    (startTime : QueryTimeStart) (timeLimit budget : Nat) :
    (KnapsackV1 items places startTime timeLimit budget).length
        = (Knapsack items places startTime timeLimit budget).1.length
      ∧ (∀ i : Nat,
          ((KnapsackV1 items places startTime timeLimit budget)[i]?).map Place.PlaceId
            = ((Knapsack items places startTime timeLimit budget).1[i]?).map Place.PlaceId)
      ∧ KnapsackV1 items places startTime timeLimit budget
          = (Knapsack items places startTime timeLimit budget).1 := by
  have heq : KnapsackV1 items places startTime timeLimit budget
      = (Knapsack items places startTime timeLimit budget).1 := by
    unfold KnapsackV1 Knapsack
    simp only []
    rw [cellAt_knapsackTable items timeLimit budget _ timeLimit budget (le_refl _) (le_refl _)]
  refine ⟨by rw [heq], fun i => by rw [heq], heq⟩

/-- Witness of **C9**: the first six places of the pool with the time limit 4
and the budget 30. The selection is `p0`, `p2`, of 4 hours at the cost 24. -/
theorem Knapsack_within_budgets_witness :
    (((Knapsack knapsackItems smallPool ⟨8, 0, 24⟩ 4 30).2.2 ≤ 4
        ∧ (Knapsack knapsackItems smallPool ⟨8, 0, 24⟩ 4 30).2.1 ≤ 30)
      ∧ (Knapsack knapsackItems smallPool ⟨8, 0, 24⟩ 4 30).2.2
          = ((Knapsack knapsackItems smallPool ⟨8, 0, 24⟩ 4 30).1.map
              knapsackItems.timeCost).sum
      ∧ (Knapsack knapsackItems smallPool ⟨8, 0, 24⟩ 4 30).2.1
          = ((Knapsack knapsackItems smallPool ⟨8, 0, 24⟩ 4 30).1.map knapsackItems.cost).sum
      ∧ knapsackPool.length = 20
      ∧ (Knapsack knapsackItems knapsackPool ⟨8, 0, 24⟩ 8 80).2.2 ≤ 8
      ∧ (Knapsack knapsackItems knapsackPool ⟨8, 0, 24⟩ 8 80).2.1 ≤ 80)
      ∧ (Knapsack knapsackItems smallPool ⟨8, 0, 24⟩ 4 30).2 = (24, 4) :=
  ⟨Knapsack_within_budgets knapsackItems smallPool ⟨8, 0, 24⟩ 4 30, by decide⟩

/-- Witness of **C10**: on the first six places of the pool with the time
limit 4 and the budget 30 both constructions select `p0`, `p2`. -/
theorem KnapsackV1_eq_Knapsack_witness :
    ((KnapsackV1 knapsackItems smallPool ⟨8, 0, 24⟩ 4 30).length
        = (Knapsack knapsackItems smallPool ⟨8, 0, 24⟩ 4 30).1.length
      ∧ (∀ i : Nat,
          ((KnapsackV1 knapsackItems smallPool ⟨8, 0, 24⟩ 4 30)[i]?).map Place.PlaceId
            = ((Knapsack knapsackItems smallPool ⟨8, 0, 24⟩ 4 30).1[i]?).map Place.PlaceId)
      ∧ KnapsackV1 knapsackItems smallPool ⟨8, 0, 24⟩ 4 30
          = (Knapsack knapsackItems smallPool ⟨8, 0, 24⟩ 4 30).1)
      ∧ (KnapsackV1 knapsackItems smallPool ⟨8, 0, 24⟩ 4 30).map Place.PlaceId
          = [ascii "p0", ascii "p2"]
      ∧ (Knapsack knapsackItems smallPool ⟨8, 0, 24⟩ 4 30).1.map Place.PlaceId
          = [ascii "p0", ascii "p2"] :=
  ⟨KnapsackV1_eq_Knapsack knapsackItems smallPool ⟨8, 0, 24⟩ 4 30, by decide, by decide⟩

/-! ## The odometer -/

theorem capacity_eq (ws : List (Nat × Nat)) : capacity ws = (ws.map Prod.snd).prod := by
  induction ws with
  | nil => rfl
  | cons w rest ih => obtain ⟨s, b⟩ := w; simp [capacity, ih]

theorem reading_lt (ws : List (Nat × Nat)) (h : ∀ w ∈ ws, w.1 < w.2) :
    reading ws < capacity ws := by
  induction ws with
  | nil => simp [reading, capacity]
  | cons w rest ih =>
    obtain ⟨s, b⟩ := w
    have h1 : s < b := h (s, b) (List.mem_cons_self _ _)
    have h2 := ih (fun w hw => h w (List.mem_cons_of_mem _ hw))
    simp only [reading, capacity]
    calc s * capacity rest + reading rest < s * capacity rest + capacity rest := by omega
      _ = (s + 1) * capacity rest := by ring
      _ ≤ b * capacity rest := Nat.mul_le_mul_right _ h1

/-- The step on the lower wheels keeps every wheel below its bound and keeps
the bounds; without a carry out the reading grows by 1, with a carry out the
wheels were at their last tuple and are back at 0. -/
theorem carry_spec (ws : List (Nat × Nat)) (h : ∀ w ∈ ws, w.1 < w.2) :
    (∀ w ∈ (carry ws).1, w.1 < w.2)
      ∧ (carry ws).1.map Prod.snd = ws.map Prod.snd
      ∧ ((carry ws).2 = false → reading (carry ws).1 = reading ws + 1)
      ∧ ((carry ws).2 = true → reading (carry ws).1 = 0 ∧ reading ws + 1 = capacity ws) := by
  induction ws with
  | nil => simp [carry, reading, capacity]
  | cons w rest ih =>
    obtain ⟨s, b⟩ := w
    have h1 : s < b := h (s, b) (List.mem_cons_self _ _)
    obtain ⟨i1, i2, i3, i4⟩ := ih (fun w hw => h w (List.mem_cons_of_mem _ hw))
    have hcap : capacity (carry rest).1 = capacity rest := by
      rw [capacity_eq, capacity_eq, i2]
    simp only [carry]
    rcases hc : carry rest with ⟨rest', c⟩
    rw [hc] at i1 i2 i3 i4 hcap
    simp only [] at i1 i2 i3 i4 hcap
    cases c
    · simp only [reading, List.map_cons, i2, hcap, i3 rfl]
      refine ⟨?_, trivial, ?_, ?_⟩
      · intro w hw
        rcases List.mem_cons.mp hw with rfl | hw
        · exact h1
        · exact i1 w hw
      · intro _; omega
      · intro hf; simp at hf
    · obtain ⟨j1, j2⟩ := i4 rfl
      by_cases hsb : s + 1 < b
      · simp only [hsb, if_true, reading, List.map_cons, i2, hcap, j1]
        refine ⟨?_, trivial, ?_, ?_⟩
        · intro w hw
          rcases List.mem_cons.mp hw with rfl | hw
          · exact hsb
          · exact i1 w hw
        · intro _
          have : (s + 1) * capacity rest = s * capacity rest + capacity rest := by ring
          omega
        · intro hf; simp at hf
      · simp only [hsb, if_false, reading, capacity, List.map_cons, i2, hcap, j1]
        refine ⟨?_, trivial, ?_, ?_⟩
        · intro w hw
          rcases List.mem_cons.mp hw with rfl | hw
          · exact (by omega : 0 < b)
          · exact i1 w hw
        · intro hf; simp at hf
        · intro _
          have hb : b = s + 1 := by omega
          have : (s + 1) * capacity rest = s * capacity rest + capacity rest := by ring
          rw [hb]
          constructor
          · simp
          · omega

/-- The advance of the odometer, from a state whose lower wheels are below
their bounds: the lower wheels stay below their bounds, the bounds are kept and
the reading grows by 1. -/
theorem advance_spec (s b : Nat) (rest : List (Nat × Nat)) (h : ∀ w ∈ rest, w.1 < w.2) :
    ∃ s' rest', advance ((s, b) :: rest) = (s', b) :: rest'
      ∧ (∀ w ∈ rest', w.1 < w.2)
      ∧ rest'.map Prod.snd = rest.map Prod.snd
      ∧ reading ((s', b) :: rest') = reading ((s, b) :: rest) + 1 := by
  obtain ⟨i1, i2, i3, i4⟩ := carry_spec rest h
  have hcap : capacity (carry rest).1 = capacity rest := by
    rw [capacity_eq, capacity_eq, i2]
  simp only [advance]
  rcases hc : carry rest with ⟨rest', c⟩
  rw [hc] at i1 i2 i3 i4 hcap
  simp only [] at i1 i2 i3 i4 hcap
  cases c
  · refine ⟨s, rest', rfl, i1, i2, ?_⟩
    simp only [reading, hcap, i3 rfl]; omega
  · obtain ⟨j1, j2⟩ := i4 rfl
    refine ⟨s + 1, rest', rfl, i1, i2, ?_⟩
    simp only [reading, hcap, j1]
    have : (s + 1) * capacity rest = s * capacity rest + capacity rest := by ring
    omega

/-- The positions of wheels that are below their bounds, the first one
perhaps excepted, are the digits of the reading. -/
theorem status_eq_digits (ws : List (Nat × Nat)) :
    (∀ w ∈ ws.tail, w.1 < w.2) → ws.map Prod.fst = digits (ws.map Prod.snd) (reading ws) := by
  induction ws with
  | nil => intro _; rfl
  | cons w rest ih =>
    intro h
    obtain ⟨s, b⟩ := w
    simp only [List.tail_cons] at h
    have hlt := reading_lt rest h
    have hpos : 0 < capacity rest := by omega
    have hrest := ih (fun w hw => h w (List.mem_of_mem_tail hw))
    simp only [List.map_cons, digits, reading, ← capacity_eq]
    have h1 : (s * capacity rest + reading rest) / capacity rest = s := by
      rw [Nat.add_comm, Nat.add_mul_div_right _ _ hpos, Nat.div_eq_of_lt hlt, Nat.zero_add]
    have h2 : (s * capacity rest + reading rest) % capacity rest = reading rest := by
      rw [Nat.add_comm, Nat.add_mul_mod_self_right, Nat.mod_eq_of_lt hlt]
    rw [h1, h2, hrest]

/-- Fuel beyond the bound `remaining` does not change the states of the loop. -/
theorem statesFrom_of_le {F I : Type} (iter : MDtagIter F I) (fuel : Nat) :
    ∀ mdIter, iter.remaining mdIter ≤ fuel →
      statesFrom iter fuel mdIter = enumerated iter mdIter := by
  induction fuel using Nat.strong_induction_on with
  | _ fuel ih =>
    intro it h
    unfold enumerated
    by_cases hn : iter.HasNext it = true
    · have hrem := iter.next_remaining it hn
      obtain ⟨fuel', rfl⟩ : ∃ k, fuel = k + 1 := ⟨fuel - 1, by omega⟩
      obtain ⟨r, hr⟩ : ∃ k, iter.remaining it = k + 1 := ⟨iter.remaining it - 1, by omega⟩
      rw [hr]
      simp only [statesFrom, hn, if_true, List.cons.injEq, true_and]
      rw [ih fuel' (by omega) _ (by omega)]
      by_cases hr0 : r = fuel'
      · subst hr0; rw [ih r (by omega) _ (by omega)]
      · rw [ih r (by omega) _ (by omega)]
    · cases fuel with
      | zero =>
        have : iter.remaining it = 0 := by omega
        rw [this]
      | succ fuel' =>
        cases hr : iter.remaining it with
        | zero => simp [statesFrom, hn]
        | succ r => simp [statesFrom, hn]

/-- The states of the loop on the odometer, from a state whose lower wheels
are below their bounds and whose bounds are positive: their index tuples are
the digits of the numbers from the reading of the state up to the capacity. -/
theorem statesFrom_odometer (F : Type) (fuel : Nat) :
    ∀ (ws : List (Nat × Nat)), ws ≠ [] → (∀ w ∈ ws.tail, w.1 < w.2) → (∀ w ∈ ws, 0 < w.2) →
      capacity ws - reading ws ≤ fuel →
      (statesFrom (odometer F) fuel ws).map (odometer F).Status
        = (List.range' (reading ws) (capacity ws - reading ws)).map
            (digits (ws.map Prod.snd)) := by
  induction fuel with
  | zero =>
    intro ws _ _ _ hfuel
    have : capacity ws - reading ws = 0 := by omega
    simp [statesFrom, this]
  | succ fuel ih =>
    intro ws hne htail hpos hfuel
    obtain ⟨⟨s, b⟩, rest, rfl⟩ := List.exists_cons_of_ne_nil hne
    simp only [List.tail_cons] at htail
    have hlt := reading_lt rest htail
    have hall : ((s, b) :: rest).all (fun w => decide (0 < w.2)) = true :=
      List.all_eq_true.mpr (fun w hw => decide_eq_true (hpos w hw))
    have hnext : (odometer F).HasNext ((s, b) :: rest) = decide (s < b) := by
      show (((s, b) :: rest).all (fun w => decide (0 < w.2)) && decide (s < b)) = decide (s < b)
      rw [hall, Bool.true_and]
    unfold statesFrom
    by_cases hsb : s < b
    · have hrd : reading ((s, b) :: rest) < capacity ((s, b) :: rest) := by
        simp only [reading, capacity]
        calc s * capacity rest + reading rest < s * capacity rest + capacity rest := by omega
          _ = (s + 1) * capacity rest := by ring
          _ ≤ b * capacity rest := Nat.mul_le_mul_right _ hsb
      obtain ⟨s', rest', hadv, h1, h2, h3⟩ := advance_spec s b rest htail
      have hnx : (odometer F).Next ((s, b) :: rest) = (s', b) :: rest' := hadv
      have hcap : capacity ((s', b) :: rest') = capacity ((s, b) :: rest) := by
        rw [capacity_eq, capacity_eq, List.map_cons, List.map_cons, h2]
      have hpos' : ∀ w ∈ (s', b) :: rest', 0 < w.2 := by
        intro w hw
        rcases List.mem_cons.mp hw with rfl | hw
        · exact hpos (s, b) (List.mem_cons_self _ _)
        · exact Nat.lt_of_le_of_lt (Nat.zero_le _) (h1 w hw)
      have hih := ih ((s', b) :: rest') (by simp) (by simpa using h1) hpos'
        (by rw [hcap, h3]; omega)
      rw [hnext, decide_eq_true hsb, if_pos rfl, hnx, List.map_cons, hih, hcap, h3]
      have hst : (odometer F).Status ((s, b) :: rest)
          = digits (((s, b) :: rest).map Prod.snd) (reading ((s, b) :: rest)) :=
        status_eq_digits ((s, b) :: rest) (by simpa using htail)
      rw [hst]
      obtain ⟨k, hk⟩ : ∃ k, capacity ((s, b) :: rest) - reading ((s, b) :: rest) = k + 1 :=
        ⟨capacity ((s, b) :: rest) - reading ((s, b) :: rest) - 1, by omega⟩
      rw [hk, List.range'_succ, List.map_cons]
      have hk2 : capacity ((s, b) :: rest) - (reading ((s, b) :: rest) + 1) = k := by omega
      rw [hk2]
      simp only [List.map_cons, h2]
    · have hrd : capacity ((s, b) :: rest) - reading ((s, b) :: rest) = 0 := by
        simp only [reading, capacity]
        have : b * capacity rest ≤ s * capacity rest :=
          Nat.mul_le_mul_right _ (by omega)
        omega
      rw [hnext, hrd]
      simp [hsb]

theorem flatMap_range_eq (P : Nat) (rows : List (List Nat)) (dig : Nat → List Nat)
    (hrows : rows = (List.range P).map dig) (a : Nat) :
    (List.range a).flatMap (fun i => rows.map (fun t => i :: t))
      = (List.range (a * P)).map (fun v => v / P :: dig (v % P)) := by
  induction a with
  | zero => simp
  | succ a ih =>
    rw [List.range_succ, List.flatMap_append, ih, Nat.succ_mul, List.range_add, List.map_append,
      List.flatMap_cons, List.flatMap_nil, List.append_nil, hrows, List.map_map, List.map_map]
    congr 1
    apply List.map_congr_left
    intro j hj
    have hjP : j < P := List.mem_range.mp hj
    have hpos : 0 < P := by omega
    simp only [Function.comp_apply]
    rw [Nat.mul_comm a P, Nat.mul_add_div hpos, Nat.div_eq_of_lt hjP, Nat.add_zero,
      Nat.mul_add_mod, Nat.mod_eq_of_lt hjP]

/-- The tuples in odometer order are the digits of the numbers below the
product of the bounds, in ascending order. -/
theorem tuples_eq_digits (bounds : List Nat) :
    tuples bounds = (List.range bounds.prod).map (digits bounds) := by
  induction bounds with
  | nil => simp [tuples, digits]
  | cons a bounds ih =>
    rw [tuples, flatMap_range_eq bounds.prod (tuples bounds) (digits bounds) ih a,
      List.prod_cons]
    rfl

theorem length_tuples (bounds : List Nat) : (tuples bounds).length = bounds.prod := by
  rw [tuples_eq_digits, List.length_map, List.length_range]

/-- The tuples are the index tuples of in-range indices: a tuple is listed
exactly when it has one index per bound, each below its bound. -/
theorem mem_tuples (bounds : List Nat) :
    ∀ t, t ∈ tuples bounds ↔ List.Forall₂ (fun i a => i < a) t bounds := by
  induction bounds with
  | nil =>
    intro t
    simp only [tuples, List.mem_singleton]
    constructor
    · rintro rfl; exact List.Forall₂.nil
    · intro h; cases h; rfl
  | cons a bounds ih =>
    intro t
    simp only [tuples, List.mem_flatMap, List.mem_range, List.mem_map]
    constructor
    · rintro ⟨i, hi, u, hu, rfl⟩
      exact List.Forall₂.cons hi ((ih u).mp hu)
    · intro h
      cases h with
      | cons hi hu => exact ⟨_, hi, _, (ih _).mpr hu, rfl⟩

/-- The tuples are listed in strictly ascending lexicographic order: the last
position varies fastest. So every tuple is listed once. -/
theorem pairwise_tuples (bounds : List Nat) :
    (tuples bounds).Pairwise (List.Lex (fun i j => i < j)) := by
  induction bounds with
  | nil => simp [tuples]
  | cons a bounds ih =>
    rw [tuples, List.pairwise_flatMap]
    refine ⟨?_, ?_⟩
    · intro i _
      rw [List.pairwise_map]
      exact ih.imp (fun h => List.Lex.cons h)
    · refine (List.pairwise_lt_range a).imp ?_
      intro i j hij x hx y hy
      obtain ⟨u, _, rfl⟩ := List.mem_map.mp hx
      obtain ⟨v, _, rfl⟩ := List.mem_map.mp hy
      exact List.Lex.rel hij

theorem nodup_tuples (bounds : List Nat) : (tuples bounds).Nodup := by
  refine (pairwise_tuples bounds).imp ?_
  intro s t hlex
  exact List.Lex.to_ne (List.Lex.imp (fun _ _ h => Nat.ne_of_lt h) s t hlex)

theorem odometer_init (F : Type) (cplaces : CategorizedPlaces F) (tag : GoString) :
    (odometer F).Init tag cplaces = (clusterSizes cplaces tag).map (fun a => (0, a)) := by
  show tag.map _ = _
  rw [clusterSizes, List.map_map]
  rfl

theorem reading_init (bounds : List Nat) : reading (bounds.map (fun a => (0, a))) = 0 := by
  induction bounds with
  | nil => rfl
  | cons a bounds ih => simp [reading, ih]

theorem statesFrom_eq_nil {F I : Type} (iter : MDtagIter F I) (fuel : Nat) (mdIter : I)
    (h : iter.HasNext mdIter = false) : statesFrom iter fuel mdIter = [] := by
  cases fuel with
  | zero => rfl
  | succ fuel => simp [statesFrom, h]

/-- The index tuples that the loop on the odometer visits, for a non-empty
tag: the tuples below the cluster sizes, in odometer order. -/
theorem enumerated_odometer (F : Type) (cplaces : CategorizedPlaces F) (tag : GoString)
    (htag : tag ≠ []) :
    (enumerated (odometer F) ((odometer F).Init tag cplaces)).map (odometer F).Status
      = tuples (clusterSizes cplaces tag) := by
  rw [odometer_init]
  have hne : (clusterSizes cplaces tag).map (fun a => ((0 : Nat), a)) ≠ [] := by
    simpa [clusterSizes] using htag
  have hsnd : ((clusterSizes cplaces tag).map (fun a => ((0 : Nat), a))).map Prod.snd
      = clusterSizes cplaces tag := by
    rw [List.map_map]; exact List.map_id _
  have hcap : capacity ((clusterSizes cplaces tag).map (fun a => ((0 : Nat), a)))
      = (clusterSizes cplaces tag).prod := by rw [capacity_eq, hsnd]
  by_cases hzero : 0 ∈ clusterSizes cplaces tag
  · have hnext : (odometer F).HasNext ((clusterSizes cplaces tag).map (fun a => ((0 : Nat), a)))
        = false := by
      have hall : (((clusterSizes cplaces tag).map (fun a => ((0 : Nat), a))).all
          (fun w => decide (0 < w.2))) = false := by
        rw [List.all_eq_false]
        exact ⟨(0, 0), List.mem_map.mpr ⟨0, hzero, rfl⟩, by simp⟩
      show (((clusterSizes cplaces tag).map (fun a => ((0 : Nat), a))).all
          (fun w => decide (0 < w.2)) && _) = false
      rw [hall, Bool.false_and]
    rw [enumerated, statesFrom_eq_nil _ _ _ hnext, tuples_eq_digits,
      List.prod_eq_zero_iff.mpr hzero]
    rfl
  · have hpos : ∀ w ∈ (clusterSizes cplaces tag).map (fun a => ((0 : Nat), a)), 0 < w.2 := by
      intro w hw
      obtain ⟨a, ha, rfl⟩ := List.mem_map.mp hw
      exact Nat.pos_of_ne_zero (fun h0 => hzero (h0 ▸ ha))
    have htail : ∀ w ∈ ((clusterSizes cplaces tag).map (fun a => ((0 : Nat), a))).tail,
        w.1 < w.2 := by
      intro w hw
      have hw2 := List.mem_of_mem_tail hw
      obtain ⟨a, _, rfl⟩ := List.mem_map.mp hw2
      exact hpos _ hw2
    rw [← statesFrom_of_le (odometer F)
      (max ((odometer F).remaining ((clusterSizes cplaces tag).map (fun a => ((0 : Nat), a))))
        (capacity ((clusterSizes cplaces tag).map (fun a => ((0 : Nat), a)))
          - reading ((clusterSizes cplaces tag).map (fun a => ((0 : Nat), a))))) _
      (le_max_left _ _),
      statesFrom_odometer F _ _ hne htail hpos (le_max_right _ _), reading_init, hsnd, hcap,
      Nat.sub_zero, tuples_eq_digits, List.range_eq_range']

/-- **C11.** For a non-empty tag of length `k` and clusters whose sizes at the
positions of the tag are `a_0, ..., a_{k-1}`, the loop
`Init; while HasNext { use Status; Next }` on the odometer visits exactly the
index tuples below the sizes: the product of the `a_i` in number, each tuple of
in-range indices exactly once, in odometer order with the last position
varying fastest (strictly ascending in the lexicographic order); then it
terminates, at a state without `HasNext`; and if some `a_i` is 0 the body of
the loop is never entered. -/
theorem odometer_enumerates (F : Type) (cplaces : CategorizedPlaces F) (tag : GoString)
    (htag : tag ≠ []) :
    (enumerated (odometer F) ((odometer F).Init tag cplaces)).map (odometer F).Status
        = tuples (clusterSizes cplaces tag)
      ∧ (clusterSizes cplaces tag).length = tag.length
      ∧ (tuples (clusterSizes cplaces tag)).length = (clusterSizes cplaces tag).prod
      ∧ (∀ t, t ∈ tuples (clusterSizes cplaces tag)
          ↔ List.Forall₂ (fun i a => i < a) t (clusterSizes cplaces tag))
      ∧ (tuples (clusterSizes cplaces tag)).Nodup
      ∧ (tuples (clusterSizes cplaces tag)).Pairwise (List.Lex (fun i j => i < j))
      ∧ (odometer F).HasNext ((odometer F).Next^[(enumerated (odometer F)
            ((odometer F).Init tag cplaces)).length] ((odometer F).Init tag cplaces)) = false
      ∧ (0 ∈ clusterSizes cplaces tag →
          enumerated (odometer F) ((odometer F).Init tag cplaces) = []) := by
  have henum := enumerated_odometer F cplaces tag htag
  refine ⟨henum, by simp [clusterSizes], length_tuples _, mem_tuples _, nodup_tuples _,
    pairwise_tuples _, ?_, ?_⟩
  · exact (statesFrom_complete (odometer F) _ _ (le_refl _)).2.2
  · intro hzero
    have hlen := congrArg List.length henum
    rw [List.length_map, length_tuples, List.prod_eq_zero_iff.mpr hzero] at hlen
    exact List.length_eq_zero.mp hlen

/-- Witness of **C11**: the tag `EVV` on the scenario clusters, with two
eateries and two visits: the eight tuples from `(0,0,0)` to `(1,1,1)`; and the
tag `EV` with no eatery: no tuple. -/
theorem odometer_enumerates_witness :
    ascii "EVV" ≠ []
      ∧ ((enumerated (odometer Int) ((odometer Int).Init (ascii "EVV") scenarioClusters)).map
            (odometer Int).Status = tuples (clusterSizes scenarioClusters (ascii "EVV"))
        ∧ (clusterSizes scenarioClusters (ascii "EVV")).length = (ascii "EVV").length
        ∧ (tuples (clusterSizes scenarioClusters (ascii "EVV"))).length
            = (clusterSizes scenarioClusters (ascii "EVV")).prod
        ∧ (∀ t, t ∈ tuples (clusterSizes scenarioClusters (ascii "EVV"))
            ↔ List.Forall₂ (fun i a => i < a) t (clusterSizes scenarioClusters (ascii "EVV")))
        ∧ (tuples (clusterSizes scenarioClusters (ascii "EVV"))).Nodup
        ∧ (tuples (clusterSizes scenarioClusters (ascii "EVV"))).Pairwise
            (List.Lex (fun i j => i < j))
        ∧ (odometer Int).HasNext ((odometer Int).Next^[(enumerated (odometer Int)
              ((odometer Int).Init (ascii "EVV") scenarioClusters)).length]
                ((odometer Int).Init (ascii "EVV") scenarioClusters)) = false
        ∧ (0 ∈ clusterSizes scenarioClusters (ascii "EVV") →
            enumerated (odometer Int) ((odometer Int).Init (ascii "EVV") scenarioClusters)
              = []))
      ∧ (enumerated (odometer Int) ((odometer Int).Init (ascii "EVV") scenarioClusters)).map
          (odometer Int).Status
        = [[0, 0, 0], [0, 0, 1], [0, 1, 0], [0, 1, 1], [1, 0, 0], [1, 0, 1], [1, 1, 0],
            [1, 1, 1]]
      ∧ enumerated (odometer Int)
          ((odometer Int).Init (ascii "EV") ⟨[], scenarioClusters.VisitPlaces⟩) = [] :=
  ⟨by decide, odometer_enumerates Int scenarioClusters (ascii "EVV") (by decide), by decide,
    by decide⟩

/-! ## Candidate tags -/

theorem candidateTagLoop_eq {F : Type} (events : List (TripEvents F)) :
    ∀ solutag count, candidateTagLoop events solutag count
      = (solutag ++ tagOfEvents events, count + (tagOfEvents events).length) := by
  induction events with
  | nil => intro s n; simp [candidateTagLoop, tagOfEvents]
  | cons cand rest ih =>
    intro s n
    unfold candidateTagLoop
    by_cases hE : cand.tag = EventEatery
    · have hcons : tagOfEvents (cand :: rest) = 'E'.toNat :: tagOfEvents rest := by
        simp [tagOfEvents, List.filterMap_cons, hE]
      rw [if_pos hE, ih, hcons]
      refine Prod.ext ?_ ?_
      · simp [ascii]
      · simp only [List.length_cons]; omega
    · rw [if_neg hE]
      by_cases hV : cand.tag = EventVisit
      · have hne : EventVisit ≠ EventEatery := by decide
        have hcons : tagOfEvents (cand :: rest) = 'V'.toNat :: tagOfEvents rest := by
          simp [tagOfEvents, List.filterMap_cons, hV, hne]
        rw [if_pos hV, ih, hcons]
        refine Prod.ext ?_ ?_
        · simp [ascii]
        · simp only [List.length_cons]; omega
      · have hcons : tagOfEvents (cand :: rest) = tagOfEvents rest := by
          simp [tagOfEvents, List.filterMap_cons, hE, hV]
        rw [if_neg hV, ih, hcons]

/-- What `IsCandidateTagValid` computes on a slot solution with a non-empty
tag and at least one stored candidate: it returns true exactly when the tag of
the candidate has the length of the slot tag and does not equal it ignoring
case. -/
theorem IsCandidateTagValid_iff {F : Type} (unicodeFold : Nat → Nat → Bool)
    (slotSolution : SlotSolution F) (slotCandidate : SlotSolutionCandidate F)
    (htag : slotSolution.SlotTag ≠ []) (hcands : slotSolution.SlotSolutionCandidates ≠ []) :
    slotSolution.IsCandidateTagValid unicodeFold slotCandidate = true
      ↔ (tagOfEvents slotCandidate.Candidate).length = slotSolution.SlotTag.length
        ∧ EqualFold unicodeFold (tagOfEvents slotCandidate.Candidate) slotSolution.SlotTag
            = false := by
  have h1 : ¬ (slotSolution.SlotTag.length = 0 ∨ slotSolution.SlotSolutionCandidates.length = 0) := by
    simp [htag, hcands]
  unfold SlotSolution.IsCandidateTagValid
  rw [if_neg h1, candidateTagLoop_eq]
  simp only [List.nil_append, Nat.zero_add]
  by_cases hlen : (tagOfEvents slotCandidate.Candidate).length = slotSolution.SlotTag.length
  · simp only [hlen, ne_eq, not_true_eq_false, if_false, true_and]
    by_cases hf : EqualFold unicodeFold (tagOfEvents slotCandidate.Candidate)
        slotSolution.SlotTag = true
    · simp [hf]
    · simp [hf]
  · simp [hlen]

/-- **C12**, the code at failing inputs. The candidate has an eatery event and
a visit event, so its tag is `EV`. On the slot tag `EV`, which it matches,
`IsCandidateTagValid` returns false; on the slot tag `ev` also; on the slot tag
`VE`, which it does not match, `IsCandidateTagValid` returns true: the test of
`strings.EqualFold` is inverted. -/
theorem IsCandidateTagValid_inverted :
    tagOfEvents eateryVisitCandidate.Candidate = ascii "EV"
      ∧ (∀ unicodeFold, EqualFold unicodeFold (ascii "EV") (ascii "EV") = true
          ∧ EqualFold unicodeFold (ascii "EV") (ascii "ev") = true
          ∧ EqualFold unicodeFold (ascii "EV") (ascii "VE") = false)
      ∧ (∀ unicodeFold, (SlotSolution.mk (ascii "EV") [eateryVisitCandidate]).IsCandidateTagValid
          unicodeFold eateryVisitCandidate = false)
      ∧ (∀ unicodeFold, (SlotSolution.mk (ascii "ev") [eateryVisitCandidate]).IsCandidateTagValid
          unicodeFold eateryVisitCandidate = false)
      ∧ (∀ unicodeFold, (SlotSolution.mk (ascii "VE") [eateryVisitCandidate]).IsCandidateTagValid
          unicodeFold eateryVisitCandidate = true) :=
  ⟨by decide, fun _ => ⟨rfl, rfl, rfl⟩, fun _ => rfl, fun _ => rfl, fun _ => rfl⟩

/-! ## Nearby search -/

theorem GoMap.get_set {V : Type} (m : GoMap V) (zero : V) (key : GoString) (value : V)
    (other : GoString) :
    (m.set key value).get zero other = if key = other then value else m.get zero other := by
  simp [GoMap.set, GoMap.get]

/-- The loop of `parsePlacesSearchResponse`: the places it adds are those of
the results at the positions `idxs`, in ascending order, which are the first
occurrences of the identifiers not marked before; the map it leaves marks what
was marked and the identifiers of the results. -/
theorem parseLoop_spec {F P : Type} (mk : PlaceMaker F P) (locationType : GoString)
    (microAddrMap : Option (GoMap GoString)) (results : List (PlacesSearchResult F)) :
    ∀ (placeMap : GoMap Bool) (places : List P),
      ∃ idxs : List Nat, idxs.Sorted (fun a b => a < b)
        ∧ (∀ k, k ∈ idxs ↔ FirstUnmarked results placeMap k)
        ∧ (parseLoop mk locationType microAddrMap results placeMap places).1
            = places ++ idxs.filterMap (fun k =>
                (results[k]?).map (placeOfResult mk locationType microAddrMap))
        ∧ ∀ id, (parseLoop mk locationType microAddrMap results placeMap places).2.get false id
              = true
            ↔ placeMap.get false id = true ∨ id ∈ results.map (fun res => res.PlaceID) := by
  induction results with
  | nil =>
    intro placeMap places
    refine ⟨[], List.sorted_nil, ?_, by simp [parseLoop], by simp [parseLoop]⟩
    intro k
    simp [FirstUnmarked]
  | cons res rest ih =>
    intro placeMap places
    unfold parseLoop
    by_cases hseen : placeMap.get false res.PlaceID = true
    · rw [if_pos hseen]
      obtain ⟨idxs, hs, hm, hp, hmap⟩ := ih placeMap places
      refine ⟨idxs.map (fun k => k + 1), ?_, ?_, ?_, ?_⟩
      · exact List.pairwise_map.mpr (hs.imp (fun h => Nat.succ_lt_succ h))
      · intro k
        rw [List.mem_map]
        constructor
        · rintro ⟨k', hk', rfl⟩
          obtain ⟨r, hr, hun, hfirst⟩ := (hm k').mp hk'
          refine ⟨r, by simpa using hr, hun, ?_⟩
          intro j other hj hother
          cases j with
          | zero =>
            simp only [List.getElem?_cons_zero, Option.some.injEq] at hother
            subst hother
            intro heq
            rw [heq, hun] at hseen
            exact absurd hseen (by simp)
          | succ j => exact hfirst j other (by omega) (by simpa using hother)
        · rintro ⟨r, hr, hun, hfirst⟩
          cases k with
          | zero =>
            simp only [List.getElem?_cons_zero, Option.some.injEq] at hr
            subst hr
            rw [hun] at hseen
            exact absurd hseen (by simp)
          | succ k =>
            refine ⟨k, (hm k).mpr ⟨r, by simpa using hr, hun, ?_⟩, rfl⟩
            intro j other hj hother
            exact hfirst (j + 1) other (by omega) (by simpa using hother)
      · rw [hp, List.filterMap_map]
        simp only [Function.comp_def, List.getElem?_cons_succ]
      · intro id
        rw [hmap id]
        simp only [List.map_cons, List.mem_cons]
        constructor
        · rintro (h | h)
          · exact Or.inl h
          · exact Or.inr (Or.inr h)
        · rintro (h | h | h)
          · exact Or.inl h
          · exact Or.inl (h ▸ hseen)
          · exact Or.inr h
    · rw [if_neg hseen]
      have hun : placeMap.get false res.PlaceID = false := by simpa using hseen
      obtain ⟨idxs, hs, hm, hp, hmap⟩ := ih (placeMap.set res.PlaceID true)
        (places ++ [placeOfResult mk locationType microAddrMap res])
      have hget : ∀ id, (placeMap.set res.PlaceID true).get false id = false
          ↔ placeMap.get false id = false ∧ res.PlaceID ≠ id := by
        intro id
        rw [GoMap.get_set]
        by_cases h : res.PlaceID = id <;> simp [h]
      refine ⟨0 :: idxs.map (fun k => k + 1), ?_, ?_, ?_, ?_⟩
      · refine List.sorted_cons.mpr ⟨?_, List.pairwise_map.mpr (hs.imp ?_)⟩
        · intro b hb
          obtain ⟨k, _, rfl⟩ := List.mem_map.mp hb
          omega
        · intro a b h; omega
      · intro k
        rw [List.mem_cons, List.mem_map]
        constructor
        · rintro (rfl | ⟨k', hk', rfl⟩)
          · exact ⟨res, List.getElem?_cons_zero, hun,
              fun j other hj _ => absurd hj (Nat.not_lt_zero j)⟩
          · obtain ⟨r, hr, hunr, hfirst⟩ := (hm k').mp hk'
            obtain ⟨hunr1, hne⟩ := (hget r.PlaceID).mp hunr
            refine ⟨r, by simpa using hr, hunr1, ?_⟩
            intro j other hj hother
            cases j with
            | zero =>
              simp only [List.getElem?_cons_zero, Option.some.injEq] at hother
              subst hother
              exact hne
            | succ j => exact hfirst j other (by omega) (by simpa using hother)
        · rintro ⟨r, hr, hunr, hfirst⟩
          cases k with
          | zero => exact Or.inl rfl
          | succ k =>
            right
            have hne : res.PlaceID ≠ r.PlaceID :=
              hfirst 0 res (by omega) List.getElem?_cons_zero
            refine ⟨k, (hm k).mpr ⟨r, by simpa using hr, (hget r.PlaceID).mpr ⟨hunr, hne⟩, ?_⟩,
              rfl⟩
            intro j other hj hother
            exact hfirst (j + 1) other (by omega) (by simpa using hother)
      · rw [hp, List.filterMap_cons, List.filterMap_map]
        simp only [List.getElem?_cons_zero, Option.map_some', List.append_assoc,
          List.singleton_append, Function.comp_def, List.getElem?_cons_succ]
      · intro id
        rw [hmap id, GoMap.get_set]
        simp only [List.map_cons, List.mem_cons]
        by_cases h : res.PlaceID = id
        · simp [h]
        · have h2 : ¬ id = res.PlaceID := fun e => h e.symm
          simp [h, h2]

theorem GetID_placeOfResult {F P : Type} (mk : PlaceMaker F P) (locationType : GoString)
    (microAddrMap : Option (GoMap GoString)) (res : PlacesSearchResult F) :
    mk.GetID (placeOfResult mk locationType microAddrMap res) = res.PlaceID := by
  unfold placeOfResult
  exact mk.id_CreatePlace _ _ _ _ _ _ _ _ _

/-- The identifiers of the places that `parsePlacesSearchResponse` returns:
they are pairwise distinct, none of them was marked before the call, each is
an identifier of the response, and the map left marks what was marked before
and every identifier of the response. -/
theorem parsePlacesSearchResponse_ids {F P : Type} (mk : PlaceMaker F P)
    (resp : PlacesSearchResponse F) (locationType : GoString)
    (microAddrMap : Option (GoMap GoString)) (placeMap : GoMap Bool) :
    ((parsePlacesSearchResponse mk resp locationType microAddrMap placeMap).1.map mk.GetID).Nodup
      ∧ (∀ p ∈ (parsePlacesSearchResponse mk resp locationType microAddrMap placeMap).1,
          placeMap.get false (mk.GetID p) = false
            ∧ mk.GetID p ∈ resp.Results.map (fun res => res.PlaceID))
      ∧ (∀ id, (parsePlacesSearchResponse mk resp locationType microAddrMap placeMap).2.get
            false id = true
          ↔ placeMap.get false id = true ∨ id ∈ resp.Results.map (fun res => res.PlaceID)) := by
  obtain ⟨idxs, hs, hm, hp, hmap⟩ :=
    parseLoop_spec mk locationType microAddrMap resp.Results placeMap []
  have hp2 : (parsePlacesSearchResponse mk resp locationType microAddrMap placeMap).1
      = idxs.filterMap (fun k =>
          (resp.Results[k]?).map (placeOfResult mk locationType microAddrMap)) := by
    rw [parsePlacesSearchResponse, hp, List.nil_append]
  have hids : (parsePlacesSearchResponse mk resp locationType microAddrMap placeMap).1.map
      mk.GetID = idxs.filterMap (fun k => (resp.Results[k]?).map (fun res => res.PlaceID)) := by
    rw [hp2, List.map_filterMap]
    apply List.filterMap_congr
    intro k _
    cases resp.Results[k]? with
    | none => rfl
    | some res => simp [GetID_placeOfResult]
  refine ⟨?_, ?_, ?_⟩
  · rw [hids]
    refine List.Pairwise.filterMap _ ?_ (List.Pairwise.and_mem.mp hs)
    rintro a b ⟨_, hb, hab⟩ x hx y hy
    obtain ⟨r, hr, _, hfirst⟩ := (hm b).mp hb
    rw [hr] at hy
    simp only [Option.map_some', Option.mem_def, Option.some.injEq] at hy
    rcases hra : resp.Results[a]? with _ | ra
    · rw [hra] at hx; simp at hx
    · rw [hra] at hx
      simp only [Option.map_some', Option.mem_def, Option.some.injEq] at hx
      rw [← hx, ← hy]
      exact hfirst a ra hab hra
  · intro p hp
    rw [hp2, List.mem_filterMap] at hp
    obtain ⟨k, hk, hkp⟩ := hp
    obtain ⟨r, hr, hun, _⟩ := (hm k).mp hk
    rw [hr] at hkp
    simp only [Option.map_some', Option.some.injEq] at hkp
    rw [← hkp, GetID_placeOfResult]
    exact ⟨hun, List.mem_map.mpr ⟨r, List.getElem?_mem hr, rfl⟩⟩
  · intro id
    exact hmap id

/-- The accumulation over successive calls that share one `placeMap` keeps the
identifiers of the places pairwise distinct and marked. -/
theorem accumulatePlaces_nodup {F P : Type} (mk : PlaceMaker F P)
    (calls : List (PlacesSearchResponse F × GoString × Option (GoMap GoString))) :
    ∀ (placeMap : GoMap Bool) (places : List P),
      (places.map mk.GetID).Nodup →
      (∀ p ∈ places, placeMap.get false (mk.GetID p) = true) →
      ((accumulatePlaces mk calls placeMap places).1.map mk.GetID).Nodup
        ∧ ∀ p ∈ (accumulatePlaces mk calls placeMap places).1,
            (accumulatePlaces mk calls placeMap places).2.get false (mk.GetID p) = true := by
  induction calls with
  | nil => intro placeMap places h1 h2; exact ⟨h1, h2⟩
  | cons call rest ih =>
    intro placeMap places h1 h2
    obtain ⟨resp, locationType, microAddrMap⟩ := call
    obtain ⟨g1, g2, g3⟩ :=
      parsePlacesSearchResponse_ids mk resp locationType microAddrMap placeMap
    unfold accumulatePlaces
    apply ih
    · rw [List.map_append]
      refine List.Nodup.append h1 g1 ?_
      intro id hid1 hid2
      obtain ⟨p, hp, rfl⟩ := List.mem_map.mp hid1
      obtain ⟨q, hq, hqp⟩ := List.mem_map.mp hid2
      have := (g2 q hq).1
      rw [hqp, h2 p hp] at this
      exact absurd this (by simp)
    · intro p hp
      rcases List.mem_append.mp hp with hp | hp
      · exact (g3 _).mpr (Or.inl (h2 p hp))
      · exact (g3 _).mpr (Or.inr (g2 p hp).2)

/-- **C13.** For every search response and every map `placeMap` of seen
identifiers, `parsePlacesSearchResponse` returns, in response order, exactly
one place for the first occurrence of each `PlaceID` of the response that was
not marked in `placeMap` (the positions `idxs`); the returned places have
pairwise distinct identifiers, none of which was marked before the call; after
the call `placeMap` marks every `PlaceID` of the response and what it marked
before. Hence the places accumulated by successive calls that share one
`placeMap`, empty at the start, have pairwise distinct identifiers. -/
theorem parsePlacesSearchResponse_dedup {F P : Type} (mk : PlaceMaker F P)
    (resp : PlacesSearchResponse F) (locationType : GoString)
    (microAddrMap : Option (GoMap GoString)) (placeMap : GoMap Bool) :
    (∃ idxs : List Nat, idxs.Sorted (fun a b => a < b)
        ∧ (∀ k, k ∈ idxs ↔ FirstUnmarked resp.Results placeMap k)
        ∧ (parsePlacesSearchResponse mk resp locationType microAddrMap placeMap).1.map some
            = idxs.map (fun k =>
                (resp.Results[k]?).map (placeOfResult mk locationType microAddrMap)))
      ∧ ((parsePlacesSearchResponse mk resp locationType microAddrMap placeMap).1.map
          mk.GetID).Nodup
      ∧ (∀ p ∈ (parsePlacesSearchResponse mk resp locationType microAddrMap placeMap).1,
          placeMap.get false (mk.GetID p) = false)
      ∧ (∀ res ∈ resp.Results,
          (parsePlacesSearchResponse mk resp locationType microAddrMap placeMap).2.get false
            res.PlaceID = true)
      ∧ (∀ id, placeMap.get false id = true →
          (parsePlacesSearchResponse mk resp locationType microAddrMap placeMap).2.get false id
            = true)
      ∧ ∀ calls : List (PlacesSearchResponse F × GoString × Option (GoMap GoString)),
          ((accumulatePlaces mk calls [] []).1.map mk.GetID).Nodup := by
  obtain ⟨idxs, hs, hm, hp, _⟩ :=
    parseLoop_spec mk locationType microAddrMap resp.Results placeMap []
  obtain ⟨g1, g2, g3⟩ := parsePlacesSearchResponse_ids mk resp locationType microAddrMap placeMap
  refine ⟨⟨idxs, hs, hm, ?_⟩, g1, fun p hp => (g2 p hp).1, ?_, ?_, ?_⟩
  · rw [parsePlacesSearchResponse, hp, List.nil_append, List.map_filterMap]
    have hsome : ∀ k ∈ idxs, ∃ res, resp.Results[k]? = some res := by
      intro k hk
      obtain ⟨r, hr, _⟩ := (hm k).mp hk
      exact ⟨r, hr⟩
    clear hs hm hp
    induction idxs with
    | nil => rfl
    | cons k idxs ih =>
      obtain ⟨r, hr⟩ := hsome k (List.mem_cons_self _ _)
      rw [List.filterMap_cons, List.map_cons, ih (fun j hj => hsome j (List.mem_cons_of_mem _ hj))]
      simp [hr]
  · intro res hres
    exact (g3 _).mpr (Or.inr (List.mem_map.mpr ⟨res, hres, rfl⟩))
  · intro id hid
    exact (g3 _).mpr (Or.inl hid)
  · intro calls
    exact (accumulatePlaces_nodup mk calls [] [] List.nodup_nil (by simp)).1

/-- Witness of **C13**: a response with the identifiers `a`, `b`, `a`, `c`, `b`
and a map that marks `b`. The places of the positions 0 and 3 are returned,
those of `a` and `c`; after the call `a`, `b` and `c` are marked. -/
theorem parsePlacesSearchResponse_dedup_witness :
    ((∃ idxs : List Nat, idxs.Sorted (fun a b => a < b)
        ∧ (∀ k, k ∈ idxs ↔ FirstUnmarked
            [scenarioResult "a" true, scenarioResult "b" true, scenarioResult "a" false,
              scenarioResult "c" true, scenarioResult "b" false]
            [(ascii "b", true)] k)
        ∧ (parsePlacesSearchResponse scenarioMaker
            ⟨[scenarioResult "a" true, scenarioResult "b" true, scenarioResult "a" false,
              scenarioResult "c" true, scenarioResult "b" false], []⟩
            (ascii "park") none [(ascii "b", true)]).1.map some
          = idxs.map (fun k =>
              ([scenarioResult "a" true, scenarioResult "b" true, scenarioResult "a" false,
                scenarioResult "c" true, scenarioResult "b" false][k]?).map
                (placeOfResult scenarioMaker (ascii "park") none)))
      ∧ ((parsePlacesSearchResponse scenarioMaker
            ⟨[scenarioResult "a" true, scenarioResult "b" true, scenarioResult "a" false,
              scenarioResult "c" true, scenarioResult "b" false], []⟩
            (ascii "park") none [(ascii "b", true)]).1.map scenarioMaker.GetID).Nodup
      ∧ (∀ p ∈ (parsePlacesSearchResponse scenarioMaker
            ⟨[scenarioResult "a" true, scenarioResult "b" true, scenarioResult "a" false,
              scenarioResult "c" true, scenarioResult "b" false], []⟩
            (ascii "park") none [(ascii "b", true)]).1,
          GoMap.get [(ascii "b", true)] false (scenarioMaker.GetID p) = false)
      ∧ (∀ res ∈ [scenarioResult "a" true, scenarioResult "b" true, scenarioResult "a" false,
              scenarioResult "c" true, scenarioResult "b" false],
          (parsePlacesSearchResponse scenarioMaker
            ⟨[scenarioResult "a" true, scenarioResult "b" true, scenarioResult "a" false,
              scenarioResult "c" true, scenarioResult "b" false], []⟩
            (ascii "park") none [(ascii "b", true)]).2.get false res.PlaceID = true)
      ∧ (∀ id, GoMap.get [(ascii "b", true)] false id = true →
          (parsePlacesSearchResponse scenarioMaker
            ⟨[scenarioResult "a" true, scenarioResult "b" true, scenarioResult "a" false,
              scenarioResult "c" true, scenarioResult "b" false], []⟩
            (ascii "park") none [(ascii "b", true)]).2.get false id = true)
      ∧ ∀ calls : List (PlacesSearchResponse Int × GoString × Option (GoMap GoString)),
          ((accumulatePlaces scenarioMaker calls [] []).1.map scenarioMaker.GetID).Nodup)
      ∧ (parsePlacesSearchResponse scenarioMaker
            ⟨[scenarioResult "a" true, scenarioResult "b" true, scenarioResult "a" false,
              scenarioResult "c" true, scenarioResult "b" false], []⟩
            (ascii "park") none [(ascii "b", true)]).1.map scenarioMaker.GetID
          = [ascii "a", ascii "c"] :=
  ⟨parsePlacesSearchResponse_dedup scenarioMaker
      ⟨[scenarioResult "a" true, scenarioResult "b" true, scenarioResult "a" false,
        scenarioResult "c" true, scenarioResult "b" false], []⟩
      (ascii "park") none [(ascii "b", true)], by decide⟩

/-- The loop over `placeIdMap` panics exactly when the response position of
some entry is not below the length of `detailSearchResults`. -/
theorem detailLoop_eq_none_iff (client : Option (GoString → PlaceDetailsResult))
    (entries : List (Nat × GoString)) :
    ∀ detailSearchResults : List PlaceDetailSearchRes,
      detailLoop client entries detailSearchResults = none
        ↔ ∃ entry ∈ entries, detailSearchResults.length ≤ entry.1 := by
  induction entries with
  | nil => intro ds; simp [detailLoop]
  | cons entry rest ih =>
    intro ds
    obtain ⟨idx, placeId⟩ := entry
    unfold detailLoop
    by_cases h : idx < ds.length
    · rw [if_pos h, ih]
      have hlen : (match PlaceDetailedSearch client placeId with
          | none => ds
          | some searchRes => ds.set idx ⟨some searchRes, idx⟩).length = ds.length := by
        cases PlaceDetailedSearch client placeId <;> simp
      rw [hlen]
      constructor
      · rintro ⟨e, he, hle⟩
        exact ⟨e, List.mem_cons_of_mem _ he, hle⟩
      · rintro ⟨e, he, hle⟩
        rcases List.mem_cons.mp he with rfl | he
        · simp only [] at hle; omega
        · exact ⟨e, he, hle⟩
    · rw [if_neg h]
      simp only [true_iff]
      exact ⟨(idx, placeId), List.mem_cons_self _ _, by simpa using h⟩

/-- The detail enrichment panics on an index out of range as soon as a result
without opening hours stands at a response position that is not below the
number of such results: `detailSearchResults` has that number as its length
and is addressed by the response position. -/
theorem enrichDetails_indexOutOfRange {F : Type}
    (PlaceDetails : GoString → PlaceDetailsResult)
    (results : List (PlacesSearchResult F)) (microAddrMap : GoMap GoString)
    (entry : Nat × GoString) (hentry : entry ∈ placeIdMapFrom results 0)
    (hpos : (placeIdMapFrom results 0).length ≤ entry.1) :
    enrichDetails PlaceDetails results microAddrMap = Enrichment.indexOutOfRange := by
  have hnone : detailLoop (some PlaceDetails) (placeIdMapFrom results 0)
      (List.replicate (placeIdMapFrom results 0).length ⟨none, 0⟩) = none :=
    (detailLoop_eq_none_iff _ _ _).mpr ⟨entry, hentry, by simpa using hpos⟩
  unfold enrichDetails
  rw [hnone]

/-- **C14**, the code at the failing input. A response whose first result has
opening hours and whose second result has none: `placeIdMap` is `{1: b}`, so
`detailSearchResults` has length 1 and is addressed at index 1, which is not
below its length: the enrichment panics on an index out of range. When the
results without opening hours come first, the enrichment goes through. -/
theorem enrichDetails_unsafe :
    placeIdMapFrom [scenarioResult "a" true, scenarioResult "b" false] 0 = [(1, ascii "b")]
      ∧ ¬ (1 < (placeIdMapFrom [scenarioResult "a" true, scenarioResult "b" false] 0).length)
      ∧ enrichDetails detailsFound [scenarioResult "a" true, scenarioResult "b" false] []
          = Enrichment.indexOutOfRange
      ∧ (∃ results microAddrMap,
          enrichDetails detailsFound [scenarioResult "a" false, scenarioResult "b" true] []
            = Enrichment.enriched results microAddrMap) :=
  ⟨by decide, by decide, by decide, ⟨_, _, rfl⟩⟩


/-- The entries of `placeIdMap`: their positions are strictly ascending, from
the position the loop is entered at, and below the length of the response. -/
theorem placeIdMapFrom_positions {F : Type} (results : List (PlacesSearchResult F)) :
    ∀ k, ((placeIdMapFrom results k).map Prod.fst).Sorted (fun a b => a < b)
      ∧ ∀ idx ∈ (placeIdMapFrom results k).map Prod.fst, k ≤ idx ∧ idx < k + results.length := by
  induction results with
  | nil => intro k; simp [placeIdMapFrom]
  | cons res rest ih =>
    intro k
    obtain ⟨h1, h2⟩ := ih (k + 1)
    have hrest : ∀ idx ∈ (placeIdMapFrom rest (k + 1)).map Prod.fst,
        k ≤ idx ∧ idx < k + (res :: rest).length := by
      intro idx hidx
      have := h2 idx hidx
      simp only [List.length_cons]
      omega
    unfold placeIdMapFrom
    split
    · exact ⟨h1, hrest⟩
    · refine ⟨?_, ?_⟩
      · rw [List.map_cons]
        refine List.sorted_cons.mpr ⟨?_, h1⟩
        intro idx hidx
        have := h2 idx hidx
        simp only []
        omega
      · intro idx hidx
        rw [List.map_cons, List.mem_cons] at hidx
        rcases hidx with rfl | hidx
        · simp only [List.length_cons]; omega
        · exact hrest idx hidx

/-- With a client, and no index out of range, the loop over `placeIdMap` leaves
at every position of an entry a non-nil `Res` with that position as `RespIdx`,
and leaves the other positions as they were. -/
theorem detailLoop_some (PlaceDetails : GoString → PlaceDetailsResult)
    (entries : List (Nat × GoString)) :
    ∀ detailSearchResults : List PlaceDetailSearchRes,
      (∀ entry ∈ entries, entry.1 < detailSearchResults.length) →
      ∃ filled, detailLoop (some PlaceDetails) entries detailSearchResults = some filled
        ∧ filled.length = detailSearchResults.length
        ∧ ∀ i, (i ∈ entries.map Prod.fst → ∃ details, filled[i]? = some ⟨some details, i⟩)
            ∧ (i ∉ entries.map Prod.fst → filled[i]? = detailSearchResults[i]?) := by
  induction entries with
  | nil =>
    intro ds _
    exact ⟨ds, rfl, rfl, fun i => ⟨fun h => absurd h (by simp), fun _ => rfl⟩⟩
  | cons entry rest ih =>
    intro ds hin
    obtain ⟨idx, placeId⟩ := entry
    have hidx : idx < ds.length := hin (idx, placeId) (List.mem_cons_self _ _)
    obtain ⟨filled, hf1, hf2, hf3⟩ := ih (ds.set idx ⟨some (PlaceDetails placeId), idx⟩)
      (fun e he => by
        rw [List.length_set]
        exact hin e (List.mem_cons_of_mem _ he))
    refine ⟨filled, ?_, ?_, ?_⟩
    · unfold detailLoop
      rw [if_pos hidx]
      exact hf1
    · rw [hf2, List.length_set]
    · intro i
      by_cases hrest : i ∈ rest.map Prod.fst
      · exact ⟨fun _ => (hf3 i).1 hrest,
          fun hnot => absurd (List.mem_cons_of_mem _ hrest) (by simpa using hnot)⟩
      · have hkeep := (hf3 i).2 hrest
        refine ⟨?_, ?_⟩
        · intro hi
          rw [List.map_cons, List.mem_cons] at hi
          rcases hi with rfl | hi
          · refine ⟨PlaceDetails placeId, ?_⟩
            rw [hkeep, List.getElem?_set_self hidx]
          · exact absurd hi hrest
        · intro hnot
          rw [List.map_cons, List.mem_cons, not_or] at hnot
          rw [hkeep, List.getElem?_set_ne (fun h => hnot.1 h.symm)]

/-- The read-back goes through when every entry has a non-nil `Res` and a
`RespIdx` below the length of the response. -/
theorem readBackLoop_enriched {F : Type} (detailSearchResults : List PlaceDetailSearchRes) :
    ∀ (results : List (PlacesSearchResult F)) (microAddrMap : GoMap GoString),
      (∀ placeDetails ∈ detailSearchResults,
        placeDetails.Res ≠ none ∧ placeDetails.RespIdx < results.length) →
      ∃ enriched addrs, readBackLoop detailSearchResults results microAddrMap
        = Enrichment.enriched enriched addrs := by
  induction detailSearchResults with
  | nil => intro results m _; exact ⟨results, m, rfl⟩
  | cons d rest ih =>
    intro results m h
    obtain ⟨hres, hidx⟩ := h d (List.mem_cons_self _ _)
    obtain ⟨details, hd⟩ := Option.ne_none_iff_exists'.mp hres
    unfold readBackLoop
    rw [hd, List.getElem?_eq_getElem hidx]
    apply ih
    intro e he
    rw [List.length_set]
    exact h e (List.mem_cons_of_mem _ he)

/-- With a client, the detail enrichment never dereferences a nil `Res`: when
every position of a result without opening hours is below the number of such
results, every entry of `detailSearchResults` is written and the enrichment
goes through. So the enrichment is safe exactly when no index is out of
range. -/
theorem enrichDetails_enriched {F : Type} (PlaceDetails : GoString → PlaceDetailsResult)
    (results : List (PlacesSearchResult F)) (microAddrMap : GoMap GoString)
    (hin : ∀ entry ∈ placeIdMapFrom results 0, entry.1 < (placeIdMapFrom results 0).length) :
    ∃ enriched addrs, enrichDetails PlaceDetails results microAddrMap
      = Enrichment.enriched enriched addrs := by
  obtain ⟨hsorted, hpos⟩ := placeIdMapFrom_positions results 0
  obtain ⟨filled, hf1, hf2, hf3⟩ := detailLoop_some PlaceDetails (placeIdMapFrom results 0)
    (List.replicate (placeIdMapFrom results 0).length ⟨none, 0⟩) (by simpa using hin)
  rw [List.length_replicate] at hf2
  have hnodup : ((placeIdMapFrom results 0).map Prod.fst).Nodup :=
    hsorted.imp (fun h => Nat.ne_of_lt h)
  have hsub : (placeIdMapFrom results 0).map Prod.fst
      ⊆ List.range (placeIdMapFrom results 0).length := by
    intro idx hidx
    obtain ⟨e, he, rfl⟩ := List.mem_map.mp hidx
    exact List.mem_range.mpr (hin e he)
  have hperm : ((placeIdMapFrom results 0).map Prod.fst).Perm
      (List.range (placeIdMapFrom results 0).length) :=
    (List.subperm_of_subset hnodup hsub).perm_of_length_le (by simp)
  unfold enrichDetails
  rw [hf1]
  apply readBackLoop_enriched
  intro d hd
  obtain ⟨i, hi⟩ := List.mem_iff_getElem?.mp hd
  have hilt : i < filled.length := (List.getElem?_eq_some.mp hi).1
  have hmem : i ∈ (placeIdMapFrom results 0).map Prod.fst :=
    hperm.mem_iff.mpr (List.mem_range.mpr (hf2 ▸ hilt))
  obtain ⟨details, hdet⟩ := (hf3 i).1 hmem
  rw [hi] at hdet
  have hdeq : d = ⟨some details, i⟩ := Option.some.inj hdet
  subst hdeq
  refine ⟨by simp, ?_⟩
  have := (hpos i hmem).2
  simpa using this

end VacationPlanner
